import Mathlib

/-! Verification of `queue.c`.

A shallow embedding of the queue operations of `queue.c` (a queue of strings kept in a
circular doubly-linked list with a sentinel node) and proofs about them.

Pointers are natural numbers, `0` is `NULL`.  The memory is a record of total maps from
addresses to the fields stored there.  An element (`element_t`) is identified with the
address of the `list_head` embedded in it, so `list_entry (node, element_t, list)` is the
identity on addresses and `value` maps a node to the string owned by its element.
Every `while` loop of the source is a function that recurses on a fuel argument and
returns `none` when the fuel runs out.
-/

namespace Queue

/-! ## Memory -/

/-- Pointwise update of a map from addresses. -/
def upd {α : Type} (f : Nat → α) (a : Nat) (v : α) : Nat → α :=
  fun x => if x = a then v else f x

/-- The memory: the `next` and `prev` fields of every `struct list_head`, the string
(`value`, the bytes before the terminating NUL) of the element at every address, and the
log of the elements handed to `q_release_element`, oldest first. -/
structure Heap where
  next : Nat → Nat
  prev : Nat → Nat
  value : Nat → List Nat
  released : List Nat

/-- The assignment `a->next = v`. -/
def Heap.setNext (h : Heap) (a v : Nat) : Heap :=
  { h with next := upd h.next a v }

/-- The assignment `a->prev = v`. -/
def Heap.setPrev (h : Heap) (a v : Nat) : Heap :=
  { h with prev := upd h.prev a v }

/-! ## The list primitives of `list.h` and `strcmp` -/

/-- Modelled from the spec: `list_empty` of `list.h`, which is not among the sources; the
queue is empty exactly when the sentinel links to itself. -/
def list_empty (h : Heap) (head : Nat) : Bool :=
  h.next head == head

/-- Modelled from the spec: `list_is_singular` of `list.h`, which is not among the sources;
the queue has exactly one element. -/
def list_is_singular (h : Heap) (head : Nat) : Bool :=
  !list_empty h head && (h.prev head == h.next head)

/-- Modelled from the spec: `list_del` of `list.h`, which is not among the sources; the
node is unlinked and the ring is re-linked around it. -/
def list_del (h : Heap) (node : Nat) : Heap :=
  let next := h.next node
  let prev := h.prev node
  (h.setPrev next prev).setNext prev next

/-- Modelled from the spec: `list_add` of `list.h`, which is not among the sources; `node`
is linked immediately after `head`. -/
def list_add (h : Heap) (node head : Nat) : Heap :=
  let next := h.next head
  (((h.setPrev next node).setNext node next).setPrev node head).setNext head node

/-- The C library's `strcmp` on the bytes of two strings: the sign of the difference of the
first pair of bytes that differ, reading each string up to its first NUL (the end of the
list stands for the terminating NUL). -/
def strcmp : List Nat → List Nat → Int
  | [], [] => 0
  | [], b :: _ => 0 - (b : Int)
  | a :: _, [] => (a : Int)
  | a :: as, b :: bs =>
    if a = b then (if a = 0 then 0 else strcmp as bs) else (a : Int) - (b : Int)

/-- `q_release_element`: the element's string and the element are freed. -/
def q_release_element (h : Heap) (e : Nat) : Heap :=
  { h with released := h.released ++ [e] }

/-! ## Well-formed queues -/

/-- Following `f` from `a` visits exactly the nodes `xs`, in order, and then reaches `b`. -/
def Path (f : Nat → Nat) : Nat → List Nat → Nat → Prop
  | a, [], b => a = b
  | a, x :: xs, b => a = x ∧ Path f (f x) xs b

instance Path.dec (f : Nat → Nat) : ∀ (a : Nat) (xs : List Nat) (b : Nat),
    Decidable (Path f a xs b)
  | a, [], b => inferInstanceAs (Decidable (a = b))
  | _, x :: xs, b => @instDecidableAnd _ _ _ (Path.dec f (f x) xs b)

/-- A well-formed queue: the sentinel `head` and the elements `xs` are distinct non-null
nodes, the forward traversal from the sentinel visits `xs` and returns to the sentinel,
and the backward traversal visits `xs` in reverse and returns to the sentinel. -/
def Ring (h : Heap) (head : Nat) (xs : List Nat) : Prop :=
  (head :: xs).Nodup ∧ 0 ∉ head :: xs ∧
    Path h.next (h.next head) xs head ∧ Path h.prev (h.prev head) xs.reverse head

instance Ring.dec (h : Heap) (head : Nat) (xs : List Nat) : Decidable (Ring h head xs) := by
  unfold Ring; infer_instance

/-- The first node of `xs`, or `d` when `xs` is empty. -/
def firstD : List Nat → Nat → Nat
  | [], d => d
  | x :: _, _ => x

/-- The last node of `xs`, or `d` when `xs` is empty. -/
def lastD : List Nat → Nat → Nat
  | [], d => d
  | x :: xs, _ => lastD xs x

/-- The linkage invariant at one node. -/
def LinkOK (h : Heap) (n : Nat) : Prop :=
  h.prev (h.next n) = n ∧ h.next (h.prev n) = n

/-! ## `q_delete_mid` -/

/-- The loop of `q_delete_mid`; the result is the final `slow`. -/
def q_delete_mid_loop : Nat → Heap → Nat → Nat → Nat → Option Nat
  | 0, _, _, _, _ => none
  | fuel + 1, h, head, fast, slow =>
    if fast ≠ head ∧ h.next fast ≠ head then
      q_delete_mid_loop fuel h head (h.next (h.next fast)) (h.next slow)
    else some slow

/-- `q_delete_mid`: the final memory and the value returned. -/
def q_delete_mid (fuel : Nat) (h : Heap) (head : Nat) : Option (Heap × Bool) :=
  if head = 0 ∨ h.next head = 0 then some (h, false)
  else
    match q_delete_mid_loop fuel h head (h.next head) (h.next head) with
    | none => none
    | some slow => some (q_release_element (list_del h slow) slow, true)

/-! ## `q_delete_dup` -/

/-- The inner loop of `q_delete_dup`: the final memory, `next` and `key`. -/
def q_delete_dup_inner : Nat → Heap → Nat → Nat → Nat → Bool → Option (Heap × Nat × Bool)
  | 0, _, _, _, _, _ => none
  | fuel + 1, h, head, curr, next, key =>
    if next ≠ head ∧ strcmp (h.value curr) (h.value next) = 0 then
      let h1 := q_release_element (list_del h next) next
      q_delete_dup_inner fuel h1 head curr (h1.next curr) true
    else some (h, next, key)

/-- The outer loop of `q_delete_dup`. -/
def q_delete_dup_loop : Nat → Heap → Nat → Nat → Nat → Bool → Option Heap
  | 0, _, _, _, _, _ => none
  | fuel + 1, h, head, curr, next, key =>
    if curr ≠ head ∧ next ≠ head then
      match q_delete_dup_inner fuel h head curr next key with
      | none => none
      | some (h1, next1, key1) =>
        let r := if key1 then (q_release_element (list_del h1 curr) curr, false) else (h1, key1)
        q_delete_dup_loop fuel r.1 head next1 (r.1.next next1) r.2
    else some h

/-- `q_delete_dup`: the final memory and the value returned. -/
def q_delete_dup (fuel : Nat) (h : Heap) (head : Nat) : Option (Heap × Bool) :=
  if head = 0 ∨ list_empty h head then some (h, false)
  else
    match q_delete_dup_loop fuel h head (h.next head) (h.next (h.next head)) false with
    | none => none
    | some h1 => some (h1, true)

/-- The strings of two elements compare equal. -/
def sameStr (v : Nat → List Nat) (a b : Nat) : Bool :=
  decide (strcmp (v a) (v b) = 0)

/-- The elements of a sequence that have the same string as neither neighbour; `p` is the
element before the sequence, if any. -/
def dropRuns (v : Nat → List Nat) : Option Nat → List Nat → List Nat
  | _, [] => []
  | p, c :: rest =>
    if p.any (fun q => sameStr v q c) || rest.head?.any (fun y => sameStr v c y) then
      dropRuns v (some c) rest
    else c :: dropRuns v (some c) rest

/-! ## `q_swap` -/

/-- The loop of `q_swap`. -/
def q_swap_loop : Nat → Heap → Nat → Nat → Option Heap
  | 0, _, _, _ => none
  | fuel + 1, h, head, first =>
    if first ≠ head ∧ h.next first ≠ head then
      let second := h.next first
      let h1 := list_add (list_del h first) first second
      q_swap_loop fuel h1 head (h1.next first)
    else some h

/-- `q_swap`. -/
def q_swap (fuel : Nat) (h : Heap) (head : Nat) : Option Heap :=
  if head = 0 ∨ h.next head = 0 ∨ list_empty h head then some h
  else q_swap_loop fuel h head (h.next head)

/-- Adjacent pairs exchanged, an odd last element left in place. -/
def swapPairs : List Nat → List Nat
  | a :: b :: rest => b :: a :: swapPairs rest
  | l => l

/-! ## `q_reverse` -/

/-- The loop of `q_reverse`. -/
def q_reverse_loop : Nat → Heap → Nat → Nat → Nat → Nat → Option Heap
  | 0, _, _, _, _, _ => none
  | fuel + 1, h, head, curr, next, prev =>
    if next ≠ head then
      let next1 := h.next curr
      let h1 := (h.setNext curr prev).setPrev curr next1
      q_reverse_loop fuel h1 head next1 next1 curr
    else some h

/-- `q_reverse`. -/
def q_reverse (fuel : Nat) (h : Heap) (head : Nat) : Option Heap :=
  if head = 0 ∨ list_is_singular h head ∨ list_empty h head then some h
  else q_reverse_loop fuel h head head 0 (h.prev head)

/-! ## `q_sort` -/

/-- The target of the indirect pointer `ptr` of `merge`: `none` is the address of the local
variable `head`, `some a` is the address of the field `a->next`.  The store `*ptr = v` on
the memory and the local variable. -/
def storePtr (h : Heap) (hd : Nat) : Option Nat → Nat → Heap × Nat
  | none, v => (h, v)
  | some a, v => (h.setNext a v, hd)

/-- The load `*ptr`. -/
def loadPtr (h : Heap) (hd : Nat) : Option Nat → Nat
  | none => hd
  | some a => h.next a

/-- The loop of `merge`: the final memory, local `head`, `ptr`, `left` and `right`. -/
def merge_loop : Nat → Heap → Nat → Option Nat → Nat → Nat →
    Option (Heap × Nat × Option Nat × Nat × Nat)
  | 0, _, _, _, _, _ => none
  | fuel + 1, h, hd, ptr, left, right =>
    if left ≠ 0 ∧ right ≠ 0 then
      if strcmp (h.value left) (h.value right) ≤ 0 then
        let s := storePtr h hd ptr left
        merge_loop fuel s.1 s.2 (some (loadPtr s.1 s.2 ptr)) (s.1.next left) right
      else
        let s := storePtr h hd ptr right
        merge_loop fuel s.1 s.2 (some (loadPtr s.1 s.2 ptr)) left (s.1.next right)
    else some (h, hd, ptr, left, right)

/-- `merge`: the final memory and the pointer returned.  One of `left` and `right` is
`NULL` after the loop and the bitwise or of the two 64-bit addresses is stored. -/
def merge (fuel : Nat) (h : Heap) (left right : Nat) : Option (Heap × Nat) :=
  match merge_loop fuel h 0 none left right with
  | none => none
  | some (h1, hd, ptr, left1, right1) => some (storePtr h1 hd ptr (left1 ||| right1))

/-- The fast/slow loop of `mergesort`; the result is the final `slow`. -/
def mergesort_split : Nat → Heap → Nat → Nat → Option Nat
  | 0, _, _, _ => none
  | fuel + 1, h, fast, slow =>
    if fast ≠ 0 ∧ h.next fast ≠ 0 then
      mergesort_split fuel h (h.next (h.next fast)) (h.next slow)
    else some slow

/-- `mergesort`: the final memory and the pointer returned. -/
def mergesort : Nat → Heap → Nat → Option (Heap × Nat)
  | 0, _, _ => none
  | fuel + 1, h, head =>
    if head = 0 ∨ h.next head = 0 then some (h, head)
    else
      match mergesort_split fuel h (h.next head) (h.next head) with
      | none => none
      | some slow =>
        let mid := slow
        let h1 := h.setNext (h.prev slow) 0
        match mergesort fuel h1 head with
        | none => none
        | some (h2, left) =>
          match mergesort fuel h2 mid with
          | none => none
          | some (h3, right) => merge fuel h3 left right

/-- The final loop of `q_sort`, which restores the `prev` links: the final memory and
`curr`. -/
def q_sort_relink : Nat → Heap → Nat → Nat → Option (Heap × Nat)
  | 0, _, _, _ => none
  | fuel + 1, h, curr, next =>
    if next ≠ 0 then
      let h1 := h.setPrev next curr
      q_sort_relink fuel h1 next (h1.next next)
    else some (h, curr)

/-- `q_sort`. -/
def q_sort (fuel : Nat) (h : Heap) (head : Nat) : Option Heap :=
  if head = 0 ∨ list_is_singular h head ∨ list_empty h head then some h
  else
    let h1 := h.setNext (h.prev head) 0
    match mergesort fuel h1 (h1.next head) with
    | none => none
    | some (h2, r) =>
      let h3 := h2.setNext head r
      match q_sort_relink fuel h3 head (h3.next head) with
      | none => none
      | some (h4, curr) => some ((h4.setNext curr head).setPrev head curr)

/-- The comparison of `merge` on elements: `strcmp` of the two strings is `<= 0`. -/
def strLE (v : Nat → List Nat) (a b : Nat) : Bool :=
  decide (strcmp (v a) (v b) ≤ 0)

/-- What `merge` establishes, from the memory `h` and local `hd` at a point where the
indirect pointer is `ptr`, once the last store is done: the target of `ptr` starts a
NULL-terminated chain through `ys`, and nothing else has changed. -/
def MergePost (h : Heap) (hd : Nat) (ptr : Option Nat) (s : Heap × Nat) (ys : List Nat) :
    Prop :=
  Path s.1.next (loadPtr s.1 s.2 ptr) ys 0 ∧
    (∀ a, a ∉ ys → ptr ≠ some a → s.1.next a = h.next a) ∧
    (ptr ≠ none → s.2 = hd) ∧
    s.1.prev = h.prev ∧ s.1.value = h.value ∧ s.1.released = h.released

/-- The `prev` links agree with the order of a chain: each node's `prev` is the node
before it. -/
def PrevOK (pv : Nat → Nat) (xs : List Nat) : Prop :=
  ∀ pre a b post, xs = pre ++ a :: b :: post → pv b = a

/-! ## Allocation, insertion, removal and size -/

/-- Modelled from the spec: `INIT_LIST_HEAD` of `list.h`, which is not among the sources;
the sentinel is linked to itself, the empty ring. -/
def INIT_LIST_HEAD (h : Heap) (head : Nat) : Heap :=
  (h.setNext head head).setPrev head head

/-- Modelled from the spec: `list_add_tail` of `list.h`, which is not among the sources;
`node` is linked immediately before `head`, at the tail of the ring. -/
def list_add_tail (h : Heap) (node head : Nat) : Heap :=
  let prev := h.prev head
  (((h.setNext prev node).setNext node head).setPrev node prev).setPrev head node

/-- The C library's `strlen`: the number of bytes before the first NUL. -/
def strlen (s : List Nat) : Nat :=
  (s.takeWhile (fun b => b != 0)).length

/-- The `n` bytes that the C library's `strncpy (dest, src, n)` writes to `dest`: the
bytes of `src` before its first NUL, at most `n` of them, then NULs up to `n` bytes. -/
def strncpy (src : List Nat) (n : Nat) : List Nat :=
  (src.takeWhile (fun b => b != 0)).take n ++ List.replicate (n - strlen src) 0

/-- The byte memory after the bytes `bs` are written from the address `p` on. -/
def storeBytes : (Nat → Nat) → Nat → List Nat → Nat → Nat
  | mem, _, [] => mem
  | mem, p, b :: bs => storeBytes (upd mem p b) (p + 1) bs

/-- `q_new`; `p` is the result of `malloc`, `0` when it fails. -/
def q_new (h : Heap) (p : Nat) : Heap × Nat :=
  if p = 0 then (h, 0) else (INIT_LIST_HEAD h p, p)

/-- Conversion to the 32-bit `int`: the value modulo `2^32`, in two's complement. -/
def toInt32 (x : Int) : Int :=
  (x + 2147483648) % 4294967296 - 2147483648

/-- Conversion of an `int` to the 64-bit `size_t`: the value modulo `2^64`. -/
def toSize (x : Int) : Nat :=
  (x % 18446744073709551616).toNat

/-- `new_ele`; `p` and `pv` are the results of the two calls of `malloc`, for the element
and for its string, `0` when the call fails.  `int str_size = strlen (s)` converts the
length to `int`, and `strncpy (new->value, s, str_size)` converts it back to `size_t`.
The bytes that `strncpy` writes, which the NUL stored at index `str_size` terminates when
`str_size >= 0`, are recorded as the `value` of the element. -/
def new_ele (h : Heap) (s : List Nat) (p pv : Nat) : Heap × Nat :=
  if p = 0 then (h, 0)
  else
    let str_size : Int := toInt32 (strlen s)
    if pv = 0 then (h, 0)
    else ({ h with value := upd h.value p (strncpy s (toSize str_size)) }, p)

/-- `q_insert_head`: the final memory and the value returned. -/
def q_insert_head (h : Heap) (head : Nat) (s : List Nat) (p pv : Nat) : Heap × Bool :=
  if head = 0 then (h, false)
  else
    let r := new_ele h s p pv
    if r.2 ≠ 0 then (list_add r.1 r.2 head, true) else (r.1, false)

/-- `q_insert_tail`: the final memory and the value returned. -/
def q_insert_tail (h : Heap) (head : Nat) (s : List Nat) (p pv : Nat) : Heap × Bool :=
  if head = 0 then (h, false)
  else
    let r := new_ele h s p pv
    if r.2 ≠ 0 then (list_add_tail r.1 r.2 head, true) else (r.1, false)

/-- `q_remove_head` on the memory `h` of the list and the byte memory `mem` in which the
buffer `sp` lies: the final memories and the pointer returned, `0` for `NULL`. -/
def q_remove_head (h : Heap) (mem : Nat → Nat) (head sp bufsize : Nat) :
    Heap × (Nat → Nat) × Nat :=
  if head = 0 ∨ list_empty h head then (h, mem, 0)
  else
    let target := h.next head
    let h1 := list_del h target
    if bufsize > 0 then
      let mem1 := storeBytes mem sp (strncpy (h1.value target) (bufsize - 1))
      (h1, upd mem1 (sp + bufsize - 1) 0, target)
    else (h1, mem, target)

/-- `q_remove_tail`, as `q_remove_head`. -/
def q_remove_tail (h : Heap) (mem : Nat → Nat) (head sp bufsize : Nat) :
    Heap × (Nat → Nat) × Nat :=
  if head = 0 ∨ list_empty h head then (h, mem, 0)
  else
    let target := h.prev head
    let h1 := list_del h target
    if bufsize > 0 then
      let mem1 := storeBytes mem sp (strncpy (h1.value target) (bufsize - 1))
      (h1, upd mem1 (sp + bufsize - 1) 0, target)
    else (h1, mem, target)

/-- The loop `list_for_each (li, head) len++` of `q_size`; `len` is a 32-bit `int` and
`len++` is taken modulo `2^32`, in two's complement. -/
def q_size_loop : Nat → Heap → Nat → Nat → Int → Option Int
  | 0, _, _, _, _ => none
  | fuel + 1, h, head, li, len =>
    if li ≠ head then q_size_loop fuel h head (h.next li) (toInt32 (len + 1)) else some len

/-- `q_size`. -/
def q_size (fuel : Nat) (h : Heap) (head : Nat) : Option Int :=
  if head = 0 then some 0 else q_size_loop fuel h head (h.next head) 0

/-- One call on the queue.  An insertion carries the string and the results of the two
calls of `malloc` in `new_ele`; a removal carries the buffer and its size. -/
inductive Call where
  | insert_head (s : List Nat) (p pv : Nat)
  | insert_tail (s : List Nat) (p pv : Nat)
  | remove_head (sp bufsize : Nat)
  | remove_tail (sp bufsize : Nat)

/-- The state of a run of calls: the two memories, the number of insertions that returned
`true` and the number of removals that returned an element. -/
structure Trace where
  heap : Heap
  mem : Nat → Nat
  inserted : Nat
  removed : Nat

/-- One call on the queue `head`, with the two counters kept. -/
def stepCall (head : Nat) (t : Trace) : Call → Trace
  | Call.insert_head s p pv =>
    let r := q_insert_head t.heap head s p pv
    { t with heap := r.1, inserted := if r.2 then t.inserted + 1 else t.inserted }
  | Call.insert_tail s p pv =>
    let r := q_insert_tail t.heap head s p pv
    { t with heap := r.1, inserted := if r.2 then t.inserted + 1 else t.inserted }
  | Call.remove_head sp bufsize =>
    let r := q_remove_head t.heap t.mem head sp bufsize
    { t with heap := r.1, mem := r.2.1,
             removed := if r.2.2 ≠ 0 then t.removed + 1 else t.removed }
  | Call.remove_tail sp bufsize =>
    let r := q_remove_tail t.heap t.mem head sp bufsize
    { t with heap := r.1, mem := r.2.1,
             removed := if r.2.2 ≠ 0 then t.removed + 1 else t.removed }

/-- A sequence of calls on the queue `head`, in order. -/
def runCalls (head : Nat) (t : Trace) (cs : List Call) : Trace :=
  cs.foldl (stepCall head) t

/-- The elements of the queue after one call, from its elements `q` before the call. -/
def queueAfter (q : List Nat) : Call → List Nat
  | Call.insert_head _ p pv => if p ≠ 0 ∧ pv ≠ 0 then p :: q else q
  | Call.insert_tail _ p pv => if p ≠ 0 ∧ pv ≠ 0 then q ++ [p] else q
  | Call.remove_head _ _ => q.tail
  | Call.remove_tail _ _ => q.dropLast

/-- At every insertion of a run of calls on the queue of elements `q`, `malloc` returns
`NULL` or an address that is not in use by the queue: neither the sentinel nor an element
linked at that point.  The address of an element that was removed may be returned again. -/
def freshCalls (head : Nat) : List Nat → List Call → Bool
  | _, [] => true
  | q, Call.insert_head s p pv :: cs =>
    decide (p = 0 ∨ p ∉ head :: q) && freshCalls head (queueAfter q (Call.insert_head s p pv)) cs
  | q, Call.insert_tail s p pv :: cs =>
    decide (p = 0 ∨ p ∉ head :: q) && freshCalls head (queueAfter q (Call.insert_tail s p pv)) cs
  | q, Call.remove_head sp bufsize :: cs =>
    freshCalls head (queueAfter q (Call.remove_head sp bufsize)) cs
  | q, Call.remove_tail sp bufsize :: cs =>
    freshCalls head (queueAfter q (Call.remove_tail sp bufsize)) cs

/-- Insertion at the tail of the strings `ss`, in order, the element of the `i`-th string
allocated at the `i`-th address of `ps` and every allocation of a string succeeding (at the
address `1`, which only has to be non-null). -/
def insert_tail_all (head : Nat) : Heap → List (List Nat) → List Nat → Heap
  | h, s :: ss, p :: ps => insert_tail_all head (q_insert_tail h head s p 1).1 ss ps
  | h, _, _ => h

/-- Insertion at the head of the strings `ss`, in order, as `insert_tail_all`. -/
def insert_head_all (head : Nat) : Heap → List (List Nat) → List Nat → Heap
  | h, s :: ss, p :: ps => insert_head_all head (q_insert_head h head s p 1).1 ss ps
  | h, _, _ => h

/-- The pointers returned by `n` successive calls of `q_remove_head`. -/
def drain (head sp bufsize : Nat) : Nat → Heap → (Nat → Nat) → List Nat
  | 0, _, _ => []
  | n + 1, h, mem =>
    (q_remove_head h mem head sp bufsize).2.2 ::
      drain head sp bufsize n (q_remove_head h mem head sp bufsize).1
        (q_remove_head h mem head sp bufsize).2.1

/-- The list memory after `n` successive calls of `q_remove_head`. -/
def drainHeap (head sp bufsize : Nat) : Nat → Heap → (Nat → Nat) → Heap
  | 0, h, _ => h
  | n + 1, h, mem =>
    drainHeap head sp bufsize n (q_remove_head h mem head sp bufsize).1
      (q_remove_head h mem head sp bufsize).2.1

/-- The memory in which nothing is linked. -/
def blankHeap : Heap where
  next := fun _ => 0
  prev := fun _ => 0
  value := fun _ => []
  released := []

/-- The byte memory in which every byte is `255`. -/
def noBytes : Nat → Nat := fun _ => 255

/-- The byte memory `mem1` is `mem` after the string `v` is copied to the buffer `sp` of
`bufsize` bytes: nothing is written when `bufsize = 0`; otherwise the buffer starts with
the first `min (strlen v) (bufsize - 1)` bytes of `v`, none of them NUL, followed by a
NUL, and no byte before the buffer or from its index `bufsize` on is changed. -/
def Copied (mem mem1 : Nat → Nat) (sp bufsize : Nat) (v : List Nat) : Prop :=
  (bufsize = 0 → mem1 = mem) ∧
    (0 < bufsize →
      (∀ i, i < min (strlen v) (bufsize - 1) → mem1 (sp + i) = v.getD i 0 ∧ v.getD i 0 ≠ 0) ∧
      mem1 (sp + min (strlen v) (bufsize - 1)) = 0 ∧
      ∀ a, a < sp ∨ sp + bufsize ≤ a → mem1 a = mem a)

/-! ## Example queues -/

/-- The memory that holds one queue with the sentinel at address `head` and `n` elements at
the addresses `1, .., n`, in this order, the element at `a` owning the string `strs a`. -/
def ringHeap (n head : Nat) (strs : Nat → List Nat) : Heap where
  next := fun a => if a = head then (if n = 0 then head else 1) else if a = n then head else a + 1
  prev := fun a => if a = head then (if n = 0 then head else n) else if a = 1 then head else a - 1
  value := strs
  released := []

/-- The strings "1", .., "9" at the addresses 1, .., 9. -/
def digitStr (a : Nat) : List Nat := [48 + a]

/-- The strings "b", "a", "a" at the addresses 1, 2, 3. -/
def tagStr (a : Nat) : List Nat := if a = 1 then [98] else [97]

/-- The strings "a", "a", "b", "c", "c", "c" at the addresses 1, .., 6. -/
def dupStr (a : Nat) : List Nat := if a ≤ 2 then [97] else if a = 3 then [98] else [99]

/-- The strings "a", "b", "b", "a" at the addresses 1, .., 4. -/
def abbaStr (a : Nat) : List Nat := if a = 2 ∨ a = 3 then [98] else [97]

/-- The calls of an example run: an insertion, its removal, a removal on the empty queue,
an insertion at the address of the element removed, two insertions in which an allocation
fails, two insertions and a removal. -/
def exampleCalls : List Call :=
  [Call.insert_head [97] 1 1, Call.remove_head 100 4, Call.remove_tail 100 1,
    Call.insert_tail [98] 1 1, Call.insert_head [99] 0 1, Call.insert_tail [100] 3 0,
    Call.insert_tail [101] 3 1, Call.insert_head [102] 4 1, Call.remove_tail 0 0]

/-! ## Lemmas on paths -/

theorem upd_same {α : Type} (f : Nat → α) (a : Nat) (v : α) : upd f a v a = v := by
  simp [upd]

theorem upd_other {α : Type} (f : Nat → α) (a : Nat) (v : α) (x : Nat) (hx : x ≠ a) :
    upd f a v x = f x := by
  simp [upd, hx]

theorem path_congr {f g : Nat → Nat} : ∀ {xs : List Nat} {a b : Nat},
    (∀ x ∈ xs, f x = g x) → Path f a xs b → Path g a xs b
  | [], _, _, _, hp => hp
  | x :: xs, _, _, hfg, hp => by
    refine ⟨hp.1, ?_⟩
    have hx : f x = g x := hfg x (List.mem_cons_self _ _)
    rw [← hx]
    exact path_congr (fun y hy => hfg y (List.mem_cons_of_mem _ hy)) hp.2

theorem path_append {f : Nat → Nat} : ∀ {xs : List Nat} {a : Nat} (y : Nat) (ys : List Nat)
    (b : Nat), Path f a (xs ++ y :: ys) b ↔ Path f a xs y ∧ Path f (f y) ys b
  | [], a, y, ys, b => by simp [Path]
  | x :: xs, a, y, ys, b => by
    show (a = x ∧ Path f (f x) (xs ++ y :: ys) b) ↔ _
    rw [@path_append f xs (f x) y ys b]
    simp only [Path, and_assoc]

theorem path_concat {f : Nat → Nat} {xs : List Nat} {a y b : Nat} :
    Path f a (xs ++ [y]) b ↔ Path f a xs y ∧ f y = b := by
  rw [path_append]; simp [Path]

theorem path_start {f : Nat → Nat} : ∀ {xs : List Nat} {a b : Nat},
    Path f a xs b → a = firstD xs b
  | [], _, _, hp => hp
  | _ :: _, _, _, hp => hp.1

theorem nil_or_snoc (l : List Nat) : l = [] ∨ ∃ L b, l = L ++ [b] := by
  rcases List.eq_nil_or_concat l with h | ⟨L, b, h⟩
  · exact Or.inl h
  · exact Or.inr ⟨L, b, by rw [h, List.concat_eq_append]⟩

theorem lastD_snoc : ∀ (l : List Nat) (b d : Nat), lastD (l ++ [b]) d = b
  | [], _, _ => rfl
  | _ :: l, b, _ => lastD_snoc l b _

theorem firstD_reverse (l : List Nat) (d : Nat) : firstD l.reverse d = lastD l d := by
  rcases nil_or_snoc l with rfl | ⟨L, b, rfl⟩
  · rfl
  · rw [lastD_snoc]; simp [firstD]

theorem lastD_reverse (l : List Nat) (d : Nat) : lastD l.reverse d = firstD l d := by
  cases l with
  | nil => rfl
  | cons a l => rw [List.reverse_cons, lastD_snoc]; rfl

/-- Unlinking `x` from a cycle through `head`, seen in one direction: the node before `x`
is redirected to the node after it. -/
theorem cpath_unlink {f : Nat → Nat} {head x : Nat} {pre post : List Nat}
    (hnd : (head :: (pre ++ x :: post)).Nodup)
    (hp : Path f (f head) (pre ++ x :: post) head) :
    Path (upd f (lastD pre head) (firstD post head))
      (upd f (lastD pre head) (firstD post head) head) (pre ++ post) head := by
  rw [path_append] at hp
  obtain ⟨hp1, hp2⟩ := hp
  have hfx : f x = firstD post head := path_start hp2
  have hnd' : ∀ y, y ∈ pre ++ x :: post → y ≠ head := by
    intro y hy hyh; subst hyh
    exact (List.nodup_cons.1 hnd).1 hy
  rcases nil_or_snoc pre with rfl | ⟨L, p, rfl⟩
  · simp only [lastD, List.nil_append, upd_same]
    rw [← hfx]
    refine path_congr (fun y hy => ?_) hp2
    exact (upd_other _ _ _ _ (hnd' y (by simp [hy]))).symm
  · have hnd2 := (List.nodup_cons.1 hnd).2
    have hhp : head ≠ p := fun e => hnd' p (by simp) e.symm
    simp only [lastD_snoc]
    rw [upd_other _ _ _ _ hhp]
    rw [path_concat] at hp1
    have : L ++ [p] ++ post = L ++ p :: post := by simp
    rw [this, path_append]
    have hpL : p ∉ L := by
      intro hm
      have := hnd2
      simp only [List.append_assoc, List.singleton_append] at this
      exact (List.nodup_append.1 this).2.2 hm (by simp)
    have hpP : p ∉ post := by
      intro hm
      have := hnd2
      simp only [List.append_assoc, List.singleton_append] at this
      have h2 := (List.nodup_append.1 this).2.1
      have h3 := (List.nodup_cons.1 h2).1
      exact h3 (by simp [hm])
    refine ⟨path_congr (fun y hy => ?_) hp1.1, ?_⟩
    · exact (upd_other _ _ _ _ (ne_of_mem_of_not_mem hy hpL)).symm
    · rw [upd_same, ← hfx]
      refine path_congr (fun y hy => ?_) hp2
      exact (upd_other _ _ _ _ (ne_of_mem_of_not_mem hy hpP)).symm

/-- Linking a fresh `node` into a cycle through `head`, seen in one direction. -/
theorem cpath_insert {f : Nat → Nat} {head node : Nat} {pre post : List Nat}
    (hnd : (head :: (pre ++ post)).Nodup) (hn : node ∉ head :: (pre ++ post))
    (hp : Path f (f head) (pre ++ post) head) :
    Path (upd (upd f node (firstD post head)) (lastD pre head) node)
      (upd (upd f node (firstD post head)) (lastD pre head) node head)
      (pre ++ node :: post) head := by
  have hnh : node ≠ head := fun e => hn (by simp [e])
  have hnP : ∀ y, y ∈ pre ++ post → y ≠ node := fun y hy e => hn (by simp [← e, hy] )
  have hhd : ∀ y, y ∈ pre ++ post → y ≠ head := by
    intro y hy hyh; subst hyh
    exact (List.nodup_cons.1 hnd).1 hy
  rcases nil_or_snoc pre with rfl | ⟨L, p, rfl⟩
  · simp only [lastD, List.nil_append, upd_same] at hp ⊢
    refine ⟨rfl, ?_⟩
    rw [upd_other _ _ _ _ hnh, upd_same, ← path_start hp]
    refine path_congr (fun y hy => ?_) hp
    rw [upd_other _ _ _ _ (hhd y hy), upd_other _ _ _ _ (hnP y hy)]
  · have hnd2 := (List.nodup_cons.1 hnd).2
    have hhp : head ≠ p := fun e => hhd p (by simp) e.symm
    have hnp : node ≠ p := fun e => hnP p (by simp) e.symm
    simp only [lastD_snoc]
    rw [upd_other _ _ _ _ hhp, upd_other _ _ _ _ hnh.symm]
    have e1 : L ++ [p] ++ post = L ++ p :: post := by simp
    have e2 : L ++ [p] ++ node :: post = L ++ p :: node :: post := by simp
    rw [e1, path_append] at hp
    rw [e2, path_append]
    have hpL : p ∉ L := by
      intro hm
      have := hnd2
      simp only [List.append_assoc, List.singleton_append] at this
      exact (List.nodup_append.1 this).2.2 hm (by simp)
    have hpP : p ∉ post := by
      intro hm
      have := hnd2
      simp only [List.append_assoc, List.singleton_append] at this
      have h2 := (List.nodup_append.1 this).2.1
      exact (List.nodup_cons.1 h2).1 hm
    refine ⟨path_congr (fun y hy => ?_) hp.1, ?_⟩
    · rw [upd_other _ _ _ _ (ne_of_mem_of_not_mem hy hpL),
        upd_other _ _ _ _ (hnP y (by simp [hy]))]
    · rw [upd_same]
      refine ⟨rfl, ?_⟩
      rw [upd_other _ _ _ _ hnp, upd_same, ← path_start hp.2]
      refine path_congr (fun y hy => ?_) hp.2
      rw [upd_other _ _ _ _ (ne_of_mem_of_not_mem hy hpP),
        upd_other _ _ _ _ (hnP y (by simp [hy]))]

/-! ## Lemmas on rings -/

theorem Ring.next_head {h : Heap} {head : Nat} {xs : List Nat} (hr : Ring h head xs) :
    h.next head = firstD xs head :=
  path_start hr.2.2.1

theorem Ring.prev_head {h : Heap} {head : Nat} {xs : List Nat} (hr : Ring h head xs) :
    h.prev head = lastD xs head := by
  have := path_start hr.2.2.2
  rwa [firstD_reverse] at this

theorem Ring.next_mid {h : Heap} {head x : Nat} {pre post : List Nat}
    (hr : Ring h head (pre ++ x :: post)) : h.next x = firstD post head := by
  have := hr.2.2.1
  rw [path_append] at this
  exact path_start this.2

theorem Ring.prev_mid {h : Heap} {head x : Nat} {pre post : List Nat}
    (hr : Ring h head (pre ++ x :: post)) : h.prev x = lastD pre head := by
  have := hr.2.2.2
  rw [List.reverse_append, List.reverse_cons, List.append_assoc, List.singleton_append,
    path_append] at this
  have := path_start this.2
  rwa [firstD_reverse] at this

theorem Ring.head_ne_zero {h : Heap} {head : Nat} {xs : List Nat} (hr : Ring h head xs) :
    head ≠ 0 := fun e => hr.2.1 (by simp [e])

theorem Ring.mem_ne_zero {h : Heap} {head : Nat} {xs : List Nat} (hr : Ring h head xs)
    {x : Nat} (hx : x ∈ xs) : x ≠ 0 := fun e => hr.2.1 (by simp [← e, hx])

theorem Ring.mem_ne_head {h : Heap} {head : Nat} {xs : List Nat} (hr : Ring h head xs)
    {x : Nat} (hx : x ∈ xs) : x ≠ head :=
  fun e => (List.nodup_cons.1 hr.1).1 (e ▸ hx)

theorem firstD_mem : ∀ (xs : List Nat) (d : Nat), xs ≠ [] → firstD xs d ∈ xs
  | [], _, hne => absurd rfl hne
  | _ :: _, _, _ => List.mem_cons_self _ _

/-- Unlinking an element of a well-formed queue leaves a well-formed queue without it. -/
theorem ring_del {h : Heap} {head x : Nat} {pre post : List Nat}
    (hr : Ring h head (pre ++ x :: post)) : Ring (list_del h x) head (pre ++ post) := by
  have hsub : List.Sublist (head :: (pre ++ post)) (head :: (pre ++ x :: post)) :=
    List.Sublist.cons₂ _ (List.Sublist.append_left (List.sublist_cons_self x post) pre)
  refine ⟨hr.1.sublist hsub, fun h0 => hr.2.1 (hsub.subset h0), ?_, ?_⟩
  · show Path (upd h.next (h.prev x) (h.next x)) (upd h.next (h.prev x) (h.next x) head)
      (pre ++ post) head
    rw [hr.next_mid, hr.prev_mid]
    exact cpath_unlink hr.1 hr.2.2.1
  · show Path (upd h.prev (h.next x) (h.prev x)) (upd h.prev (h.next x) (h.prev x) head)
      (pre ++ post).reverse head
    rw [hr.next_mid, hr.prev_mid, List.reverse_append, ← lastD_reverse post,
      ← firstD_reverse pre]
    have hb := hr.2.2.2
    rw [List.reverse_append, List.reverse_cons, List.append_assoc, List.singleton_append] at hb
    refine cpath_unlink ?_ hb
    have hperm : List.Perm (head :: (post.reverse ++ x :: pre.reverse))
        (head :: (pre ++ x :: post)) := by
      refine List.Perm.cons _ ?_
      have e : post.reverse ++ x :: pre.reverse = (pre ++ x :: post).reverse := by simp
      rw [e]
      exact List.reverse_perm _
    exact hperm.nodup_iff.2 hr.1

theorem path_getD_zero {f : Nat → Nat} : ∀ {xs : List Nat} {a b : Nat},
    Path f a xs b → (xs ++ [b]).getD 0 b = a
  | [], _, _, hp => by simpa [Path] using hp.symm
  | _ :: _, _, _, hp => by simpa using hp.1.symm

theorem path_getD_succ {f : Nat → Nat} : ∀ {xs : List Nat} {a b : Nat},
    Path f a xs b → ∀ i, i < xs.length →
      f ((xs ++ [b]).getD i b) = (xs ++ [b]).getD (i + 1) b
  | [], _, _, _, i, hi => absurd hi (Nat.not_lt_zero _)
  | _ :: xs, _, _, hp, 0, _ => by
    have := path_getD_zero hp.2
    simpa using this.symm
  | x :: xs, _, _, hp, i + 1, hi => by
    have := path_getD_succ hp.2 i (by simpa using hi)
    simpa using this

theorem getD_snoc_lt (xs : List Nat) (b : Nat) (i : Nat) (hi : i < xs.length) :
    (xs ++ [b]).getD i b ∈ xs := by
  rw [List.getD_append _ _ _ _ hi, List.getD_eq_getElem _ _ hi]
  exact List.getElem_mem _

theorem getD_snoc_length (xs : List Nat) (b : Nat) :
    (xs ++ [b]).getD xs.length b = b := by
  rw [List.getD_append_right _ _ _ _ (Nat.le_refl _)]; simp

/-! ## `q_delete_mid` -/

theorem q_delete_mid_loop_spec {h : Heap} {head : Nat} {xs : List Nat} (hr : Ring h head xs) :
    ∀ (fuel k : Nat), 2 * k ≤ xs.length → xs.length / 2 - k < fuel →
      q_delete_mid_loop fuel h head ((xs ++ [head]).getD (2 * k) head)
        ((xs ++ [head]).getD k head) = some ((xs ++ [head]).getD (xs.length / 2) head)
  | 0, _, _, hf => absurd hf (Nat.not_lt_zero _)
  | fuel + 1, k, hk, hf => by
    have hnext := path_getD_succ hr.2.2.1
    have hne : ∀ i, i < xs.length → (xs ++ [head]).getD i head ≠ head :=
      fun i hi => hr.mem_ne_head (getD_snoc_lt xs head i hi)
    rw [q_delete_mid_loop]
    by_cases hc : 2 * k + 2 ≤ xs.length
    · have h1 : (xs ++ [head]).getD (2 * k) head ≠ head := hne _ (by omega)
      have h2 : h.next ((xs ++ [head]).getD (2 * k) head) ≠ head := by
        rw [hnext _ (by omega)]; exact hne _ (by omega)
      rw [if_pos ⟨h1, h2⟩, hnext _ (by omega), hnext _ (by omega), hnext _ (by omega)]
      have := q_delete_mid_loop_spec hr fuel (k + 1) (by omega) (by omega)
      rw [show 2 * (k + 1) = 2 * k + 1 + 1 by ring] at this
      exact this
    · have hkk : k = xs.length / 2 := by omega
      have hcond : ¬ ((xs ++ [head]).getD (2 * k) head ≠ head ∧
          h.next ((xs ++ [head]).getD (2 * k) head) ≠ head) := by
        rintro ⟨h1, h2⟩
        by_cases hlt : 2 * k < xs.length
        · rw [hnext _ hlt] at h2
          have : 2 * k + 1 = xs.length := by omega
          rw [this, getD_snoc_length] at h2
          exact h2 rfl
        · have : 2 * k = xs.length := by omega
          rw [this, getD_snoc_length] at h1
          exact h1 rfl
      rw [if_neg hcond, hkk]

theorem list_del_value (h : Heap) (x : Nat) : (list_del h x).value = h.value := rfl

theorem list_del_released (h : Heap) (x : Nat) : (list_del h x).released = h.released := rfl

theorem ring_release {h : Heap} {head : Nat} {xs : List Nat} (e : Nat)
    (hr : Ring h head xs) : Ring (q_release_element h e) head xs := hr

theorem Ring.guard {h : Heap} {head : Nat} {xs : List Nat} (hr : Ring h head xs) :
    ¬ (head = 0 ∨ h.next head = 0) := by
  rintro (e | e)
  · exact hr.head_ne_zero e
  · rw [hr.next_head] at e
    cases xs with
    | nil => exact hr.head_ne_zero e
    | cons x xs => exact hr.mem_ne_zero (List.mem_cons_self _ _) e

/-- On a queue of `n ≥ 1` elements `q_delete_mid` unlinks and releases the element at index
`n / 2` and returns `true`. -/
theorem q_delete_mid_spec {fuel : Nat} {h : Heap} {head : Nat} {xs : List Nat}
    (hr : Ring h head xs) (hn : 1 ≤ xs.length) (hf : xs.length / 2 < fuel) :
    ∃ h', q_delete_mid fuel h head = some (h', true) ∧
      Ring h' head (xs.eraseIdx (xs.length / 2)) ∧ h'.value = h.value ∧
      h'.released = h.released ++ [xs.getD (xs.length / 2) 0] := by
  have hlt : xs.length / 2 < xs.length := by omega
  have hloop := q_delete_mid_loop_spec hr fuel 0 (by omega) (by omega)
  rw [Nat.mul_zero, path_getD_zero hr.2.2.1] at hloop
  have hmid : (xs ++ [head]).getD (xs.length / 2) head = xs.getD (xs.length / 2) 0 := by
    rw [List.getD_append _ _ _ _ hlt, List.getD_eq_getElem _ _ hlt, List.getD_eq_getElem _ _ hlt]
  rw [hmid] at hloop
  refine ⟨q_release_element (list_del h (xs.getD (xs.length / 2) 0)) (xs.getD (xs.length / 2) 0),
    ?_, ?_, rfl, rfl⟩
  · rw [q_delete_mid, if_neg hr.guard, hloop]
  · apply ring_release
    have hsplit : xs = xs.take (xs.length / 2) ++
        xs.getD (xs.length / 2) 0 :: xs.drop (xs.length / 2 + 1) := by
      rw [List.getD_eq_getElem _ _ hlt, List.getElem_cons_drop _ _ hlt, List.take_append_drop]
    rw [List.eraseIdx_eq_take_drop_succ]
    rw [hsplit] at hr
    exact ring_del hr

/-! ## `q_swap` -/

theorem Ring.next_lastD {h : Heap} {head : Nat} {pre post : List Nat}
    (hr : Ring h head (pre ++ post)) : h.next (lastD pre head) = firstD post head := by
  rcases nil_or_snoc pre with rfl | ⟨L, p, rfl⟩
  · exact hr.next_head
  · rw [lastD_snoc]
    rw [List.append_assoc, List.singleton_append] at hr
    exact hr.next_mid

theorem upd_comm {α : Type} (f : Nat → α) (a b : Nat) (u v : α) (hab : a ≠ b) :
    upd (upd f a u) b v = upd (upd f b v) a u := by
  funext x
  simp only [upd]
  by_cases h1 : x = a
  · have h2 : x ≠ b := fun e => hab (h1.symm.trans e)
    rw [if_neg h2, if_pos h1, if_pos h1]
  · by_cases h2 : x = b
    · rw [if_pos h2, if_neg h1, if_pos h2]
    · rw [if_neg h2, if_neg h1, if_neg h1, if_neg h2]

/-- Linking a fresh node after a node of a well-formed queue (the sentinel when `pre` is
empty) gives a well-formed queue with the node in that place. -/
theorem ring_add {h : Heap} {head node : Nat} {pre post : List Nat}
    (hr : Ring h head (pre ++ post)) (hn : node ∉ head :: (pre ++ post)) (hn0 : node ≠ 0) :
    Ring (list_add h node (lastD pre head)) head (pre ++ node :: post) := by
  have hnx := hr.next_lastD
  refine ⟨?_, ?_, ?_, ?_⟩
  · have hperm : List.Perm (head :: (pre ++ node :: post)) (node :: head :: (pre ++ post)) := by
      refine (List.Perm.cons _ List.perm_middle).trans (List.Perm.swap _ _ _)
    exact hperm.nodup_iff.2 (List.nodup_cons.2 ⟨hn, hr.1⟩)
  · intro h0
    have h1 := hr.2.1
    simp only [List.mem_cons, List.mem_append] at h0 h1
    rcases h0 with h0 | h0 | h0 | h0
    · exact h1 (Or.inl h0)
    · exact h1 (Or.inr (Or.inl h0))
    · exact hn0 h0.symm
    · exact h1 (Or.inr (Or.inr h0))
  · show Path (upd (upd h.next node (h.next (lastD pre head))) (lastD pre head) node)
      (upd (upd h.next node (h.next (lastD pre head))) (lastD pre head) node head)
      (pre ++ node :: post) head
    rw [hnx]
    exact cpath_insert hr.1 hn hr.2.2.1
  · show Path (upd (upd h.prev (h.next (lastD pre head)) node) node (lastD pre head))
      (upd (upd h.prev (h.next (lastD pre head)) node) node (lastD pre head) head)
      (pre ++ node :: post).reverse head
    have hne : firstD post head ≠ node := by
      intro e
      apply hn
      cases post with
      | nil => simp [firstD] at e; simp [e]
      | cons y ys => simp [firstD] at e; simp [e]
    rw [hnx, upd_comm _ _ _ _ _ hne, ← lastD_reverse post, ← firstD_reverse pre]
    have e : (pre ++ node :: post).reverse = post.reverse ++ node :: pre.reverse := by simp
    rw [e]
    have hb := hr.2.2.2
    rw [List.reverse_append] at hb
    refine cpath_insert ?_ ?_ hb
    · have hperm : List.Perm (head :: (post.reverse ++ pre.reverse)) (head :: (pre ++ post)) := by
        refine List.Perm.cons _ ?_
        rw [← List.reverse_append]
        exact List.reverse_perm _
      exact hperm.nodup_iff.2 hr.1
    · intro hm
      apply hn
      simp only [List.mem_cons, List.mem_append, List.mem_reverse] at hm ⊢
      tauto

theorem list_add_value (h : Heap) (a b : Nat) : (list_add h a b).value = h.value := rfl

theorem list_add_released (h : Heap) (a b : Nat) : (list_add h a b).released = h.released := rfl

/-- One iteration of the loop of `q_swap` exchanges two adjacent elements. -/
theorem ring_swap_step {h : Heap} {head a b : Nat} {pre rest : List Nat}
    (hr : Ring h head (pre ++ a :: b :: rest)) :
    Ring (list_add (list_del h a) a b) head ((pre ++ [b, a]) ++ rest) := by
  have h1 : Ring (list_del h a) head ((pre ++ [b]) ++ rest) := by
    have := ring_del hr
    simpa using this
  have hna : a ∉ head :: ((pre ++ [b]) ++ rest) := by
    have hnd := hr.1
    have hperm : List.Perm (head :: (pre ++ a :: b :: rest)) (a :: head :: (pre ++ b :: rest)) :=
      (List.Perm.cons _ List.perm_middle).trans (List.Perm.swap _ _ _)
    have := (List.nodup_cons.1 (hperm.nodup_iff.1 hnd)).1
    simpa using this
  have h2 := ring_add h1 hna (hr.mem_ne_zero (by simp))
  rw [lastD_snoc] at h2
  simpa using h2

theorem q_swap_loop_spec {head : Nat} : ∀ (fuel : Nat) (h : Heap) (pre todo : List Nat),
    Ring h head (pre ++ todo) → todo.length / 2 < fuel →
    ∃ h', q_swap_loop fuel h head (firstD todo head) = some h' ∧
      Ring h' head (pre ++ swapPairs todo) ∧ h'.value = h.value ∧ h'.released = h.released
  | 0, _, _, _, _, hf => absurd hf (Nat.not_lt_zero _)
  | fuel + 1, h, pre, [], hr, _ => by
    refine ⟨h, ?_, hr, rfl, rfl⟩
    simp [q_swap_loop, firstD]
  | fuel + 1, h, pre, [a], hr, _ => by
    refine ⟨h, ?_, hr, rfl, rfl⟩
    have : h.next a = head := by rw [hr.next_mid]; rfl
    simp [q_swap_loop, firstD, this]
  | fuel + 1, h, pre, a :: b :: rest, hr, hf => by
    have hab : h.next a = b := by rw [hr.next_mid]; rfl
    have hane : a ≠ head := hr.mem_ne_head (by simp)
    have hbne : b ≠ head := hr.mem_ne_head (by simp)
    have hstep := ring_swap_step hr
    have hnext : (list_add (list_del h a) a b).next a = firstD rest head := by
      have h' := hstep
      rw [show (pre ++ [b, a]) ++ rest = (pre ++ [b]) ++ a :: rest by simp] at h'
      exact h'.next_mid
    obtain ⟨h', hrun, hring, hv, hrel⟩ := q_swap_loop_spec fuel
      (list_add (list_del h a) a b) (pre ++ [b, a]) rest hstep
      (by simp only [List.length_cons] at hf; omega)
    refine ⟨h', ?_, ?_, hv, hrel⟩
    · rw [q_swap_loop]
      simp only [firstD, hab]
      rw [if_pos ⟨hane, hbne⟩, hnext]
      exact hrun
    · simpa [swapPairs] using hring

theorem Ring.list_empty_iff {h : Heap} {head : Nat} {xs : List Nat} (hr : Ring h head xs) :
    list_empty h head = true ↔ xs = [] := by
  rw [list_empty, beq_iff_eq, hr.next_head]
  cases xs with
  | nil => simp [firstD]
  | cons x xs =>
    simp only [firstD, reduceCtorEq, iff_false]
    exact hr.mem_ne_head (List.mem_cons_self _ _)

/-- On a well-formed queue `q_swap` exchanges the adjacent pairs. -/
theorem q_swap_spec {fuel : Nat} {h : Heap} {head : Nat} {xs : List Nat}
    (hr : Ring h head xs) (hf : xs.length / 2 < fuel) :
    ∃ h', q_swap fuel h head = some h' ∧ Ring h' head (swapPairs xs) ∧
      h'.value = h.value ∧ h'.released = h.released := by
  by_cases he : xs = []
  · subst he
    refine ⟨h, ?_, hr, rfl, rfl⟩
    have := hr.list_empty_iff.2 rfl
    simp [q_swap, this]
  · have hg : ¬ (head = 0 ∨ h.next head = 0 ∨ list_empty h head = true) := by
      rintro (e | e | e)
      · exact hr.guard (Or.inl e)
      · exact hr.guard (Or.inr e)
      · exact he (hr.list_empty_iff.1 e)
    obtain ⟨h', hrun, hring, hv, hrel⟩ := q_swap_loop_spec fuel h [] xs hr hf
    refine ⟨h', ?_, hring, hv, hrel⟩
    rw [q_swap, if_neg hg, hr.next_head]
    exact hrun

theorem swapPairs_length : ∀ (xs : List Nat), (swapPairs xs).length = xs.length
  | [] => rfl
  | [_] => rfl
  | a :: b :: rest => by simp [swapPairs, swapPairs_length rest]

theorem swapPairs_pair : ∀ (xs : List Nat) (i : Nat), 2 * i + 1 < xs.length →
    (swapPairs xs)[2 * i]? = xs[2 * i + 1]? ∧ (swapPairs xs)[2 * i + 1]? = xs[2 * i]?
  | [], _, hi => absurd hi (Nat.not_lt_zero _)
  | [_], i, hi => by simp at hi
  | a :: b :: rest, 0, _ => by simp [swapPairs]
  | a :: b :: rest, i + 1, hi => by
    have ih := swapPairs_pair rest i (by simp only [List.length_cons] at hi; omega)
    have e1 : 2 * (i + 1) = 2 * i + 1 + 1 := by ring
    have e2 : 2 * (i + 1) + 1 = 2 * i + 1 + 1 + 1 := by ring
    rw [e2, e1]
    simpa [swapPairs] using ih

theorem swapPairs_odd_last : ∀ (xs : List Nat), xs.length % 2 = 1 →
    (swapPairs xs)[xs.length - 1]? = xs[xs.length - 1]?
  | [], h => by simp at h
  | [_], _ => rfl
  | a :: b :: rest, h => by
    have ih := swapPairs_odd_last rest (by simp only [List.length_cons] at h; omega)
    have hpos : 1 ≤ rest.length := by
      simp only [List.length_cons] at h
      cases rest with
      | nil => simp at h
      | cons _ _ => simp
    have e : (a :: b :: rest).length - 1 = (rest.length - 1) + 1 + 1 := by
      simp only [List.length_cons]; omega
    rw [e]
    simpa [swapPairs] using ih

/-! ## The linkage invariant -/

theorem lastD_cons_snoc (pre : List Nat) (x d : Nat) : lastD (pre ++ [x]) d = x :=
  lastD_snoc pre x d

/-- In a well-formed queue the sentinel and every element satisfy the linkage invariant. -/
theorem Ring.linkOK {h : Heap} {head : Nat} {xs : List Nat} (hr : Ring h head xs) :
    ∀ n, n ∈ head :: xs → LinkOK h n := by
  intro n hn
  rcases List.mem_cons.1 hn with rfl | hn
  · constructor
    · rw [hr.next_head]
      cases xs with
      | nil => exact hr.prev_head
      | cons x rest => exact @Ring.prev_mid h _ x [] rest hr
    · rw [hr.prev_head]
      rcases nil_or_snoc xs with rfl | ⟨L, b, rfl⟩
      · exact hr.next_head
      · rw [lastD_snoc]
        exact @Ring.next_mid h _ b L [] hr
  · obtain ⟨pre, post, rfl⟩ := List.append_of_mem hn
    constructor
    · rw [hr.next_mid]
      cases post with
      | nil => rw [firstD, hr.prev_head]; exact lastD_snoc pre n head
      | cons y post' =>
        have hr' : Ring h head ((pre ++ [n]) ++ y :: post') := by simpa using hr
        rw [firstD, hr'.prev_mid, lastD_snoc]
    · rw [hr.prev_mid]
      rcases nil_or_snoc pre with rfl | ⟨L, b, rfl⟩
      · rw [lastD, hr.next_head]; rfl
      · rw [lastD_snoc]
        have hr' : Ring h head (L ++ b :: n :: post) := by simpa using hr
        rw [hr'.next_mid]; rfl

/-! ## `q_reverse` -/

theorem q_reverse_loop_spec {head : Nat} : ∀ (todo : List Nat) (fuel : Nat) (h : Heap)
    (c p : Nat), Path h.next c todo head → (head :: todo).Nodup → todo.length < fuel →
    ∃ h', q_reverse_loop fuel h head c c p = some h' ∧
      (∀ a, a ∉ todo → h'.next a = h.next a ∧ h'.prev a = h.prev a) ∧
      (∀ a, a ∈ todo → h'.prev a = h.next a) ∧
      Path h'.next (lastD todo p) todo.reverse p ∧
      h'.value = h.value ∧ h'.released = h.released
  | _, 0, _, _, _, _, _, hf => absurd hf (Nat.not_lt_zero _)
  | [], fuel + 1, h, c, p, hp, _, _ => by
    have hc : c = head := hp
    refine ⟨h, ?_, fun _ _ => ⟨rfl, rfl⟩, fun _ ha => absurd ha (List.not_mem_nil _), rfl,
      rfl, rfl⟩
    simp [q_reverse_loop, hc]
  | x :: rest, fuel + 1, h, c, p, hp, hnd, hf => by
    obtain ⟨hcx, hp2⟩ := hp
    subst hcx
    have hnd2 := (List.nodup_cons.1 hnd).2
    have hcr : c ∉ rest := (List.nodup_cons.1 hnd2).1
    have hch : c ≠ head := fun e => (List.nodup_cons.1 hnd).1 (by simp [e])
    have hnd3 : (head :: rest).Nodup :=
      hnd.sublist (List.Sublist.cons₂ _ (List.sublist_cons_self c rest))
    have hp1 : Path ((h.setNext c p).setPrev c (h.next c)).next (h.next c) rest head := by
      refine path_congr (fun y hy => ?_) hp2
      exact (upd_other _ _ _ _ (ne_of_mem_of_not_mem hy hcr)).symm
    obtain ⟨h', hrun, hframe, hprev, hpath, hv, hrel⟩ := q_reverse_loop_spec rest fuel
      ((h.setNext c p).setPrev c (h.next c)) (h.next c) c hp1 hnd3
      (by simpa using hf)
    refine ⟨h', ?_, ?_, ?_, ?_, hv, hrel⟩
    · rw [q_reverse_loop, if_pos hch]
      exact hrun
    · intro a ha
      have hac : a ≠ c := fun e => ha (by simp [e])
      have har : a ∉ rest := fun e => ha (List.mem_cons_of_mem _ e)
      obtain ⟨e1, e2⟩ := hframe a har
      exact ⟨e1.trans (upd_other _ _ _ _ hac), e2.trans (upd_other _ _ _ _ hac)⟩
    · intro a ha
      rcases List.mem_cons.1 ha with rfl | ha
      · exact ((hframe a hcr).2).trans (upd_same _ _ _)
      · exact (hprev a ha).trans (upd_other _ _ _ _ (ne_of_mem_of_not_mem ha hcr))
    · rw [List.reverse_cons, path_concat]
      exact ⟨hpath, ((hframe c hcr).1).trans (upd_same _ _ _)⟩

theorem Ring.reverse_small {h : Heap} {head : Nat} {xs : List Nat} (hr : Ring h head xs)
    (hn : xs.length ≤ 1) : Ring h head xs.reverse := by
  have : xs.reverse = xs := by
    cases xs with
    | nil => rfl
    | cons x rest =>
      cases rest with
      | nil => rfl
      | cons y r => simp at hn
  rw [this]; exact hr

theorem Ring.singular_iff {h : Heap} {head : Nat} {xs : List Nat} (hr : Ring h head xs) :
    list_is_singular h head = true ↔ xs.length = 1 := by
  have he := hr.list_empty_iff
  rw [list_is_singular, Bool.and_eq_true, Bool.not_eq_true', beq_iff_eq, hr.prev_head,
    hr.next_head]
  cases xs with
  | nil => simp at he; simp [he]
  | cons x rest =>
    have hne : list_empty h head = false := by
      rw [← Bool.not_eq_true, he]; simp
    rcases nil_or_snoc rest with rfl | ⟨L, b, rfl⟩
    · simp [hne, lastD, firstD]
    · simp only [hne, true_and, lastD, lastD_snoc, firstD, List.length_cons,
        List.length_append, List.length_nil]
      have hnd := (List.nodup_cons.1 hr.1).2
      have : b ≠ x := by
        intro e
        exact (List.nodup_cons.1 hnd).1 (by simp [e])
      constructor
      · intro e; exact absurd e this
      · intro e; omega

/-- On a well-formed queue `q_reverse` leaves a well-formed queue whose elements are those
of the input in reverse order. -/
theorem q_reverse_spec {fuel : Nat} {h : Heap} {head : Nat} {xs : List Nat}
    (hr : Ring h head xs) (hf : xs.length + 1 < fuel) :
    ∃ h', q_reverse fuel h head = some h' ∧ Ring h' head xs.reverse ∧
      h'.value = h.value ∧ h'.released = h.released := by
  by_cases hn : xs.length ≤ 1
  · refine ⟨h, ?_, hr.reverse_small hn, rfl, rfl⟩
    rw [q_reverse]
    by_cases he : xs = []
    · have := hr.list_empty_iff.2 he
      simp [this]
    · have h1 : xs.length = 1 := by
        cases xs with
        | nil => exact absurd rfl he
        | cons x r => simp only [List.length_cons] at hn ⊢; omega
      have := hr.singular_iff.2 h1
      simp [this]
  · have hg : ¬ (head = 0 ∨ list_is_singular h head = true ∨ list_empty h head = true) := by
      rintro (e | e | e)
      · exact hr.head_ne_zero e
      · have := hr.singular_iff.1 e; omega
      · have := hr.list_empty_iff.1 e; subst this; simp at hn
    obtain ⟨fuel, rfl⟩ : ∃ f, fuel = f + 1 := ⟨fuel - 1, by omega⟩
    have hhx : head ∉ xs := (List.nodup_cons.1 hr.1).1
    have hp1 : Path ((h.setNext head (h.prev head)).setPrev head (h.next head)).next
        (h.next head) xs head := by
      refine path_congr (fun y hy => ?_) hr.2.2.1
      exact (upd_other _ _ _ _ (ne_of_mem_of_not_mem hy hhx)).symm
    obtain ⟨h', hrun, hframe, hprev, hpath, hv, hrel⟩ := q_reverse_loop_spec xs fuel
      ((h.setNext head (h.prev head)).setPrev head (h.next head)) (h.next head) head hp1 hr.1
      (by omega)
    refine ⟨h', ?_, ⟨?_, ?_, ?_, ?_⟩, hv, hrel⟩
    · rw [q_reverse, if_neg hg, q_reverse_loop, if_pos (Ne.symm hr.head_ne_zero)]
      exact hrun
    · exact (List.Perm.cons _ (List.reverse_perm xs)).nodup_iff.2 hr.1
    · intro h0
      apply hr.2.1
      simpa using h0
    · have : h'.next head = lastD xs head := by
        rw [(hframe head hhx).1, ← hr.prev_head]
        exact upd_same _ _ _
      rw [this]
      exact hpath
    · have : h'.prev head = h.next head := by
        rw [(hframe head hhx).2]
        exact upd_same _ _ _
      rw [this, List.reverse_reverse]
      refine path_congr (fun y hy => ?_) hr.2.2.1
      rw [hprev y hy]
      exact (upd_other _ _ _ _ (ne_of_mem_of_not_mem hy hhx)).symm

/-! ## `strcmp` is a total preorder -/

theorem strcmp_antisymm : ∀ (a b : List Nat), strcmp b a = - strcmp a b
  | [], [] => by simp [strcmp]
  | [], _ :: _ => by simp [strcmp]
  | _ :: _, [] => by simp [strcmp]
  | x :: as, y :: bs => by
    simp only [strcmp]
    by_cases hxy : x = y
    · subst hxy
      by_cases hx : x = 0
      · simp [hx]
      · simp [hx, strcmp_antisymm as bs]
    · have hyx : ¬ y = x := fun e => hxy e.symm
      simp [hxy, hyx]

theorem strcmp_self : ∀ (a : List Nat), strcmp a a = 0
  | [] => rfl
  | x :: as => by
    simp only [strcmp, if_true]
    by_cases hx : x = 0
    · simp [hx]
    · simp [hx, strcmp_self as]

theorem strcmp_trans : ∀ (a b c : List Nat),
    strcmp a b ≤ 0 → strcmp b c ≤ 0 → strcmp a c ≤ 0
  | [], [], _, _, h2 => h2
  | [], _ :: _, [], _, _ => by simp [strcmp]
  | [], y :: _, z :: _, h1, h2 => by
    simp only [strcmp] at h1 h2 ⊢
    by_cases hyz : y = z
    · subst hyz; omega
    · simp only [hyz, if_false] at h2; omega
  | x :: _, [], [], h1, _ => by simpa [strcmp] using h1
  | x :: _, [], z :: _, h1, h2 => by
    simp only [strcmp] at h1 h2 ⊢
    have hx : x = 0 := by omega
    subst hx
    by_cases hz : 0 = z
    · subst hz; simp
    · simp only [hz, if_false]; omega
  | x :: as, y :: bs, [], h1, h2 => by
    simp only [strcmp] at h1 h2 ⊢
    have hy : y = 0 := by omega
    subst hy
    by_cases hx : x = 0
    · omega
    · simp only [hx, if_false] at h1; omega
  | x :: as, y :: bs, z :: cs, h1, h2 => by
    simp only [strcmp] at h1 h2 ⊢
    by_cases hxy : x = y
    · subst hxy
      by_cases hxz : x = z
      · subst hxz
        by_cases hx : x = 0
        · simp [hx]
        · simp only [hx, if_true, if_false] at h1 h2 ⊢
          exact strcmp_trans as bs cs h1 h2
      · simp only [hxz, if_false] at h2 ⊢
        exact h2
    · simp only [hxy, if_false] at h1
      by_cases hyz : y = z
      · subst hyz
        simp only [hxy, if_false]
        exact h1
      · simp only [hyz, if_false] at h2
        have hxz : ¬ x = z := by omega
        simp only [hxz, if_false]
        omega

theorem strLE_trans (v : Nat → List Nat) (a b c : Nat) :
    strLE v a b = true → strLE v b c = true → strLE v a c = true := by
  simp only [strLE, decide_eq_true_eq]
  exact strcmp_trans _ _ _

theorem strLE_total (v : Nat → List Nat) (a b : Nat) :
    (strLE v a b || strLE v b a) = true := by
  simp only [strLE, Bool.or_eq_true, decide_eq_true_eq]
  rw [strcmp_antisymm (v a) (v b)]
  omega

theorem sameStr_refl (v : Nat → List Nat) (a : Nat) : sameStr v a a = true := by
  simp [sameStr, strcmp_self]

theorem sameStr_symm (v : Nat → List Nat) (a b : Nat) :
    sameStr v a b = true → sameStr v b a = true := by
  simp only [sameStr, decide_eq_true_eq]
  intro h
  rw [strcmp_antisymm, h]; rfl

theorem sameStr_iff (v : Nat → List Nat) (a b : Nat) :
    sameStr v a b = true ↔ strLE v a b = true ∧ strLE v b a = true := by
  simp only [sameStr, strLE, decide_eq_true_eq]
  rw [strcmp_antisymm (v a) (v b)]
  omega

theorem sameStr_trans (v : Nat → List Nat) (a b c : Nat) :
    sameStr v a b = true → sameStr v b c = true → sameStr v a c = true := by
  rw [sameStr_iff, sameStr_iff, sameStr_iff]
  rintro ⟨h1, h2⟩ ⟨h3, h4⟩
  exact ⟨strLE_trans v a b c h1 h3, strLE_trans v c b a h4 h2⟩

/-! ## `merge` -/

theorem loadPtr_storePtr (h : Heap) (hd : Nat) (ptr : Option Nat) (v : Nat) :
    loadPtr (storePtr h hd ptr v).1 (storePtr h hd ptr v).2 ptr = v := by
  cases ptr with
  | none => rfl
  | some a => exact upd_same _ _ _

theorem storePtr_next (h : Heap) (hd : Nat) (ptr : Option Nat) (v x : Nat)
    (hx : ptr ≠ some x) : (storePtr h hd ptr v).1.next x = h.next x := by
  cases ptr with
  | none => rfl
  | some a => exact upd_other _ _ _ _ (fun e => hx (by rw [e]))

theorem storePtr_prev (h : Heap) (hd : Nat) (ptr : Option Nat) (v : Nat) :
    (storePtr h hd ptr v).1.prev = h.prev := by
  cases ptr <;> rfl

theorem storePtr_value (h : Heap) (hd : Nat) (ptr : Option Nat) (v : Nat) :
    (storePtr h hd ptr v).1.value = h.value := by
  cases ptr <;> rfl

theorem storePtr_released (h : Heap) (hd : Nat) (ptr : Option Nat) (v : Nat) :
    (storePtr h hd ptr v).1.released = h.released := by
  cases ptr <;> rfl

theorem storePtr_local (h : Heap) (hd : Nat) (ptr : Option Nat) (v : Nat)
    (hp : ptr ≠ none) : (storePtr h hd ptr v).2 = hd := by
  cases ptr with
  | none => exact absurd rfl hp
  | some a => rfl

theorem merge_post_exit (h : Heap) (hd : Nat) (ptr : Option Nat) (p : Nat) (ys : List Nat)
    (hp : Path h.next p ys 0) (hptr : ∀ a, ptr = some a → a ∉ ys) :
    MergePost h hd ptr (storePtr h hd ptr p) ys := by
  refine ⟨?_, ?_, storePtr_local h hd ptr p, storePtr_prev _ _ _ _, storePtr_value _ _ _ _,
    storePtr_released _ _ _ _⟩
  · rw [loadPtr_storePtr]
    refine path_congr (fun y hy => ?_) hp
    exact (storePtr_next h hd ptr p y (fun e => hptr y e hy)).symm
  · intro a _ hne
    exact storePtr_next h hd ptr p a hne

theorem merge_post_step (h : Heap) (hd : Nat) (ptr : Option Nat) (x : Nat)
    (s : Heap × Nat) (ys : List Nat) (hx : ptr ≠ some x) (hptr : ∀ a, ptr = some a → a ∉ ys)
    (hpost : MergePost (storePtr h hd ptr x).1 (storePtr h hd ptr x).2 (some x) s ys) :
    MergePost h hd ptr s (x :: ys) := by
  obtain ⟨hpath, hframe, hloc, hpv, hval, hrel⟩ := hpost
  have hl : s.2 = (storePtr h hd ptr x).2 := hloc (by simp)
  refine ⟨⟨?_, hpath⟩, ?_, ?_, ?_, ?_, ?_⟩
  · cases ptr with
    | none => exact hl
    | some a =>
      show s.1.next a = x
      have hax : a ≠ x := fun e => hx (by rw [e])
      rw [hframe a (hptr a rfl) (fun e => hax (Option.some.inj e).symm)]
      exact upd_same _ _ _
  · intro a ha hne
    have hax : a ≠ x := fun e => ha (by simp [e])
    have hay : a ∉ ys := fun e => ha (List.mem_cons_of_mem _ e)
    rw [hframe a hay (fun e => hax (Option.some.inj e).symm)]
    exact storePtr_next h hd ptr x a hne
  · intro hp
    rw [hl]; exact storePtr_local h hd ptr x hp
  · rw [hpv]; exact storePtr_prev _ _ _ _
  · rw [hval]; exact storePtr_value _ _ _ _
  · rw [hrel]; exact storePtr_released _ _ _ _

theorem path_storePtr {h : Heap} {hd : Nat} {ptr : Option Nat} {v p q : Nat} {zs : List Nat}
    (hptr : ∀ a, ptr = some a → a ∉ zs) (hp : Path h.next p zs q) :
    Path (storePtr h hd ptr v).1.next p zs q :=
  path_congr (fun y hy => (storePtr_next h hd ptr v y (fun e => hptr y e hy)).symm) hp

theorem merge_loop_spec : ∀ (fuel : Nat) (h : Heap) (hd : Nat) (ptr : Option Nat)
    (left right : Nat) (ls rs : List Nat),
    Path h.next left ls 0 → Path h.next right rs 0 → (ls ++ rs).Nodup → 0 ∉ ls ++ rs →
    (∀ a, ptr = some a → a ∉ ls ++ rs) → ls.length + rs.length < fuel →
    ∃ h1 hd1 ptr1 l1 r1,
      merge_loop fuel h hd ptr left right = some (h1, hd1, ptr1, l1, r1) ∧
      MergePost h hd ptr (storePtr h1 hd1 ptr1 (l1 ||| r1))
        (List.merge ls rs (strLE h.value))
  | 0, _, _, _, _, _, _, _, _, _, _, _, _, hf => absurd hf (Nat.not_lt_zero _)
  | fuel + 1, h, hd, ptr, left, right, [], rs, hl, hr, _, _, hptr, _ => by
    have hl0 : left = 0 := hl
    subst hl0
    refine ⟨h, hd, ptr, 0, right, by simp [merge_loop], ?_⟩
    rw [Nat.zero_or, List.nil_merge]
    exact merge_post_exit h hd ptr right rs hr (by simpa using hptr)
  | fuel + 1, h, hd, ptr, left, right, x :: ls, [], hl, hr, _, _, hptr, _ => by
    have hr0 : right = 0 := hr
    subst hr0
    refine ⟨h, hd, ptr, left, 0, by simp [merge_loop], ?_⟩
    rw [Nat.or_zero, List.merge_right]
    exact merge_post_exit h hd ptr left (x :: ls) hl (by simpa using hptr)
  | fuel + 1, h, hd, ptr, left, right, x :: ls, y :: rs, hl, hr, hnd, h0, hptr, hf => by
    obtain ⟨hlx, hl2⟩ := hl
    obtain ⟨hry, hr2⟩ := hr
    subst hlx; subst hry
    have hx0 : left ≠ 0 := fun e => h0 (by simp [e])
    have hy0 : right ≠ 0 := fun e => h0 (by simp [e])
    have hpx : ptr ≠ some left := fun e => hptr left e (by simp)
    have hpy : ptr ≠ some right := fun e => hptr right e (by simp)
    rw [merge_loop, if_pos ⟨hx0, hy0⟩]
    by_cases hc : strcmp (h.value left) (h.value right) ≤ 0
    · rw [if_pos hc]
      simp only [loadPtr_storePtr, storePtr_next h hd ptr left left hpx]
      have hnd' : (ls ++ right :: rs).Nodup := (List.nodup_cons.1 hnd).2
      have hxn : left ∉ ls ++ right :: rs := (List.nodup_cons.1 hnd).1
      obtain ⟨h1, hd1, ptr1, l1, r1, hrun, hpost⟩ := merge_loop_spec fuel
        (storePtr h hd ptr left).1 (storePtr h hd ptr left).2 (some left) (h.next left) right
        ls (right :: rs)
        (path_storePtr (fun a e hm => hptr a e (by simp [hm])) hl2)
        (path_storePtr (fun a e hm => hptr a e (by
          simp only [List.cons_append, List.mem_cons, List.mem_append] at hm ⊢; tauto))
          (show Path h.next right (right :: rs) 0 from ⟨rfl, hr2⟩))
        hnd' (fun e => h0 (List.mem_cons_of_mem _ e))
        (fun a e => by rw [← Option.some.inj e]; exact hxn)
        (by simp only [List.length_cons] at hf ⊢; omega)
      refine ⟨h1, hd1, ptr1, l1, r1, hrun, ?_⟩
      rw [storePtr_value] at hpost
      rw [List.cons_merge_cons_pos _ _ _ (by simpa [strLE] using hc)]
      refine merge_post_step h hd ptr left _ _ hpx ?_ hpost
      intro a e hm
      rw [List.mem_merge] at hm
      exact hptr a e (by
        simp only [List.cons_append, List.mem_cons, List.mem_append] at hm ⊢; tauto)
    · rw [if_neg hc]
      simp only [loadPtr_storePtr, storePtr_next h hd ptr right right hpy]
      have hsub : List.Sublist ((left :: ls) ++ rs) ((left :: ls) ++ right :: rs) :=
        List.Sublist.append_left (List.sublist_cons_self right rs) _
      have hnd' : ((left :: ls) ++ rs).Nodup := hnd.sublist hsub
      have hyn : right ∉ (left :: ls) ++ rs := by
        have hperm : List.Perm ((left :: ls) ++ right :: rs) (right :: ((left :: ls) ++ rs)) :=
          List.perm_middle
        exact (List.nodup_cons.1 (hperm.nodup_iff.1 hnd)).1
      obtain ⟨h1, hd1, ptr1, l1, r1, hrun, hpost⟩ := merge_loop_spec fuel
        (storePtr h hd ptr right).1 (storePtr h hd ptr right).2 (some right) left
        (h.next right) (left :: ls) rs
        (path_storePtr (fun a e hm => hptr a e (by
          simp only [List.cons_append, List.mem_cons, List.mem_append] at hm ⊢; tauto))
          (show Path h.next left (left :: ls) 0 from ⟨rfl, hl2⟩))
        (path_storePtr (fun a e hm => hptr a e (by simp [hm])) hr2)
        hnd' (fun e => h0 (hsub.subset e))
        (fun a e => by rw [← Option.some.inj e]; exact hyn)
        (by simp only [List.length_cons] at hf ⊢; omega)
      refine ⟨h1, hd1, ptr1, l1, r1, hrun, ?_⟩
      rw [storePtr_value] at hpost
      rw [List.cons_merge_cons_neg _ _ _ (by simpa [strLE] using hc)]
      refine merge_post_step h hd ptr right _ _ hpy ?_ hpost
      intro a e hm
      rw [List.mem_merge] at hm
      exact hptr a e (by
        simp only [List.cons_append, List.mem_cons, List.mem_append] at hm ⊢; tauto)

/-- On two disjoint NULL-terminated chains `merge` returns the chain of their merge and
changes only `next` fields of their nodes. -/
theorem merge_spec {fuel : Nat} {h : Heap} {left right : Nat} {ls rs : List Nat}
    (hl : Path h.next left ls 0) (hr : Path h.next right rs 0) (hnd : (ls ++ rs).Nodup)
    (h0 : 0 ∉ ls ++ rs) (hf : ls.length + rs.length < fuel) :
    ∃ h' p', merge fuel h left right = some (h', p') ∧
      Path h'.next p' (List.merge ls rs (strLE h.value)) 0 ∧
      (∀ a, a ∉ ls ++ rs → h'.next a = h.next a) ∧
      h'.prev = h.prev ∧ h'.value = h.value ∧ h'.released = h.released := by
  obtain ⟨h1, hd1, ptr1, l1, r1, hrun, hpath, hframe, _, hpv, hval, hrel⟩ :=
    merge_loop_spec fuel h 0 none left right ls rs hl hr hnd h0 (fun _ e => by simp at e) hf
  refine ⟨(storePtr h1 hd1 ptr1 (l1 ||| r1)).1, (storePtr h1 hd1 ptr1 (l1 ||| r1)).2, ?_,
    hpath, ?_, hpv, hval, hrel⟩
  · rw [merge, hrun]
  · intro a ha
    refine hframe a (fun hm => ha ?_) (by simp)
    rw [List.mem_merge] at hm
    exact List.mem_append.2 hm

/-! ## `mergesort` -/

theorem mergesort_split_spec {h : Heap} {p : Nat} {xs : List Nat}
    (hp : Path h.next p xs 0) (h0 : 0 ∉ xs) :
    ∀ (fuel k : Nat), 2 * k + 1 ≤ xs.length → (xs.length - 1) / 2 - k < fuel →
      mergesort_split fuel h ((xs ++ [0]).getD (2 * k + 1) 0) ((xs ++ [0]).getD (k + 1) 0) =
        some ((xs ++ [0]).getD ((xs.length + 1) / 2) 0)
  | 0, _, _, hf => absurd hf (Nat.not_lt_zero _)
  | fuel + 1, k, hk, hf => by
    have hnext := path_getD_succ hp
    have hne : ∀ i, i < xs.length → (xs ++ [0]).getD i 0 ≠ 0 :=
      fun i hi e => h0 (e ▸ getD_snoc_lt xs 0 i hi)
    rw [mergesort_split]
    by_cases hc : 2 * k + 2 < xs.length
    · have h1 : (xs ++ [0]).getD (2 * k + 1) 0 ≠ 0 := hne _ (by omega)
      have h2 : h.next ((xs ++ [0]).getD (2 * k + 1) 0) ≠ 0 := by
        rw [hnext _ (by omega)]; exact hne _ (by omega)
      rw [if_pos ⟨h1, h2⟩, hnext _ (by omega), hnext _ (by omega), hnext _ (by omega)]
      have := mergesort_split_spec hp h0 fuel (k + 1) (by omega) (by omega)
      rw [show 2 * (k + 1) + 1 = 2 * k + 1 + 1 + 1 by ring] at this
      exact this
    · have hkk : k + 1 = (xs.length + 1) / 2 := by omega
      have hcond : ¬ ((xs ++ [0]).getD (2 * k + 1) 0 ≠ 0 ∧
          h.next ((xs ++ [0]).getD (2 * k + 1) 0) ≠ 0) := by
        rintro ⟨h1, h2⟩
        by_cases hlt : 2 * k + 1 < xs.length
        · rw [hnext _ hlt] at h2
          have : 2 * k + 1 + 1 = xs.length := by omega
          rw [this, getD_snoc_length] at h2
          exact h2 rfl
        · have : 2 * k + 1 = xs.length := by omega
          rw [this, getD_snoc_length] at h1
          exact h1 rfl
      rw [if_neg hcond, hkk]

theorem prevOK_left {pv : Nat → Nat} {A B : List Nat} (hp : PrevOK pv (A ++ B)) :
    PrevOK pv A := by
  intro pre a b post e
  exact hp pre a b (post ++ B) (by rw [e]; simp)

theorem prevOK_right {pv : Nat → Nat} {A B : List Nat} (hp : PrevOK pv (A ++ B)) :
    PrevOK pv B := by
  intro pre a b post e
  exact hp (A ++ pre) a b post (by rw [e]; simp)

theorem mergeSort_unfold (le : Nat → Nat → Bool) (a b : Nat) (rest : List Nat) :
    (a :: b :: rest).mergeSort le =
      List.merge (((a :: b :: rest).take ((rest.length + 3) / 2)).mergeSort le)
        (((a :: b :: rest).drop ((rest.length + 3) / 2)).mergeSort le) le := by
  rw [List.mergeSort]
  simp only [List.splitInTwo_fst, List.splitInTwo_snd]
  rfl

/-- The cut of `mergesort`: with the `prev` links in order, `slow->prev->next = NULL`
splits the chain into the part before `slow` and the part from `slow` on. -/
theorem mergesort_cut {h : Heap} {p slow al : Nat} {A B : List Nat}
    (hp : Path h.next p ((A ++ [al]) ++ slow :: B) 0)
    (hnd : ((A ++ [al]) ++ slow :: B).Nodup) (hpv : PrevOK h.prev ((A ++ [al]) ++ slow :: B)) :
    Path (h.setNext (h.prev slow) 0).next p (A ++ [al]) 0 ∧
      Path (h.setNext (h.prev slow) 0).next slow (slow :: B) 0 := by
  have hps : h.prev slow = al := hpv A al slow B (by simp)
  rw [hps]
  rw [path_append, path_concat] at hp
  obtain ⟨⟨hp1, hal⟩, hp2⟩ := hp
  have hnd1 := (List.nodup_append.1 hnd)
  have halA : al ∉ A := by
    intro hm
    exact (List.nodup_append.1 hnd1.1).2.2 hm (by simp)
  have halB : al ∉ slow :: B := fun hm => hnd1.2.2 (by simp) hm
  refine ⟨path_concat.2 ⟨path_congr (fun y hy => ?_) hp1, upd_same _ _ _⟩,
    path_congr (fun y hy => ?_) (show Path h.next slow (slow :: B) 0 from ⟨rfl, hp2⟩)⟩
  · exact (upd_other _ _ _ _ (ne_of_mem_of_not_mem hy halA)).symm
  · exact (upd_other _ _ _ _ (ne_of_mem_of_not_mem hy halB)).symm

theorem split_shape (xs : List Nat) (k : Nat) (hk1 : 1 ≤ k) (hk2 : k < xs.length) :
    ∃ A al slow B, xs.take k = A ++ [al] ∧ xs.drop k = slow :: B ∧
      (xs ++ [0]).getD k 0 = slow := by
  rcases nil_or_snoc (xs.take k) with e | ⟨A, al, e⟩
  · have := congrArg List.length e
    rw [List.length_take] at this
    simp only [List.length_nil] at this
    omega
  · refine ⟨A, al, xs[k], xs.drop (k + 1), e, List.drop_eq_getElem_cons hk2, ?_⟩
    rw [List.getD_append _ _ _ _ hk2, List.getD_eq_getElem _ _ hk2]

/-- On a NULL-terminated chain whose `prev` links are in order, `mergesort` returns the
chain of the merge sort of its nodes, changing only `next` fields of these nodes. -/
theorem mergesort_spec : ∀ (fuel : Nat) (h : Heap) (p : Nat) (xs : List Nat),
    Path h.next p xs 0 → xs.Nodup → 0 ∉ xs → PrevOK h.prev xs → xs.length + 1 < fuel →
    ∃ h' p', mergesort fuel h p = some (h', p') ∧
      Path h'.next p' (xs.mergeSort (strLE h.value)) 0 ∧
      (∀ a, a ∉ xs → h'.next a = h.next a) ∧
      h'.prev = h.prev ∧ h'.value = h.value ∧ h'.released = h.released
  | 0, _, _, _, _, _, _, _, hf => absurd hf (Nat.not_lt_zero _)
  | fuel + 1, h, p, [], hp, _, _, _, _ => by
    have hp0 : p = 0 := hp
    subst hp0
    exact ⟨h, 0, by simp [mergesort], by simp [Path], fun _ _ => rfl, rfl, rfl, rfl⟩
  | fuel + 1, h, p, [x], hp, _, _, _, _ => by
    obtain ⟨hpx, hx⟩ := hp
    subst hpx
    have hx' : h.next p = 0 := hx
    exact ⟨h, p, by simp [mergesort, hx'], by simpa [Path] using hx', fun _ _ => rfl, rfl,
      rfl, rfl⟩
  | fuel + 1, h, p, a :: b :: rest, hp, hnd, h0, hpv, hf => by
    have hpa : p = a := hp.1
    have hab : h.next a = b := hp.2.1
    subst hpa
    have hp0 : p ≠ 0 := fun e => h0 (by simp [e])
    have hb0 : b ≠ 0 := fun e => h0 (by simp [e])
    have hg : ¬ (p = 0 ∨ h.next p = 0) := by
      rw [hab]; rintro (e | e)
      · exact hp0 e
      · exact hb0 e
    have hlen : (p :: b :: rest).length = rest.length + 2 := rfl
    have hsplit := mergesort_split_spec hp h0 fuel 0 (by rw [hlen]; omega)
      (by rw [hlen]; rw [hlen] at hf; omega)
    have e1 : ((p :: b :: rest) ++ [0]).getD (2 * 0 + 1) 0 = h.next p := by rw [hab]; rfl
    rw [e1] at hsplit
    have hkk : ((p :: b :: rest).length + 1) / 2 = (rest.length + 3) / 2 := by rw [hlen]
    rw [hkk] at hsplit
    obtain ⟨A, al, slow, B, hA, hB, hslow⟩ := split_shape (p :: b :: rest)
      ((rest.length + 3) / 2) (by omega) (by rw [hlen]; omega)
    rw [hslow] at hsplit
    have hxs : p :: b :: rest = (A ++ [al]) ++ slow :: B := by
      rw [← hA, ← hB, List.take_append_drop]
    have hlenA : (A ++ [al]).length = (rest.length + 3) / 2 := by
      rw [← hA, List.length_take, hlen]; omega
    have hlenB : (slow :: B).length = rest.length + 2 - (rest.length + 3) / 2 := by
      rw [← hB, List.length_drop, hlen]
    rw [hlen] at hf
    rw [hxs] at hp hnd h0 hpv
    obtain ⟨hc1, hc2⟩ := mergesort_cut hp hnd hpv
    have hndA := (List.nodup_append.1 hnd).1
    have hndB := (List.nodup_append.1 hnd).2.1
    have hdisj := (List.nodup_append.1 hnd).2.2
    obtain ⟨h2, left, hrun1, hpath1, hframe1, hpv1, hval1, hrel1⟩ := mergesort_spec fuel
      (h.setNext (h.prev slow) 0) p (A ++ [al]) hc1 hndA
      (fun e => h0 (List.mem_append_left _ e)) (prevOK_left hpv) (by rw [hlenA]; omega)
    have hval1' : h2.value = h.value := hval1
    have hpv1' : h2.prev = h.prev := hpv1
    have hc2' : Path h2.next slow (slow :: B) 0 :=
      path_congr (fun y hy => (hframe1 y (fun hm => hdisj hm hy)).symm) hc2
    obtain ⟨h3, right, hrun2, hpath2, hframe2, hpv2, hval2, hrel2⟩ := mergesort_spec fuel
      h2 slow (slow :: B) hc2' hndB (fun e => h0 (List.mem_append_right _ e))
      (by rw [hpv1']; exact prevOK_right hpv) (by rw [hlenB]; omega)
    rw [hval1'] at hpath2
    have hpath1' : Path h3.next left ((A ++ [al]).mergeSort (strLE h.value)) 0 := by
      refine path_congr (fun y hy => ?_) hpath1
      rw [List.mem_mergeSort] at hy
      exact (hframe2 y (fun hm => hdisj hy hm)).symm
    have hperm : List.Perm ((A ++ [al]).mergeSort (strLE h.value) ++
        (slow :: B).mergeSort (strLE h.value)) ((A ++ [al]) ++ slow :: B) :=
      (List.mergeSort_perm _ _).append (List.mergeSort_perm _ _)
    obtain ⟨h4, r, hrun3, hpath3, hframe3, hpv3, hval3, hrel3⟩ := @merge_spec fuel h3 left right _ _
      hpath1' hpath2 (hperm.nodup_iff.2 hnd) (fun e => h0 (hperm.subset e))
      (by rw [List.length_mergeSort, List.length_mergeSort, hlenA, hlenB]; omega)
    have hval3' : h4.value = h.value := by rw [hval3, hval2, hval1']
    refine ⟨h4, r, ?_, ?_, ?_, ?_, hval3', ?_⟩
    · rw [mergesort, if_neg hg, hsplit]
      simp only [hrun1, hrun2]
      exact hrun3
    · rw [mergeSort_unfold, hA, hB]
      rw [hval2, hval1'] at hpath3
      exact hpath3
    · intro y hy
      rw [hxs] at hy
      have hy1 : y ∉ (A ++ [al]).mergeSort (strLE h.value) ++
          (slow :: B).mergeSort (strLE h.value) := fun hm => hy (hperm.subset hm)
      have hyA : y ∉ A ++ [al] := fun hm => hy (List.mem_append_left _ hm)
      have hyB : y ∉ slow :: B := fun hm => hy (List.mem_append_right _ hm)
      rw [hframe3 y hy1, hframe2 y hyB, hframe1 y hyA]
      have hyal : y ≠ al := fun e => hyA (by simp [e])
      have hps : h.prev slow = al := hpv A al slow B (by simp)
      rw [hps]
      exact upd_other _ _ _ _ hyal
    · rw [hpv3, hpv2, hpv1']
    · rw [hrel3, hrel2, hrel1]; rfl

/-! ## `q_sort` -/

theorem q_sort_relink_spec : ∀ (todo : List Nat) (fuel : Nat) (h : Heap) (c nx : Nat),
    Path h.next nx todo 0 → (c :: todo).Nodup → 0 ∉ todo → todo.length < fuel →
    ∃ h', q_sort_relink fuel h c nx = some (h', lastD todo c) ∧
      h'.next = h.next ∧ (∀ a, a ∉ todo → h'.prev a = h.prev a) ∧
      Path h'.prev (lastD todo c) todo.reverse c ∧
      h'.value = h.value ∧ h'.released = h.released
  | _, 0, _, _, _, _, _, _, hf => absurd hf (Nat.not_lt_zero _)
  | [], fuel + 1, h, c, nx, hp, _, _, _ => by
    have hn : nx = 0 := hp
    subst hn
    exact ⟨h, by simp [q_sort_relink, lastD], rfl, fun _ _ => rfl, rfl, rfl, rfl⟩
  | x :: rest, fuel + 1, h, c, nx, hp, hnd, h0, hf => by
    obtain ⟨hnx, hp2⟩ := hp
    subst hnx
    have hx0 : nx ≠ 0 := fun e => h0 (by simp [e])
    have hnd2 := (List.nodup_cons.1 hnd).2
    have hxr : nx ∉ rest := (List.nodup_cons.1 hnd2).1
    obtain ⟨h', hrun, hnext, hframe, hpath, hv, hrel⟩ := q_sort_relink_spec rest fuel
      (h.setPrev nx c) nx (h.next nx) hp2 hnd2 (fun e => h0 (List.mem_cons_of_mem _ e))
      (by simpa using hf)
    refine ⟨h', ?_, hnext, ?_, ?_, hv, hrel⟩
    · rw [q_sort_relink, if_pos hx0]
      exact hrun
    · intro a ha
      have hax : a ≠ nx := fun e => ha (by simp [e])
      rw [hframe a (fun e => ha (List.mem_cons_of_mem _ e))]
      exact upd_other _ _ _ _ hax
    · rw [List.reverse_cons, path_concat]
      refine ⟨hpath, ?_⟩
      rw [hframe nx hxr]
      exact upd_same _ _ _

theorem Ring.prevOK {h : Heap} {head : Nat} {xs : List Nat} (hr : Ring h head xs) :
    PrevOK h.prev xs := by
  intro pre a b post e
  have hr' : Ring h head ((pre ++ [a]) ++ b :: post) := by
    rw [e] at hr; simpa using hr
  rw [hr'.prev_mid, lastD_snoc]

/-- On a well-formed queue `q_sort` leaves a well-formed queue whose elements are the merge
sort of the elements of the input. -/
theorem q_sort_spec {fuel : Nat} {h : Heap} {head : Nat} {xs : List Nat}
    (hr : Ring h head xs) (hf : xs.length + 2 < fuel) :
    ∃ h', q_sort fuel h head = some h' ∧ Ring h' head (xs.mergeSort (strLE h.value)) ∧
      h'.value = h.value ∧ h'.released = h.released := by
  by_cases hn : xs.length ≤ 1
  · have hsame : xs.mergeSort (strLE h.value) = xs := by
      cases xs with
      | nil => simp
      | cons x rest =>
        cases rest with
        | nil => simp
        | cons y r => simp at hn
    refine ⟨h, ?_, by rw [hsame]; exact hr, rfl, rfl⟩
    rw [q_sort]
    by_cases he : xs = []
    · have := hr.list_empty_iff.2 he
      simp [this]
    · have h1 : xs.length = 1 := by
        cases xs with
        | nil => exact absurd rfl he
        | cons x r => simp only [List.length_cons] at hn ⊢; omega
      have := hr.singular_iff.2 h1
      simp [this]
  · have hg : ¬ (head = 0 ∨ list_is_singular h head = true ∨ list_empty h head = true) := by
      rintro (e | e | e)
      · exact hr.head_ne_zero e
      · have := hr.singular_iff.1 e; omega
      · have := hr.list_empty_iff.1 e; subst this; simp at hn
    have hhx : head ∉ xs := (List.nodup_cons.1 hr.1).1
    have hndx : xs.Nodup := (List.nodup_cons.1 hr.1).2
    have h0x : 0 ∉ xs := fun e => hr.2.1 (List.mem_cons_of_mem _ e)
    -- the ring is broken at the sentinel
    obtain ⟨init, l, hxs⟩ : ∃ init l, xs = init ++ [l] := by
      rcases nil_or_snoc xs with e | e
      · subst e; simp at hn
      · exact e
    have hpl : h.prev head = l := by rw [hr.prev_head, hxs, lastD_snoc]
    have hlh : l ≠ head := fun e => hhx (by rw [hxs, ← e]; simp)
    have hli : l ∉ init := by
      intro hm
      rw [hxs] at hndx
      exact (List.nodup_append.1 hndx).2.2 hm (by simp)
    have hfw := hr.2.2.1
    have hp1 : Path (h.setNext (h.prev head) 0).next ((h.setNext (h.prev head) 0).next head)
        xs 0 := by
      have e : (h.setNext (h.prev head) 0).next head = h.next head := by
        rw [hpl]; exact upd_other _ _ _ _ (Ne.symm hlh)
      rw [e, hpl]
      rw [hxs, path_concat] at hfw ⊢
      exact ⟨path_congr (fun y hy =>
        (upd_other _ _ _ _ (ne_of_mem_of_not_mem hy hli)).symm) hfw.1, upd_same _ _ _⟩
    obtain ⟨h2, r, hrun1, hpath1, hframe1, hpv1, hval1, hrel1⟩ := mergesort_spec fuel
      (h.setNext (h.prev head) 0) ((h.setNext (h.prev head) 0).next head) xs hp1 hndx h0x
      hr.prevOK (by omega)
    have hval1' : h2.value = h.value := hval1
    have hperm : List.Perm (xs.mergeSort (strLE h.value)) xs := List.mergeSort_perm _ _
    have hhy : head ∉ xs.mergeSort (strLE h.value) := fun e => hhx (hperm.subset e)
    have hndy : (head :: xs.mergeSort (strLE h.value)).Nodup :=
      (List.Perm.cons _ hperm).nodup_iff.2 hr.1
    have h0y : 0 ∉ xs.mergeSort (strLE h.value) := fun e => h0x (hperm.subset e)
    have hpath1' : Path h2.next r (xs.mergeSort (strLE h.value)) 0 := hpath1
    -- the sorted chain is hung on the sentinel and the `prev` links are restored
    have hp3 : Path (h2.setNext head r).next ((h2.setNext head r).next head)
        (xs.mergeSort (strLE h.value)) 0 := by
      have e : (h2.setNext head r).next head = r := upd_same _ _ _
      rw [e]
      exact path_congr (fun y hy =>
        (upd_other _ _ _ _ (ne_of_mem_of_not_mem hy hhy)).symm) hpath1'
    obtain ⟨h4, hrun2, hnext4, hframe4, hpath4, hval4, hrel4⟩ := q_sort_relink_spec
      (xs.mergeSort (strLE h.value)) fuel (h2.setNext head r) head
      ((h2.setNext head r).next head) hp3 hndy h0y (by rw [List.length_mergeSort]; omega)
    obtain ⟨init', l', hys⟩ : ∃ init l, xs.mergeSort (strLE h.value) = init ++ [l] := by
      rcases nil_or_snoc (xs.mergeSort (strLE h.value)) with e | e
      · have := congrArg List.length e
        rw [List.length_mergeSort] at this
        simp only [List.length_nil] at this
        omega
      · exact e
    have hcurr : lastD (xs.mergeSort (strLE h.value)) head = l' := by rw [hys, lastD_snoc]
    rw [hcurr] at hrun2 hpath4
    have hl'h : l' ≠ head := fun e => hhy (by rw [hys, ← e]; simp)
    have hl'i : l' ∉ init' := by
      intro hm
      have := (List.nodup_cons.1 hndy).2
      rw [hys] at this
      exact (List.nodup_append.1 this).2.2 hm (by simp)
    refine ⟨(h4.setNext l' head).setPrev head l', ?_, ⟨hndy, ?_, ?_, ?_⟩, ?_, ?_⟩
    · rw [q_sort, if_neg hg]
      simp only [hrun1, hrun2]
    · intro e
      rcases List.mem_cons.1 e with e | e
      · exact hr.head_ne_zero e.symm
      · exact h0y e
    · show Path (upd h4.next l' head) (upd h4.next l' head head)
        (xs.mergeSort (strLE h.value)) head
      rw [hnext4, upd_other _ _ _ _ (Ne.symm hl'h)]
      rw [hys, path_concat] at hp3 ⊢
      exact ⟨path_congr (fun y hy =>
        (upd_other _ _ _ _ (ne_of_mem_of_not_mem hy hl'i)).symm) hp3.1, upd_same _ _ _⟩
    · show Path (upd h4.prev head l') (upd h4.prev head l' head)
        (xs.mergeSort (strLE h.value)).reverse head
      rw [upd_same]
      refine path_congr (fun y hy => ?_) hpath4
      rw [List.mem_reverse] at hy
      exact (upd_other _ _ _ _ (ne_of_mem_of_not_mem hy hhy)).symm
    · show h4.value = h.value
      rw [hval4]; exact hval1'
    · show h4.released = h.released
      rw [hrel4]; exact hrel1

/-! ## `q_delete_dup` -/

theorem q_delete_dup_inner_spec {head : Nat} : ∀ (todo : List Nat) (fuel : Nat) (h : Heap)
    (pre : List Nat) (c : Nat) (key : Bool),
    Ring h head (pre ++ c :: todo) → todo.length < fuel →
    ∃ h', q_delete_dup_inner fuel h head c (firstD todo head) key =
        some (h', firstD (todo.dropWhile (sameStr h.value c)) head,
          key || todo.head?.any (sameStr h.value c)) ∧
      Ring h' head (pre ++ c :: todo.dropWhile (sameStr h.value c)) ∧ h'.value = h.value
  | _, 0, _, _, _, _, _, hf => absurd hf (Nat.not_lt_zero _)
  | [], fuel + 1, h, pre, c, key, hr, _ => by
    refine ⟨h, ?_, hr, rfl⟩
    simp [q_delete_dup_inner, firstD]
  | y :: rest, fuel + 1, h, pre, c, key, hr, hf => by
    have hyh : y ≠ head := hr.mem_ne_head (by simp)
    by_cases hc : strcmp (h.value c) (h.value y) = 0
    · have hs : sameStr h.value c y = true := by simp [sameStr, hc]
      have hr1 : Ring (q_release_element (list_del h y) y) head (pre ++ c :: rest) := by
        have hr' : Ring h head ((pre ++ [c]) ++ y :: rest) := by simpa using hr
        have := ring_del hr'
        exact ring_release y (by simpa using this)
      obtain ⟨h', hrun, hring, hv⟩ := q_delete_dup_inner_spec rest fuel
        (q_release_element (list_del h y) y) pre c true hr1 (by simpa using hf)
      have hv1 : (q_release_element (list_del h y) y).value = h.value := rfl
      rw [hv1] at hrun hring hv
      refine ⟨h', ?_, ?_, hv⟩
      · rw [q_delete_dup_inner, show firstD (y :: rest) head = y from rfl,
          if_pos ⟨hyh, hc⟩]
        dsimp only
        rw [hr1.next_mid, hrun]
        simp [List.dropWhile_cons, hs]
      · simpa [List.dropWhile_cons, hs] using hring
    · have hs : sameStr h.value c y = false := by simp [sameStr, hc]
      refine ⟨h, ?_, ?_, rfl⟩
      · rw [q_delete_dup_inner, show firstD (y :: rest) head = y from rfl,
          if_neg (fun e => hc e.2)]
        simp [List.dropWhile_cons, hs, firstD]
      · simpa [List.dropWhile_cons, hs] using hr

theorem dropRuns_after (v : Nat → List Nat) (c : Nat) : ∀ (todo : List Nat) (q : Nat),
    sameStr v c q = true →
    dropRuns v (some q) todo = dropRuns v none (todo.dropWhile (sameStr v c))
  | [], _, _ => rfl
  | y :: rest, q, hq => by
    by_cases hs : sameStr v c y = true
    · have hqy : sameStr v q y = true := sameStr_trans v q c y (sameStr_symm v c q hq) hs
      rw [List.dropWhile_cons, if_pos hs, ← dropRuns_after v c rest y hs]
      simp [dropRuns, hqy]
    · have hqy : sameStr v q y = false := by
        rw [← Bool.not_eq_true]
        exact fun e => hs (sameStr_trans v c q y hq e)
      rw [List.dropWhile_cons, if_neg hs]
      simp [dropRuns, hqy]

theorem dropRuns_cons (v : Nat → List Nat) (c : Nat) (todo : List Nat) :
    dropRuns v none (c :: todo) =
      if todo.head?.any (sameStr v c) = true then
        dropRuns v none (todo.dropWhile (sameStr v c))
      else c :: dropRuns v none (todo.dropWhile (sameStr v c)) := by
  rw [← dropRuns_after v c todo c (sameStr_refl v c)]
  simp [dropRuns]

theorem q_delete_dup_loop_spec {head : Nat} : ∀ (fuel : Nat) (h : Heap)
    (kept rem : List Nat), Ring h head (kept ++ rem) → rem.length < fuel →
    ∃ h', q_delete_dup_loop fuel h head (firstD rem head) (h.next (firstD rem head)) false =
        some h' ∧
      Ring h' head (kept ++ dropRuns h.value none rem) ∧ h'.value = h.value
  | 0, _, _, _, _, hf => absurd hf (Nat.not_lt_zero _)
  | fuel + 1, h, kept, [], hr, _ => by
    refine ⟨h, ?_, hr, rfl⟩
    simp [q_delete_dup_loop, firstD]
  | fuel + 1, h, kept, c :: todo, hr, hf => by
    have hnc : h.next c = firstD todo head := hr.next_mid
    have hch : c ≠ head := hr.mem_ne_head (by simp)
    rw [show firstD (c :: todo) head = c from rfl, hnc, q_delete_dup_loop]
    by_cases ht : todo = []
    · subst ht
      refine ⟨h, ?_, hr, rfl⟩
      simp [firstD]
    · have hnh : firstD todo head ≠ head :=
        hr.mem_ne_head (List.mem_append_right _ (List.mem_cons_of_mem _ (firstD_mem todo head ht)))
      have hlt : todo.length < fuel := by simpa using hf
      obtain ⟨h1, hrun, hring, hv⟩ := q_delete_dup_inner_spec todo fuel h kept c false hr hlt
      have hle : (todo.dropWhile (sameStr h.value c)).length < fuel :=
        lt_of_le_of_lt (List.dropWhile_sublist _).length_le hlt
      rw [if_pos ⟨hch, hnh⟩, hrun]
      dsimp only
      rw [dropRuns_cons, Bool.false_or]
      by_cases hk : todo.head?.any (sameStr h.value c) = true
      · rw [if_pos hk, if_pos hk]
        have hr2 : Ring (q_release_element (list_del h1 c) c) head
            (kept ++ todo.dropWhile (sameStr h.value c)) := ring_release c (ring_del hring)
        obtain ⟨h', hrun2, hring2, hv2⟩ := q_delete_dup_loop_spec fuel
          (q_release_element (list_del h1 c) c) kept _ hr2 hle
        have hv1 : (q_release_element (list_del h1 c) c).value = h.value := hv
        rw [hv1] at hring2 hv2
        exact ⟨h', hrun2, hring2, hv2⟩
      · have hk' : todo.head?.any (sameStr h.value c) = false := by simpa using hk
        rw [if_neg hk, if_neg hk]
        dsimp only
        rw [hk']
        have hr2 : Ring h1 head ((kept ++ [c]) ++ todo.dropWhile (sameStr h.value c)) := by
          simpa using hring
        obtain ⟨h', hrun2, hring2, hv2⟩ := q_delete_dup_loop_spec fuel h1 (kept ++ [c]) _ hr2 hle
        rw [hv] at hring2 hv2
        refine ⟨h', hrun2, ?_, hv2⟩
        simpa using hring2

/-- On a non-empty well-formed queue `q_delete_dup` returns `true` and leaves the elements
whose string equals that of neither neighbour. -/
theorem q_delete_dup_spec {fuel : Nat} {h : Heap} {head : Nat} {xs : List Nat}
    (hr : Ring h head xs) (hne : xs ≠ []) (hf : xs.length < fuel) :
    ∃ h', q_delete_dup fuel h head = some (h', true) ∧
      Ring h' head (dropRuns h.value none xs) ∧ h'.value = h.value := by
  have hg : ¬ (head = 0 ∨ list_empty h head = true) := by
    rintro (e | e)
    · exact hr.head_ne_zero e
    · exact hne (hr.list_empty_iff.1 e)
  obtain ⟨h', hrun, hring, hv⟩ := q_delete_dup_loop_spec fuel h [] xs hr hf
  rw [← hr.next_head] at hrun
  refine ⟨h', ?_, hring, hv⟩
  rw [q_delete_dup, if_neg hg, hrun]

/-! ## `q_delete_dup` on sorted queues -/

theorem sorted_count_after (v : Nat → List Nat) (c : Nat) (rest : List Nat)
    (hs : (c :: rest).Pairwise (fun a b => strLE v a b = true)) :
    rest.countP (sameStr v c) = 0 ↔ rest.head?.any (sameStr v c) = false := by
  rw [List.countP_eq_zero]
  cases rest with
  | nil => simp
  | cons y r =>
    have hcy : strLE v c y = true := List.rel_of_pairwise_cons hs (List.mem_cons_self _ _)
    constructor
    · intro hall
      have := hall y (List.mem_cons_self _ _)
      simpa using this
    · intro hy z hz hsz
      have hy' : ¬ sameStr v c y = true := by simpa using hy
      apply hy'
      have hyz : strLE v y z = true := by
        rcases List.mem_cons.1 hz with e | hz'
        · rw [e]; exact ((sameStr_iff v y y).1 (sameStr_refl v y)).1
        · exact List.rel_of_pairwise_cons (List.Pairwise.of_cons hs) hz'
      have hzc : strLE v z c = true := ((sameStr_iff v c z).1 hsz).2
      exact (sameStr_iff v c y).2 ⟨hcy, strLE_trans v y z c hyz hzc⟩

theorem sorted_count_before (v : Nat → List Nat) (c : Nat) (A : List Nat)
    (hs : (A ++ [c]).Pairwise (fun a b => strLE v a b = true)) :
    A.countP (sameStr v c) = 0 ↔ A.getLast?.any (fun q => sameStr v q c) = false := by
  rw [List.countP_eq_zero]
  rcases nil_or_snoc A with rfl | ⟨L, q, rfl⟩
  · simp
  · rw [List.pairwise_append] at hs
    have hqc : strLE v q c = true := hs.2.2 q (by simp) c (by simp)
    have hL := List.pairwise_append.1 hs.1
    constructor
    · intro hall
      have h1 := hall q (by simp)
      have h2 : ¬ sameStr v q c = true := fun e => h1 (sameStr_symm v q c e)
      simpa using h2
    · intro hq a ha hsa
      have hq' : ¬ sameStr v q c = true := by simpa using hq
      apply hq'
      have haq : strLE v a q = true := by
        rcases List.mem_append.1 ha with ha' | ha'
        · exact hL.2.2 a ha' q (by simp)
        · have : a = q := by simpa using ha'
          rw [this]; exact ((sameStr_iff v q q).1 (sameStr_refl v q)).1
      have hca : strLE v c a = true := ((sameStr_iff v c a).1 hsa).1
      exact (sameStr_iff v q c).2 ⟨hqc, strLE_trans v c a q hca haq⟩

theorem count_one_iff (v : Nat → List Nat) (c : Nat) (A rest : List Nat) :
    (A ++ c :: rest).countP (sameStr v c) = 1 ↔
      A.countP (sameStr v c) = 0 ∧ rest.countP (sameStr v c) = 0 := by
  rw [List.countP_append, List.countP_cons_of_pos _ _ (sameStr_refl v c)]
  omega

/-- In a sorted sequence the elements whose string equals that of neither neighbour are
the elements whose string occurs exactly once. -/
theorem dropRuns_sorted (v : Nat → List Nat) : ∀ (l A : List Nat),
    (A ++ l).Pairwise (fun a b => strLE v a b = true) →
    dropRuns v A.getLast? l = l.filter (fun x => (A ++ l).countP (sameStr v x) == 1)
  | [], _, _ => rfl
  | c :: rest, A, hs => by
    have hs' : ((A ++ [c]) ++ rest).Pairwise (fun a b => strLE v a b = true) := by
      simpa using hs
    have ih := dropRuns_sorted v rest (A ++ [c]) hs'
    rw [List.getLast?_concat] at ih
    have e : (A ++ [c]) ++ rest = A ++ c :: rest := by simp
    rw [e] at ih
    have hb := sorted_count_before v c A (List.pairwise_append.1 hs').1
    have ha := sorted_count_after v c rest (List.pairwise_append.1 hs).2.1
    have h1 := count_one_iff v c A rest
    rw [dropRuns, List.filter_cons, ih]
    by_cases hc : (A ++ c :: rest).countP (sameStr v c) = 1
    · obtain ⟨hA, hR⟩ := h1.1 hc
      have c1 := hb.1 hA
      have c2 := ha.1 hR
      have hcond : ¬ (A.getLast?.any (fun q => sameStr v q c) ||
          rest.head?.any (fun y => sameStr v c y)) = true := by
        rw [Bool.or_eq_true, not_or, Bool.not_eq_true, Bool.not_eq_true]
        exact ⟨c1, c2⟩
      rw [if_neg hcond, if_pos (by rw [beq_iff_eq]; exact hc)]
    · have hcond : (A.getLast?.any (fun q => sameStr v q c) ||
          rest.head?.any (fun y => sameStr v c y)) = true := by
        by_contra hcon
        rw [Bool.or_eq_true, not_or, Bool.not_eq_true, Bool.not_eq_true] at hcon
        exact hc (h1.2 ⟨hb.2 hcon.1, ha.2 hcon.2⟩)
      rw [if_pos hcond, if_neg (by rw [beq_iff_eq]; exact hc)]

/-! ## Insertion, removal and size -/

/-- Linking a fresh node before the sentinel of a well-formed queue gives a well-formed
queue with the node last. -/
theorem ring_add_tail {h : Heap} {head node : Nat} {xs : List Nat}
    (hr : Ring h head xs) (hn : node ∉ head :: xs) (hn0 : node ≠ 0) :
    Ring (list_add_tail h node head) head (xs ++ [node]) := by
  have hl : lastD xs head ≠ node := by
    intro e
    apply hn
    rw [← e]
    rcases nil_or_snoc xs with rfl | ⟨L, b, rfl⟩
    · simp [lastD]
    · rw [lastD_snoc]; simp
  refine ⟨?_, ?_, ?_, ?_⟩
  · have hperm : List.Perm (head :: (xs ++ [node])) (node :: head :: xs) := by
      refine (List.Perm.cons _ (List.perm_append_singleton node xs)).trans
        (List.Perm.swap _ _ _)
    exact hperm.nodup_iff.2 (List.nodup_cons.2 ⟨hn, hr.1⟩)
  · intro h0
    have h1 := hr.2.1
    simp only [List.mem_cons, List.mem_append, List.mem_singleton, List.not_mem_nil,
      or_false] at h0 h1
    rcases h0 with h0 | h0 | h0
    · exact h1 (Or.inl h0)
    · exact h1 (Or.inr h0)
    · exact hn0 h0.symm
  · show Path (upd (upd h.next (h.prev head) node) node head)
      (upd (upd h.next (h.prev head) node) node head head) (xs ++ [node]) head
    rw [hr.prev_head, upd_comm _ _ _ _ _ hl]
    have hnd : (head :: (xs ++ [])).Nodup := by rw [List.append_nil]; exact hr.1
    have hn' : node ∉ head :: (xs ++ []) := by rw [List.append_nil]; exact hn
    have hp : Path h.next (h.next head) (xs ++ []) head := by
      rw [List.append_nil]; exact hr.2.2.1
    exact @cpath_insert h.next head node xs [] hnd hn' hp
  · show Path (upd (upd h.prev node (h.prev head)) head node)
      (upd (upd h.prev node (h.prev head)) head node head) (xs ++ [node]).reverse head
    rw [hr.prev_head, ← firstD_reverse xs head]
    have e : (xs ++ [node]).reverse = [] ++ node :: xs.reverse := by simp
    rw [e]
    have hnd : (head :: ([] ++ xs.reverse)).Nodup :=
      (List.Perm.cons _ (List.reverse_perm xs)).nodup_iff.2 hr.1
    have hn' : node ∉ head :: ([] ++ xs.reverse) := by
      intro hm
      apply hn
      simpa using hm
    exact @cpath_insert h.prev head node [] xs.reverse hnd hn' hr.2.2.2

theorem new_ele_fail (h : Heap) (s : List Nat) (p pv : Nat) (hf : p = 0 ∨ pv = 0) :
    new_ele h s p pv = (h, 0) := by
  rw [new_ele]
  by_cases hp : p = 0
  · rw [if_pos hp]
  · rw [if_neg hp]
    have hv : pv = 0 := hf.resolve_left hp
    simp [hv]

theorem new_ele_ok (h : Heap) (s : List Nat) (p pv : Nat) (hp : p ≠ 0) (hv : pv ≠ 0) :
    new_ele h s p pv =
      ({ h with value := upd h.value p (strncpy s (toSize (toInt32 (strlen s)))) }, p) := by
  rw [new_ele, if_neg hp]
  simp only [hv, if_false]

theorem toInt32_small (n : Nat) (hn : n < 2147483648) : toInt32 (n : Int) = n := by
  unfold toInt32
  omega

theorem toSize_nat (n : Nat) (hn : n < 18446744073709551616) : toSize (n : Int) = n := by
  unfold toSize
  omega

theorem toInt32_succ (x : Int) : toInt32 (toInt32 x + 1) = toInt32 (x + 1) := by
  unfold toInt32
  omega

/-- For a string shorter than `2^31` bytes `new_ele` stores the string, up to its first
NUL. -/
theorem stored_string (s : List Nat) (hs : strlen s < 2147483648) :
    strncpy s (toSize (toInt32 (strlen s))) = s.takeWhile (fun b => b != 0) := by
  rw [toInt32_small _ hs, toSize_nat _ (by omega)]
  simp [strncpy, strlen]

theorem strncpy_strlen (s : List Nat) :
    strncpy s (strlen s) = s.takeWhile (fun b => b != 0) := by
  simp [strncpy, strlen]

theorem takeWhile_nonzero (s : List Nat) (h0 : 0 ∉ s) :
    s.takeWhile (fun b => b != 0) = s := by
  rw [List.takeWhile_eq_self_iff]
  intro b hb
  simp only [bne_iff_ne, ne_eq]
  exact fun e => h0 (e ▸ hb)

theorem q_insert_head_fail (h : Heap) (head : Nat) (s : List Nat) (p pv : Nat)
    (hf : head = 0 ∨ p = 0 ∨ pv = 0) : q_insert_head h head s p pv = (h, false) := by
  rw [q_insert_head]
  by_cases hh : head = 0
  · rw [if_pos hh]
  · rw [if_neg hh, new_ele_fail h s p pv (hf.resolve_left hh)]
    simp

theorem q_insert_tail_fail (h : Heap) (head : Nat) (s : List Nat) (p pv : Nat)
    (hf : head = 0 ∨ p = 0 ∨ pv = 0) : q_insert_tail h head s p pv = (h, false) := by
  rw [q_insert_tail]
  by_cases hh : head = 0
  · rw [if_pos hh]
  · rw [if_neg hh, new_ele_fail h s p pv (hf.resolve_left hh)]
    simp

/-- A successful `q_insert_head` links the new element first. -/
theorem q_insert_head_ok {h : Heap} {head : Nat} {xs : List Nat} (hr : Ring h head xs)
    (s : List Nat) (p pv : Nat) (hp : p ∉ head :: xs) (hp0 : p ≠ 0) (hv : pv ≠ 0) :
    (q_insert_head h head s p pv).2 = true ∧
      Ring (q_insert_head h head s p pv).1 head (p :: xs) ∧
      (q_insert_head h head s p pv).1.value =
        upd h.value p (strncpy s (toSize (toInt32 (strlen s)))) ∧
      (q_insert_head h head s p pv).1.released = h.released := by
  have e : q_insert_head h head s p pv =
      (list_add { h with value := upd h.value p (strncpy s (toSize (toInt32 (strlen s)))) }
        p head, true) := by
    rw [q_insert_head, if_neg hr.head_ne_zero, new_ele_ok h s p pv hp0 hv]
    simp [hp0]
  rw [e]
  have hr1 : Ring { h with value := upd h.value p (strncpy s (toSize (toInt32 (strlen s)))) }
      head xs := hr
  exact ⟨rfl, @ring_add _ head p [] xs hr1 hp hp0, rfl, rfl⟩

/-- A successful `q_insert_tail` links the new element last. -/
theorem q_insert_tail_ok {h : Heap} {head : Nat} {xs : List Nat} (hr : Ring h head xs)
    (s : List Nat) (p pv : Nat) (hp : p ∉ head :: xs) (hp0 : p ≠ 0) (hv : pv ≠ 0) :
    (q_insert_tail h head s p pv).2 = true ∧
      Ring (q_insert_tail h head s p pv).1 head (xs ++ [p]) ∧
      (q_insert_tail h head s p pv).1.value =
        upd h.value p (strncpy s (toSize (toInt32 (strlen s)))) ∧
      (q_insert_tail h head s p pv).1.released = h.released := by
  have e : q_insert_tail h head s p pv =
      (list_add_tail { h with value := upd h.value p (strncpy s (toSize (toInt32 (strlen s)))) }
        p head, true) := by
    rw [q_insert_tail, if_neg hr.head_ne_zero, new_ele_ok h s p pv hp0 hv]
    simp [hp0]
  rw [e]
  have hr1 : Ring { h with value := upd h.value p (strncpy s (toSize (toInt32 (strlen s)))) }
      head xs := hr
  exact ⟨rfl, ring_add_tail hr1 hp hp0, rfl, rfl⟩

theorem Ring.remove_guard {h : Heap} {head x : Nat} {xs : List Nat}
    (hr : Ring h head (x :: xs)) : ¬ (head = 0 ∨ list_empty h head = true) := by
  rintro (e | e)
  · exact hr.head_ne_zero e
  · have := hr.list_empty_iff.1 e
    simp at this

/-- `q_remove_head` on a non-empty queue: the first element is unlinked and returned, and
the buffer is written when `bufsize > 0`. -/
theorem q_remove_head_eq {h : Heap} {head x : Nat} {xs : List Nat}
    (hr : Ring h head (x :: xs)) (mem : Nat → Nat) (sp bufsize : Nat) :
    q_remove_head h mem head sp bufsize =
      (list_del h x,
        if bufsize > 0 then
          upd (storeBytes mem sp (strncpy (h.value x) (bufsize - 1))) (sp + bufsize - 1) 0
        else mem, x) := by
  have hx : h.next head = x := hr.next_head
  rw [q_remove_head, if_neg hr.remove_guard, hx]
  by_cases hb : bufsize > 0
  · simp only [hb, if_true]; rfl
  · simp only [hb, if_false]

/-- `q_remove_tail` on a non-empty queue: the last element is unlinked and returned, and
the buffer is written when `bufsize > 0`. -/
theorem q_remove_tail_eq {h : Heap} {head x : Nat} {xs : List Nat}
    (hr : Ring h head (xs ++ [x])) (mem : Nat → Nat) (sp bufsize : Nat) :
    q_remove_tail h mem head sp bufsize =
      (list_del h x,
        if bufsize > 0 then
          upd (storeBytes mem sp (strncpy (h.value x) (bufsize - 1))) (sp + bufsize - 1) 0
        else mem, x) := by
  have hx : h.prev head = x := by rw [hr.prev_head, lastD_snoc]
  have hg : ¬ (head = 0 ∨ list_empty h head = true) := by
    rintro (e | e)
    · exact hr.head_ne_zero e
    · have := hr.list_empty_iff.1 e
      simp at this
  rw [q_remove_tail, if_neg hg, hx]
  by_cases hb : bufsize > 0
  · simp only [hb, if_true]; rfl
  · simp only [hb, if_false]

theorem q_remove_head_none (h : Heap) (mem : Nat → Nat) (head sp bufsize : Nat)
    (he : head = 0 ∨ list_empty h head = true) :
    q_remove_head h mem head sp bufsize = (h, mem, 0) := by
  rw [q_remove_head, if_pos he]

theorem q_remove_tail_none (h : Heap) (mem : Nat → Nat) (head sp bufsize : Nat)
    (he : head = 0 ∨ list_empty h head = true) :
    q_remove_tail h mem head sp bufsize = (h, mem, 0) := by
  rw [q_remove_tail, if_pos he]

theorem ring_del_head {h : Heap} {head x : Nat} {xs : List Nat}
    (hr : Ring h head (x :: xs)) : Ring (list_del h x) head xs :=
  @ring_del h head x [] xs hr

theorem ring_del_last {h : Heap} {head x : Nat} {xs : List Nat}
    (hr : Ring h head (xs ++ [x])) : Ring (list_del h x) head xs := by
  have := @ring_del h head x xs [] hr
  rwa [List.append_nil] at this

theorem storeBytes_out : ∀ (bs : List Nat) (mem : Nat → Nat) (p a : Nat),
    a < p ∨ p + bs.length ≤ a → storeBytes mem p bs a = mem a
  | [], _, _, _, _ => rfl
  | b :: bs, mem, p, a, ha => by
    rw [storeBytes, storeBytes_out bs _ (p + 1) a
      (by simp only [List.length_cons] at ha; omega)]
    exact upd_other _ _ _ _ (by simp only [List.length_cons] at ha; omega)

theorem storeBytes_in : ∀ (bs : List Nat) (mem : Nat → Nat) (p i : Nat),
    i < bs.length → storeBytes mem p bs (p + i) = bs.getD i 0
  | [], _, _, _, hi => absurd hi (Nat.not_lt_zero _)
  | b :: bs, mem, p, 0, _ => by
    rw [storeBytes, storeBytes_out bs _ (p + 1) (p + 0) (Or.inl (by omega))]
    simpa using upd_same mem p b
  | b :: bs, mem, p, i + 1, hi => by
    rw [storeBytes, show p + (i + 1) = p + 1 + i by omega,
      storeBytes_in bs _ (p + 1) i (by simpa using hi)]
    simp

theorem strncpy_length (src : List Nat) (n : Nat) : (strncpy src n).length = n := by
  simp only [strncpy, strlen, List.length_append, List.length_take, List.length_replicate]
  omega

theorem takeWhile_getD (p : Nat → Bool) : ∀ (l : List Nat) (i : Nat),
    i < (l.takeWhile p).length → (l.takeWhile p).getD i 0 = l.getD i 0 ∧ p (l.getD i 0) = true
  | [], _, hi => by simp at hi
  | a :: l, i, hi => by
    by_cases ha : p a = true
    · rw [List.takeWhile_cons_of_pos ha] at hi ⊢
      cases i with
      | zero => simpa using ha
      | succ i =>
        have := takeWhile_getD p l i (by simpa using hi)
        simpa using this
    · rw [List.takeWhile_cons_of_neg ha] at hi
      simp at hi

theorem strncpy_getD_lt (src : List Nat) (n i : Nat) (hi : i < n) (hs : i < strlen src) :
    (strncpy src n).getD i 0 = src.getD i 0 ∧ src.getD i 0 ≠ 0 := by
  have h1 := takeWhile_getD (fun b => b != 0) src i hs
  have hlt : i < ((src.takeWhile (fun b => b != 0)).take n).length := by
    rw [List.length_take]; exact lt_min hi hs
  refine ⟨?_, by simpa using h1.2⟩
  rw [strncpy, List.getD_append _ _ _ _ hlt, ← h1.1, List.getD_eq_getElem _ _ hlt,
    List.getD_eq_getElem _ _ hs, List.getElem_take]

theorem strncpy_getD_ge (src : List Nat) (n i : Nat) (hs : strlen src ≤ i) :
    (strncpy src n).getD i 0 = 0 := by
  have hle : ((src.takeWhile (fun b => b != 0)).take n).length ≤ i := by
    rw [List.length_take]; exact le_trans (min_le_right _ _) hs
  rw [strncpy, List.getD_append_right _ _ _ _ hle]
  by_cases hlt : i - ((src.takeWhile (fun b => b != 0)).take n).length <
      (List.replicate (n - strlen src) 0).length
  · rw [List.getD_eq_getElem _ _ hlt]; simp
  · rw [List.getD_eq_default _ _ (by omega)]

/-- What the copy of `q_remove_head` and `q_remove_tail` leaves in the byte memory when
`bufsize > 0`. -/
theorem copy_out (mem : Nat → Nat) (v : List Nat) (sp bufsize : Nat) (hb : 0 < bufsize) :
    (∀ i, i < min (strlen v) (bufsize - 1) →
      upd (storeBytes mem sp (strncpy v (bufsize - 1))) (sp + bufsize - 1) 0 (sp + i) =
        v.getD i 0 ∧ v.getD i 0 ≠ 0) ∧
    upd (storeBytes mem sp (strncpy v (bufsize - 1))) (sp + bufsize - 1) 0
      (sp + min (strlen v) (bufsize - 1)) = 0 ∧
    (∀ a, a < sp ∨ sp + bufsize ≤ a →
      upd (storeBytes mem sp (strncpy v (bufsize - 1))) (sp + bufsize - 1) 0 a = mem a) := by
  refine ⟨?_, ?_, ?_⟩
  · intro i hi
    have hi1 : i < bufsize - 1 := lt_of_lt_of_le hi (min_le_right _ _)
    have hi2 : i < strlen v := lt_of_lt_of_le hi (min_le_left _ _)
    rw [upd_other _ _ _ _ (by omega),
      storeBytes_in _ _ _ _ (by rw [strncpy_length]; exact hi1)]
    exact strncpy_getD_lt v (bufsize - 1) i hi1 hi2
  · by_cases hm : strlen v < bufsize - 1
    · rw [min_eq_left (le_of_lt hm), upd_other _ _ _ _ (by omega),
        storeBytes_in _ _ _ _ (by rw [strncpy_length]; exact hm)]
      exact strncpy_getD_ge v (bufsize - 1) (strlen v) (le_refl _)
    · rw [min_eq_right (by omega), show sp + (bufsize - 1) = sp + bufsize - 1 by omega]
      exact upd_same _ _ _
  · intro a ha
    rw [upd_other _ _ _ _ (by omega)]
    exact storeBytes_out _ _ _ _ (by rw [strncpy_length]; omega)

theorem q_size_loop_spec {head : Nat} : ∀ (todo : List Nat) (fuel : Nat) (h : Heap)
    (li : Nat) (len : Int), Path h.next li todo head → head ∉ todo → todo.length < fuel →
    q_size_loop fuel h head li (toInt32 len) = some (toInt32 (len + todo.length))
  | _, 0, _, _, _, _, _, hf => absurd hf (Nat.not_lt_zero _)
  | [], fuel + 1, h, li, len, hp, _, _ => by
    have hl : li = head := hp
    simp [q_size_loop, hl]
  | x :: rest, fuel + 1, h, li, len, hp, hh, hf => by
    obtain ⟨hlx, hp2⟩ := hp
    subst hlx
    have hne : li ≠ head := fun e => hh (by simp [e])
    rw [q_size_loop, if_pos hne, toInt32_succ,
      q_size_loop_spec rest fuel h (h.next li) (len + 1) hp2
        (fun e => hh (List.mem_cons_of_mem _ e)) (by simpa using hf)]
    simp only [List.length_cons, Nat.cast_add, Nat.cast_one]
    congr 2
    omega

/-- `q_size` of a well-formed queue is the number of its elements, converted to `int`. -/
theorem q_size_wrap {fuel : Nat} {h : Heap} {head : Nat} {xs : List Nat}
    (hr : Ring h head xs) (hf : xs.length < fuel) :
    q_size fuel h head = some (toInt32 (xs.length : Int)) := by
  have h0 : toInt32 0 = 0 := by decide
  have := q_size_loop_spec xs fuel h (h.next head) 0 hr.2.2.1 (List.nodup_cons.1 hr.1).1 hf
  rw [h0, Int.zero_add] at this
  rw [q_size, if_neg hr.head_ne_zero, this]

/-- `q_size` of a well-formed queue of fewer than `2^31` elements is the number of its
elements. -/
theorem q_size_spec {fuel : Nat} {h : Heap} {head : Nat} {xs : List Nat}
    (hr : Ring h head xs) (hf : xs.length < fuel) (hb : xs.length < 2147483648) :
    q_size fuel h head = some (xs.length : Int) := by
  rw [q_size_wrap hr hf, toInt32_small _ hb]

theorem drain_empty {h : Heap} {head : Nat} (hr : Ring h head []) (sp bufsize : Nat) :
    ∀ (k : Nat) (mem : Nat → Nat), drain head sp bufsize k h mem = List.replicate k 0
  | 0, _ => rfl
  | k + 1, mem => by
    have he := q_remove_head_none h mem head sp bufsize (Or.inr (hr.list_empty_iff.2 rfl))
    rw [drain, he, drain_empty hr sp bufsize k mem]
    rfl

/-- Repeated `q_remove_head` returns the elements of the queue in order, and `NULL` from
then on. -/
theorem drain_spec {head : Nat} (sp bufsize k : Nat) : ∀ (xs : List Nat) (h : Heap)
    (mem : Nat → Nat), Ring h head xs →
    drain head sp bufsize (xs.length + k) h mem = xs ++ List.replicate k 0
  | [], h, mem, hr => by
    rw [List.length_nil, Nat.zero_add, List.nil_append]
    exact drain_empty hr sp bufsize k mem
  | x :: xs, h, mem, hr => by
    have he := q_remove_head_eq hr mem sp bufsize
    rw [show (x :: xs).length + k = (xs.length + k) + 1 by simp only [List.length_cons]; omega,
      drain, he]
    simp only [List.cons_append, List.cons.injEq, true_and]
    exact drain_spec sp bufsize k xs _ _ (ring_del_head hr)

theorem insert_tail_all_spec {head : Nat} : ∀ (ss : List (List Nat)) (ps : List Nat)
    (h : Heap) (xs : List Nat), Ring h head xs → ss.length = ps.length →
    (head :: (xs ++ ps)).Nodup → 0 ∉ ps →
    Ring (insert_tail_all head h ss ps) head (xs ++ ps) ∧
      ps.map (insert_tail_all head h ss ps).value =
        ss.map (fun s => strncpy s (toSize (toInt32 (strlen s)))) ∧
      (∀ a, a ∉ ps → (insert_tail_all head h ss ps).value a = h.value a) ∧
      (insert_tail_all head h ss ps).released = h.released
  | [], [], h, xs, hr, _, _, _ => by
    refine ⟨by simpa [insert_tail_all] using hr, rfl, fun _ _ => rfl, rfl⟩
  | [], _ :: _, _, _, _, hl, _, _ => by simp at hl
  | _ :: _, [], _, _, _, hl, _, _ => by simp at hl
  | s :: ss, p :: ps, h, xs, hr, hl, hnd, h0 => by
    have hperm : List.Perm (head :: (xs ++ p :: ps)) (p :: head :: (xs ++ ps)) :=
      (List.Perm.cons _ List.perm_middle).trans (List.Perm.swap _ _ _)
    have hnd1 := hperm.nodup_iff.1 hnd
    have hp : p ∉ head :: xs := fun hm => (List.nodup_cons.1 hnd1).1 (by
      simp only [List.mem_cons, List.mem_append] at hm ⊢; tauto)
    have hpps : p ∉ ps := fun hm => (List.nodup_cons.1 hnd1).1 (by
      simp only [List.mem_cons, List.mem_append]; tauto)
    have hp0 : p ≠ 0 := fun e => h0 (by simp [e])
    obtain ⟨_, hr1, hv1, hrel1⟩ := q_insert_tail_ok hr s p 1 hp hp0 (by decide)
    have hnd2 : (head :: ((xs ++ [p]) ++ ps)).Nodup := by simpa using hnd
    obtain ⟨hr2, hm2, hf2, hrel2⟩ := insert_tail_all_spec ss ps _ (xs ++ [p]) hr1
      (by simpa using hl) hnd2 (fun e => h0 (List.mem_cons_of_mem _ e))
    refine ⟨by simpa [insert_tail_all] using hr2, ?_, ?_, ?_⟩
    · rw [insert_tail_all, List.map_cons, List.map_cons, hm2, hf2 p hpps, hv1, upd_same]
    · intro a ha
      have hap : a ≠ p := fun e => ha (by simp [e])
      rw [insert_tail_all, hf2 a (fun e => ha (List.mem_cons_of_mem _ e)), hv1]
      exact upd_other _ _ _ _ hap
    · rw [insert_tail_all, hrel2, hrel1]

theorem insert_head_all_spec {head : Nat} : ∀ (ss : List (List Nat)) (ps : List Nat)
    (h : Heap) (xs : List Nat), Ring h head xs → ss.length = ps.length →
    (head :: (xs ++ ps)).Nodup → 0 ∉ ps →
    Ring (insert_head_all head h ss ps) head (ps.reverse ++ xs) ∧
      ps.map (insert_head_all head h ss ps).value =
        ss.map (fun s => strncpy s (toSize (toInt32 (strlen s)))) ∧
      (∀ a, a ∉ ps → (insert_head_all head h ss ps).value a = h.value a) ∧
      (insert_head_all head h ss ps).released = h.released
  | [], [], h, xs, hr, _, _, _ => by
    refine ⟨by simpa [insert_head_all] using hr, rfl, fun _ _ => rfl, rfl⟩
  | [], _ :: _, _, _, _, hl, _, _ => by simp at hl
  | _ :: _, [], _, _, _, hl, _, _ => by simp at hl
  | s :: ss, p :: ps, h, xs, hr, hl, hnd, h0 => by
    have hperm : List.Perm (head :: (xs ++ p :: ps)) (p :: head :: (xs ++ ps)) :=
      (List.Perm.cons _ List.perm_middle).trans (List.Perm.swap _ _ _)
    have hnd1 := hperm.nodup_iff.1 hnd
    have hp : p ∉ head :: xs := fun hm => (List.nodup_cons.1 hnd1).1 (by
      simp only [List.mem_cons, List.mem_append] at hm ⊢; tauto)
    have hpps : p ∉ ps := fun hm => (List.nodup_cons.1 hnd1).1 (by
      simp only [List.mem_cons, List.mem_append]; tauto)
    have hp0 : p ≠ 0 := fun e => h0 (by simp [e])
    obtain ⟨_, hr1, hv1, hrel1⟩ := q_insert_head_ok hr s p 1 hp hp0 (by decide)
    have hnd2 : (head :: ((p :: xs) ++ ps)).Nodup := by
      have hperm2 : List.Perm (head :: ((p :: xs) ++ ps)) (head :: (xs ++ p :: ps)) :=
        List.Perm.cons _ List.perm_middle.symm
      exact hperm2.nodup_iff.2 hnd
    obtain ⟨hr2, hm2, hf2, hrel2⟩ := insert_head_all_spec ss ps _ (p :: xs) hr1
      (by simpa using hl) hnd2 (fun e => h0 (List.mem_cons_of_mem _ e))
    refine ⟨by simpa [insert_head_all] using hr2, ?_, ?_, ?_⟩
    · rw [insert_head_all, List.map_cons, List.map_cons, hm2, hf2 p hpps, hv1, upd_same]
    · intro a ha
      have hap : a ≠ p := fun e => ha (by simp [e])
      rw [insert_head_all, hf2 a (fun e => ha (List.mem_cons_of_mem _ e)), hv1]
      exact upd_other _ _ _ _ hap
    · rw [insert_head_all, hrel2, hrel1]

/-- Along every run of calls from a well-formed queue, with `malloc` returning addresses
that are not in use by the queue, the queue stays well-formed and its length is the number
of successful insertions less the number of successful removals. -/
theorem runCalls_spec {head : Nat} : ∀ (cs : List Call) (t : Trace) (xs : List Nat),
    Ring t.heap head xs → xs.length + t.removed = t.inserted →
    freshCalls head xs cs = true →
    ∃ ys, Ring (runCalls head t cs).heap head ys ∧
      ys.length + (runCalls head t cs).removed = (runCalls head t cs).inserted
  | [], t, xs, hr, hlen, _ => ⟨xs, hr, hlen⟩
  | Call.insert_head s p pv :: cs, t, xs, hr, hlen, hfr => by
    show ∃ ys, Ring (runCalls head (stepCall head t (Call.insert_head s p pv)) cs).heap head ys ∧ _
    rw [freshCalls, Bool.and_eq_true, decide_eq_true_eq] at hfr
    obtain ⟨hfp, hfr⟩ := hfr
    by_cases hok : p ≠ 0 ∧ pv ≠ 0
    · rw [queueAfter, if_pos hok] at hfr
      have hp : p ∉ head :: xs := hfp.resolve_left hok.1
      obtain ⟨hb, hr1, _, _⟩ := q_insert_head_ok hr s p pv hp hok.1 hok.2
      refine runCalls_spec cs _ (p :: xs) hr1 ?_ hfr
      show (p :: xs).length + t.removed =
        if (q_insert_head t.heap head s p pv).2 = true then t.inserted + 1 else t.inserted
      rw [if_pos hb, List.length_cons]; omega
    · rw [queueAfter, if_neg hok] at hfr
      have hf : q_insert_head t.heap head s p pv = (t.heap, false) :=
        q_insert_head_fail _ _ _ _ _ (Or.inr (by
          by_cases hp : p = 0
          · exact Or.inl hp
          · exact Or.inr (by_contra fun hv => hok ⟨hp, hv⟩)))
      refine runCalls_spec cs _ xs ?_ ?_ hfr
      · show Ring (q_insert_head t.heap head s p pv).1 head xs
        rw [hf]; exact hr
      · show xs.length + t.removed =
          if (q_insert_head t.heap head s p pv).2 = true then t.inserted + 1 else t.inserted
        rw [hf]; simpa using hlen
  | Call.insert_tail s p pv :: cs, t, xs, hr, hlen, hfr => by
    show ∃ ys, Ring (runCalls head (stepCall head t (Call.insert_tail s p pv)) cs).heap head ys ∧ _
    rw [freshCalls, Bool.and_eq_true, decide_eq_true_eq] at hfr
    obtain ⟨hfp, hfr⟩ := hfr
    by_cases hok : p ≠ 0 ∧ pv ≠ 0
    · rw [queueAfter, if_pos hok] at hfr
      have hp : p ∉ head :: xs := hfp.resolve_left hok.1
      obtain ⟨hb, hr1, _, _⟩ := q_insert_tail_ok hr s p pv hp hok.1 hok.2
      refine runCalls_spec cs _ (xs ++ [p]) hr1 ?_ hfr
      show (xs ++ [p]).length + t.removed =
        if (q_insert_tail t.heap head s p pv).2 = true then t.inserted + 1 else t.inserted
      rw [if_pos hb, List.length_append, List.length_singleton]; omega
    · rw [queueAfter, if_neg hok] at hfr
      have hf : q_insert_tail t.heap head s p pv = (t.heap, false) :=
        q_insert_tail_fail _ _ _ _ _ (Or.inr (by
          by_cases hp : p = 0
          · exact Or.inl hp
          · exact Or.inr (by_contra fun hv => hok ⟨hp, hv⟩)))
      refine runCalls_spec cs _ xs ?_ ?_ hfr
      · show Ring (q_insert_tail t.heap head s p pv).1 head xs
        rw [hf]; exact hr
      · show xs.length + t.removed =
          if (q_insert_tail t.heap head s p pv).2 = true then t.inserted + 1 else t.inserted
        rw [hf]; simpa using hlen
  | Call.remove_head sp bufsize :: cs, t, xs, hr, hlen, hfr => by
    show ∃ ys, Ring (runCalls head (stepCall head t (Call.remove_head sp bufsize)) cs).heap
      head ys ∧ _
    rw [freshCalls, queueAfter] at hfr
    cases xs with
    | nil =>
      have he := q_remove_head_none t.heap t.mem head sp bufsize
        (Or.inr (hr.list_empty_iff.2 rfl))
      refine runCalls_spec cs _ [] ?_ ?_ hfr
      · show Ring (q_remove_head t.heap t.mem head sp bufsize).1 head []
        rw [he]; exact hr
      · show ([] : List Nat).length + (if (q_remove_head t.heap t.mem head sp bufsize).2.2 ≠ 0
          then t.removed + 1 else t.removed) = t.inserted
        rw [he]; simpa using hlen
    | cons x rest =>
      have he := q_remove_head_eq hr t.mem sp bufsize
      have hx0 : x ≠ 0 := hr.mem_ne_zero (List.mem_cons_self _ _)
      refine runCalls_spec cs _ rest ?_ ?_ hfr
      · show Ring (q_remove_head t.heap t.mem head sp bufsize).1 head rest
        rw [he]; exact ring_del_head hr
      · show rest.length + (if (q_remove_head t.heap t.mem head sp bufsize).2.2 ≠ 0
          then t.removed + 1 else t.removed) = t.inserted
        rw [he]
        simp only [ne_eq, hx0, not_false_eq_true, if_true]
        simp only [List.length_cons] at hlen; omega
  | Call.remove_tail sp bufsize :: cs, t, xs, hr, hlen, hfr => by
    show ∃ ys, Ring (runCalls head (stepCall head t (Call.remove_tail sp bufsize)) cs).heap
      head ys ∧ _
    rw [freshCalls, queueAfter] at hfr
    rcases nil_or_snoc xs with rfl | ⟨rest, x, rfl⟩
    · have he := q_remove_tail_none t.heap t.mem head sp bufsize
        (Or.inr (hr.list_empty_iff.2 rfl))
      refine runCalls_spec cs _ [] ?_ ?_ hfr
      · show Ring (q_remove_tail t.heap t.mem head sp bufsize).1 head []
        rw [he]; exact hr
      · show ([] : List Nat).length + (if (q_remove_tail t.heap t.mem head sp bufsize).2.2 ≠ 0
          then t.removed + 1 else t.removed) = t.inserted
        rw [he]; simpa using hlen
    · rw [List.dropLast_concat] at hfr
      have he := q_remove_tail_eq hr t.mem sp bufsize
      have hx0 : x ≠ 0 := hr.mem_ne_zero (by simp)
      refine runCalls_spec cs _ rest ?_ ?_ hfr
      · show Ring (q_remove_tail t.heap t.mem head sp bufsize).1 head rest
        rw [he]; exact ring_del_last hr
      · show rest.length + (if (q_remove_tail t.heap t.mem head sp bufsize).2.2 ≠ 0
          then t.removed + 1 else t.removed) = t.inserted
        rw [he]
        simp only [ne_eq, hx0, not_false_eq_true, if_true]
        simp only [List.length_append, List.length_singleton] at hlen; omega

/-! ## `q_reverse` twice, `q_sort` twice -/

/-- `q_reverse` changes no link outside the queue. -/
theorem q_reverse_frame {fuel : Nat} {h h' : Heap} {head : Nat} {xs : List Nat}
    (hr : Ring h head xs) (hf : xs.length + 1 < fuel) (hrun : q_reverse fuel h head = some h') :
    ∀ a, a ∉ head :: xs → h'.next a = h.next a ∧ h'.prev a = h.prev a := by
  by_cases hn : xs.length ≤ 1
  · have hsame : q_reverse fuel h head = some h := by
      rw [q_reverse]
      by_cases he : xs = []
      · have := hr.list_empty_iff.2 he
        simp [this]
      · have h1 : xs.length = 1 := by
          cases xs with
          | nil => exact absurd rfl he
          | cons x r => simp only [List.length_cons] at hn ⊢; omega
        have := hr.singular_iff.2 h1
        simp [this]
    rw [hsame] at hrun
    have e : h = h' := Option.some.inj hrun
    subst e
    exact fun _ _ => ⟨rfl, rfl⟩
  · have hg : ¬ (head = 0 ∨ list_is_singular h head = true ∨ list_empty h head = true) := by
      rintro (e | e | e)
      · exact hr.head_ne_zero e
      · have := hr.singular_iff.1 e; omega
      · have := hr.list_empty_iff.1 e; subst this; simp at hn
    obtain ⟨fuel, rfl⟩ : ∃ f, fuel = f + 1 := ⟨fuel - 1, by omega⟩
    have hhx : head ∉ xs := (List.nodup_cons.1 hr.1).1
    have hp1 : Path ((h.setNext head (h.prev head)).setPrev head (h.next head)).next
        (h.next head) xs head := by
      refine path_congr (fun y hy => ?_) hr.2.2.1
      exact (upd_other _ _ _ _ (ne_of_mem_of_not_mem hy hhx)).symm
    obtain ⟨h2, hrun2, hframe, _, _, _, _⟩ := q_reverse_loop_spec xs fuel
      ((h.setNext head (h.prev head)).setPrev head (h.next head)) (h.next head) head hp1 hr.1
      (by omega)
    rw [q_reverse, if_neg hg, q_reverse_loop, if_pos (Ne.symm hr.head_ne_zero)] at hrun
    have e : h2 = h' := Option.some.inj (hrun2.symm.trans hrun)
    subst e
    intro a ha
    have hah : a ≠ head := fun e => ha (by simp [e])
    have hax : a ∉ xs := fun e => ha (List.mem_cons_of_mem _ e)
    obtain ⟨e1, e2⟩ := hframe a hax
    exact ⟨e1.trans (upd_other _ _ _ _ hah), e2.trans (upd_other _ _ _ _ hah)⟩

/-- The links of the nodes of a well-formed queue are determined by its elements. -/
theorem ring_links_unique {h h' : Heap} {head : Nat} {xs : List Nat}
    (hr : Ring h head xs) (hr' : Ring h' head xs) :
    ∀ a, a ∈ head :: xs → h'.next a = h.next a ∧ h'.prev a = h.prev a := by
  intro a ha
  rcases List.mem_cons.1 ha with rfl | ha
  · exact ⟨by rw [hr.next_head, hr'.next_head], by rw [hr.prev_head, hr'.prev_head]⟩
  · obtain ⟨pre, post, rfl⟩ := List.append_of_mem ha
    exact ⟨by rw [hr.next_mid, hr'.next_mid], by rw [hr.prev_mid, hr'.prev_mid]⟩

/-! ## `q_delete_dup` on any queue -/

theorem dropRuns_sublist (v : Nat → List Nat) : ∀ (l : List Nat) (p : Option Nat),
    List.Sublist (dropRuns v p l) l
  | [], _ => List.Sublist.slnil
  | c :: rest, p => by
    rw [dropRuns]
    split
    · exact List.Sublist.cons _ (dropRuns_sublist v rest (some c))
    · exact List.Sublist.cons₂ _ (dropRuns_sublist v rest (some c))

theorem getLast?_cons_or (a : Nat) : ∀ (l : List Nat),
    (a :: l).getLast? = l.getLast?.or (some a)
  | [] => rfl
  | b :: l => by
    rw [List.getLast?_cons_cons, getLast?_cons_or b l]
    cases l.getLast? <;> rfl

/-- An element of a sequence without repetition is kept by `dropRuns` exactly when its
string equals neither that of the element before it nor that of the element after it. -/
theorem dropRuns_mem_iff (v : Nat → List Nat) : ∀ (pre : List Nat) (p : Option Nat)
    (x : Nat) (post : List Nat), (pre ++ x :: post).Nodup →
    (x ∈ dropRuns v p (pre ++ x :: post) ↔
      (pre.getLast?.or p).any (fun q => sameStr v q x) = false ∧
        post.head?.any (fun y => sameStr v x y) = false)
  | [], p, x, post, hnd => by
    have hx : x ∉ dropRuns v (some x) post := fun hm =>
      (List.nodup_cons.1 hnd).1 ((dropRuns_sublist v post (some x)).subset hm)
    rw [List.nil_append, dropRuns]
    simp only [List.getLast?_nil, Option.none_or]
    by_cases hc : (p.any (fun q => sameStr v q x) || post.head?.any (fun y => sameStr v x y))
        = true
    · rw [if_pos hc]
      constructor
      · intro hm; exact absurd hm hx
      · rintro ⟨h1, h2⟩
        rw [h1, h2] at hc
        exact absurd hc (by decide)
    · rw [if_neg hc]
      rw [Bool.or_eq_true, not_or, Bool.not_eq_true, Bool.not_eq_true] at hc
      exact ⟨fun _ => hc, fun _ => List.mem_cons_self _ _⟩
  | a :: pre, p, x, post, hnd => by
    have hxa : x ≠ a := by
      intro e
      exact (List.nodup_cons.1 hnd).1 (by simp [e])
    have ih := dropRuns_mem_iff v pre (some a) x post (List.nodup_cons.1 hnd).2
    rw [List.cons_append, dropRuns, getLast?_cons_or]
    have hor : (pre.getLast?.or (some a)).or p = pre.getLast?.or (some a) := by
      cases pre.getLast? <;> rfl
    rw [hor]
    split
    · exact ih
    · rw [List.mem_cons]
      constructor
      · rintro (e | hm)
        · exact absurd e hxa
        · exact ih.1 hm
      · intro hh
        exact Or.inr (ih.2 hh)

/-! ## Strings and queues beyond the range of `int` -/

theorem takeWhile_replicate_ne (b : Nat) (hb : b ≠ 0) : ∀ (n : Nat),
    (List.replicate n b).takeWhile (fun c => c != 0) = List.replicate n b
  | 0 => rfl
  | n + 1 => by
    rw [List.replicate_succ, List.takeWhile_cons_of_pos (by simpa using hb),
      takeWhile_replicate_ne b hb n]

theorem strlen_replicate (n b : Nat) (hb : b ≠ 0) : strlen (List.replicate n b) = n := by
  rw [strlen, takeWhile_replicate_ne b hb n, List.length_replicate]

theorem strncpy_replicate (n b m : Nat) (hb : b ≠ 0) (hm : m ≤ n) :
    strncpy (List.replicate n b) m = List.replicate m b := by
  rw [strncpy, strlen_replicate n b hb, takeWhile_replicate_ne b hb n, List.take_replicate,
    Nat.min_eq_left hm, Nat.sub_eq_zero_of_le hm]
  exact List.append_nil _

/-- What `new_ele` stores for a string of `n` bytes `b` when the `int` conversion of `n`
is `m`: the first `m` bytes. -/
theorem stored_replicate (n b m : Nat) (hb : b ≠ 0) (hm : m ≤ n)
    (hc : toSize (toInt32 (n : Int)) = m) :
    strncpy (List.replicate n b) (toSize (toInt32 (strlen (List.replicate n b)))) =
      List.replicate m b := by
  rw [strlen_replicate n b hb, hc, strncpy_replicate n b m hb hm]

theorem q_remove_head_value (h : Heap) (mem : Nat → Nat) (head sp bufsize : Nat) :
    (q_remove_head h mem head sp bufsize).1.value = h.value := by
  rw [q_remove_head]
  split
  · rfl
  · dsimp only
    split <;> rfl

theorem drainHeap_value (head sp bufsize : Nat) : ∀ (n : Nat) (h : Heap) (mem : Nat → Nat),
    (drainHeap head sp bufsize n h mem).value = h.value
  | 0, _, _ => rfl
  | n + 1, h, mem => by
    rw [drainHeap, drainHeap_value head sp bufsize n, q_remove_head_value]

theorem q_new_ring (h : Heap) (p : Nat) (hp : p ≠ 0) : Ring (q_new h p).1 p [] := by
  rw [q_new, if_neg hp]
  refine ⟨by simp, by simpa using hp.symm, ?_, ?_⟩
  · show upd h.next p p p = p
    exact upd_same _ _ _
  · show upd h.prev p p p = p
    exact upd_same _ _ _

/-- C1: on every well-formed queue `q_sort` returns, the result is a well-formed queue whose
forward traversal `ys` is a permutation of the elements `xs` that were in the queue, no
string is changed, and `ys` is in ascending order: `strcmp` of the strings of any element
and a later one, in particular of an element and the one after it, is `<= 0`. -/
theorem q_sort_sorted_permutation (fuel : Nat) (h : Heap) (head : Nat) (xs : List Nat)
    (hr : Ring h head xs) (hf : xs.length + 2 < fuel) :
    ∃ h' ys, q_sort fuel h head = some h' ∧ Ring h' head ys ∧ ys.Perm xs ∧
      h'.value = h.value ∧ h'.released = h.released ∧
      ys.Pairwise (fun a b => strcmp (h'.value a) (h'.value b) ≤ 0) ∧
      ys.Chain' (fun a b => strcmp (h'.value a) (h'.value b) ≤ 0) := by
  obtain ⟨h', hrun, hring, hv, hrel⟩ := q_sort_spec hr hf
  have hsorted : (xs.mergeSort (strLE h.value)).Pairwise
      (fun a b => strLE h.value a b = true) :=
    List.sorted_mergeSort (strLE_trans h.value) (strLE_total h.value) xs
  have hp : (xs.mergeSort (strLE h.value)).Pairwise
      (fun a b => strcmp (h'.value a) (h'.value b) ≤ 0) := by
    rw [hv]
    exact hsorted.imp (by intro a b hab; simpa [strLE] using hab)
  exact ⟨h', _, hrun, hring, List.mergeSort_perm _ _, hv, hrel, hp, hp.chain'⟩

/-- C1, on the queue "b", "a", "a". -/
theorem q_sort_sorted_permutation_witness :
    Ring (ringHeap 3 10 tagStr) 10 [1, 2, 3] ∧
      ∃ h' ys, q_sort 6 (ringHeap 3 10 tagStr) 10 = some h' ∧ Ring h' 10 ys ∧
        ys.Perm [1, 2, 3] ∧ h'.value = tagStr ∧ h'.released = [] ∧
        ys.Pairwise (fun a b => strcmp (h'.value a) (h'.value b) ≤ 0) ∧
        ys.Chain' (fun a b => strcmp (h'.value a) (h'.value b) ≤ 0) :=
  ⟨by decide, q_sort_sorted_permutation 6 (ringHeap 3 10 tagStr) 10 [1, 2, 3] (by decide)
    (by decide)⟩

/-- C2: `q_sort` is stable: on every well-formed queue, two elements `x`, `y` whose strings
compare equal and with `x` before `y` in the queue are in this order after `q_sort`. -/
theorem q_sort_stable (fuel : Nat) (h : Heap) (head : Nat) (xs : List Nat)
    (hr : Ring h head xs) (hf : xs.length + 2 < fuel) :
    ∃ h' ys, q_sort fuel h head = some h' ∧ Ring h' head ys ∧ h'.value = h.value ∧
      ∀ x y, strcmp (h.value x) (h.value y) = 0 →
        List.Sublist [x, y] xs → List.Sublist [x, y] ys := by
  obtain ⟨h', hrun, hring, hv, _⟩ := q_sort_spec hr hf
  refine ⟨h', _, hrun, hring, hv, ?_⟩
  intro x y hxy hsub
  exact List.pair_sublist_mergeSort (strLE_trans h.value) (strLE_total h.value)
    (by simp [strLE, hxy]) hsub

/-- C2, on the queue "b", "a", "a": the two equal strings, at the addresses 2 and 3, keep
their order and the sorted queue is 2, 3, 1. -/
theorem q_sort_stable_witness :
    Ring (ringHeap 3 10 tagStr) 10 [1, 2, 3] ∧
      (∃ h' ys, q_sort 6 (ringHeap 3 10 tagStr) 10 = some h' ∧ Ring h' 10 ys ∧
        h'.value = tagStr ∧
        ∀ x y, strcmp (tagStr x) (tagStr y) = 0 →
          List.Sublist [x, y] [1, 2, 3] → List.Sublist [x, y] ys) ∧
      ∃ h', q_sort 6 (ringHeap 3 10 tagStr) 10 = some h' ∧ Ring h' 10 [2, 3, 1] :=
  ⟨by decide, q_sort_stable 6 (ringHeap 3 10 tagStr) 10 [1, 2, 3] (by decide) (by decide),
    _, rfl, by decide⟩

/-- C3: on every non-empty well-formed queue whose strings are in ascending order
`q_delete_dup` returns `true` and leaves, in their original order, exactly the elements
whose string occurs exactly once in the queue. -/
theorem q_delete_dup_sorted_keeps_unique (fuel : Nat) (h : Heap) (head : Nat)
    (xs : List Nat) (hr : Ring h head xs) (hne : xs ≠ [])
    (hs : xs.Pairwise (fun a b => strcmp (h.value a) (h.value b) ≤ 0))
    (hf : xs.length < fuel) :
    ∃ h', q_delete_dup fuel h head = some (h', true) ∧
      Ring h' head (xs.filter (fun x => xs.countP (sameStr h.value x) == 1)) ∧
      h'.value = h.value := by
  obtain ⟨h', hrun, hring, hv⟩ := q_delete_dup_spec hr hne hf
  have hs' : ([] ++ xs).Pairwise (fun a b => strLE h.value a b = true) :=
    hs.imp (by intro a b hab; simpa [strLE] using hab)
  have := dropRuns_sorted h.value xs [] hs'
  rw [List.getLast?_nil, List.nil_append] at this
  rw [this] at hring
  exact ⟨h', hrun, hring, hv⟩

/-- C3, on the queue "a", "a", "b", "c", "c", "c", of which only "b" is left. -/
theorem q_delete_dup_sorted_keeps_unique_witness :
    Ring (ringHeap 6 10 dupStr) 10 [1, 2, 3, 4, 5, 6] ∧
      ∃ h', q_delete_dup 7 (ringHeap 6 10 dupStr) 10 = some (h', true) ∧
        Ring h' 10 [3] ∧ h'.value = dupStr :=
  ⟨by decide, q_delete_dup_sorted_keeps_unique 7 (ringHeap 6 10 dupStr) 10
    [1, 2, 3, 4, 5, 6] (by decide) (by decide) (by decide) (by decide)⟩

/-- C4: on every well-formed queue of `n >= 1` elements `q_delete_mid` returns `true`,
unlinks and releases exactly the element at index `n / 2` of the forward traversal and
leaves the other elements in their order, so that `n - 1` elements are left. -/
theorem q_delete_mid_removes_middle (fuel : Nat) (h : Heap) (head : Nat) (xs : List Nat)
    (hr : Ring h head xs) (hn : 1 ≤ xs.length) (hf : xs.length / 2 < fuel) :
    ∃ h', q_delete_mid fuel h head = some (h', true) ∧
      Ring h' head (xs.eraseIdx (xs.length / 2)) ∧
      (xs.eraseIdx (xs.length / 2)).length = xs.length - 1 ∧
      h'.value = h.value ∧ h'.released = h.released ++ [xs.getD (xs.length / 2) 0] := by
  obtain ⟨h', hrun, hring, hv, hrel⟩ := q_delete_mid_spec hr hn hf
  refine ⟨h', hrun, hring, ?_, hv, hrel⟩
  rw [List.length_eraseIdx]
  have : xs.length / 2 < xs.length := by omega
  simp [this]

/-- C4, on a queue of one element, which becomes empty. -/
theorem q_delete_mid_removes_middle_witness :
    Ring (ringHeap 1 10 digitStr) 10 [1] ∧
      ∃ h', q_delete_mid 1 (ringHeap 1 10 digitStr) 10 = some (h', true) ∧
        Ring h' 10 [] ∧ ([] : List Nat).length = 0 ∧
        h'.value = digitStr ∧ h'.released = [1] :=
  ⟨by decide, q_delete_mid_removes_middle 1 (ringHeap 1 10 digitStr) 10 [1] (by decide)
    (by decide) (by decide)⟩

/-- C5, as stated, fails: on the queue "1", .., "6" `q_delete_mid` leaves the element at
index 2 in the queue and removes the one at index 3. -/
theorem q_delete_mid_six_counterexample :
    Ring (ringHeap 6 10 digitStr) 10 [1, 2, 3, 4, 5, 6] ∧
      ∃ h', q_delete_mid 7 (ringHeap 6 10 digitStr) 10 = some (h', true) ∧
        Ring h' 10 [1, 2, 3, 5, 6] ∧ ¬ Ring h' 10 [1, 2, 4, 5, 6] ∧ h'.released = [4] :=
  ⟨by decide, _, rfl, by decide, by decide, rfl⟩

/-- C5, amended: on every well-formed queue of exactly 6 elements `q_delete_mid` removes
and releases the fourth element, the one at index 3, and leaves the other five in their
order. -/
theorem q_delete_mid_six (fuel : Nat) (h : Heap) (head a b c d e f : Nat)
    (hr : Ring h head [a, b, c, d, e, f]) (hf : 3 < fuel) :
    ∃ h', q_delete_mid fuel h head = some (h', true) ∧ Ring h' head [a, b, c, e, f] ∧
      h'.value = h.value ∧ h'.released = h.released ++ [d] := by
  obtain ⟨h', hrun, hring, hv, hrel⟩ := @q_delete_mid_spec fuel h head _ hr (by simp)
    (by simp only [List.length_cons, List.length_nil]; omega)
  have e0 : [a, b, c, d, e, f].length / 2 = 3 := by simp
  have e1 : [a, b, c, d, e, f].eraseIdx 3 = [a, b, c, e, f] := rfl
  have e2 : [a, b, c, d, e, f].getD 3 0 = d := rfl
  rw [e0] at hring hrel
  rw [e1] at hring
  rw [e2] at hrel
  exact ⟨h', hrun, hring, hv, hrel⟩

/-- C5 amended, on the queue "1", .., "6". -/
theorem q_delete_mid_six_witness :
    Ring (ringHeap 6 10 digitStr) 10 [1, 2, 3, 4, 5, 6] ∧
      ∃ h', q_delete_mid 4 (ringHeap 6 10 digitStr) 10 = some (h', true) ∧
        Ring h' 10 [1, 2, 3, 5, 6] ∧ h'.value = digitStr ∧ h'.released = [] ++ [4] :=
  ⟨by decide, q_delete_mid_six 4 (ringHeap 6 10 digitStr) 10 1 2 3 4 5 6 (by decide)
    (by decide)⟩

/-- C6: on every well-formed queue of `n` elements (`n = 0` and `n = 1` included) `q_swap`
returns and leaves a well-formed queue `r` of the same length with `r[2i] = q[2i+1]` and
`r[2i+1] = q[2i]` whenever `2i+1 < n`, and with the last element in place when `n` is
odd; no element is released and no string is changed. -/
theorem q_swap_exchanges_pairs (fuel : Nat) (h : Heap) (head : Nat) (xs : List Nat)
    (hr : Ring h head xs) (hf : xs.length / 2 < fuel) :
    ∃ h' r, q_swap fuel h head = some h' ∧ Ring h' head r ∧ r.length = xs.length ∧
      (∀ i, 2 * i + 1 < xs.length → r[2 * i]? = xs[2 * i + 1]? ∧ r[2 * i + 1]? = xs[2 * i]?) ∧
      (xs.length % 2 = 1 → r[xs.length - 1]? = xs[xs.length - 1]?) ∧
      h'.value = h.value ∧ h'.released = h.released := by
  obtain ⟨h', hrun, hring, hv, hrel⟩ := q_swap_spec hr hf
  exact ⟨h', swapPairs xs, hrun, hring, swapPairs_length xs, swapPairs_pair xs,
    swapPairs_odd_last xs, hv, hrel⟩

/-- C6, on the queue "1", .., "5", which becomes "2", "1", "4", "3", "5". -/
theorem q_swap_exchanges_pairs_witness :
    Ring (ringHeap 5 10 digitStr) 10 [1, 2, 3, 4, 5] ∧
      (∃ h' r, q_swap 3 (ringHeap 5 10 digitStr) 10 = some h' ∧ Ring h' 10 r ∧
        r.length = 5 ∧
        (∀ i, 2 * i + 1 < 5 → r[2 * i]? = [1, 2, 3, 4, 5][2 * i + 1]? ∧
          r[2 * i + 1]? = [1, 2, 3, 4, 5][2 * i]?) ∧
        (5 % 2 = 1 → r[5 - 1]? = [1, 2, 3, 4, 5][5 - 1]?) ∧
        h'.value = digitStr ∧ h'.released = []) ∧
      ∃ h', q_swap 3 (ringHeap 5 10 digitStr) 10 = some h' ∧ Ring h' 10 [2, 1, 4, 3, 5] :=
  ⟨by decide, q_swap_exchanges_pairs 3 (ringHeap 5 10 digitStr) 10 [1, 2, 3, 4, 5]
    (by decide) (by decide), _, rfl, by decide⟩

/-- C7: on every well-formed queue, of any length, `q_reverse` returns and leaves a
well-formed ring, in which the sentinel and every element satisfy `n.next.prev == n` and
`n.prev.next == n`, whose forward traversal is the reverse of the one before the call;
no element is released and no string is changed. -/
theorem q_reverse_reverses (fuel : Nat) (h : Heap) (head : Nat) (xs : List Nat)
    (hr : Ring h head xs) (hf : xs.length + 1 < fuel) :
    ∃ h', q_reverse fuel h head = some h' ∧ Ring h' head xs.reverse ∧
      (∀ n, n ∈ head :: xs → LinkOK h' n) ∧
      h'.value = h.value ∧ h'.released = h.released := by
  obtain ⟨h', hrun, hring, hv, hrel⟩ := q_reverse_spec hr hf
  refine ⟨h', hrun, hring, ?_, hv, hrel⟩
  intro n hn
  exact hring.linkOK n (by
    simp only [List.mem_cons, List.mem_reverse] at hn ⊢
    exact hn)

/-- C7, on the queue "1", .., "5". -/
theorem q_reverse_reverses_witness :
    Ring (ringHeap 5 10 digitStr) 10 [1, 2, 3, 4, 5] ∧
      ∃ h', q_reverse 7 (ringHeap 5 10 digitStr) 10 = some h' ∧
        Ring h' 10 [5, 4, 3, 2, 1] ∧
        (∀ n, n ∈ [10, 1, 2, 3, 4, 5] → LinkOK h' n) ∧
        h'.value = digitStr ∧ h'.released = [] :=
  ⟨by decide, q_reverse_reverses 7 (ringHeap 5 10 digitStr) 10 [1, 2, 3, 4, 5] (by decide)
    (by decide)⟩

/-- C8: `q_sort` preserves the linkage invariant: on every well-formed queue, in
particular one of at least 2 elements, `q_sort` returns and afterwards the sentinel and
every element `n` satisfy `n.next.prev == n` and `n.prev.next == n`, the forward
traversal `ys` (the elements of the queue, permuted) returns to the sentinel, and the
backward traversal visits `ys` in reverse and returns to the sentinel. -/
theorem q_sort_preserves_linkage (fuel : Nat) (h : Heap) (head : Nat) (xs : List Nat)
    (hr : Ring h head xs) (hf : xs.length + 2 < fuel) :
    ∃ h' ys, q_sort fuel h head = some h' ∧ ys.Perm xs ∧
      (∀ n, n ∈ head :: ys → LinkOK h' n) ∧
      Path h'.next (h'.next head) ys head ∧ Path h'.prev (h'.prev head) ys.reverse head := by
  obtain ⟨h', hrun, hring, _, _⟩ := q_sort_spec hr hf
  exact ⟨h', _, hrun, List.mergeSort_perm _ _, hring.linkOK, hring.2.2.1, hring.2.2.2⟩

/-- C8, on the queue "b", "a", "a". -/
theorem q_sort_preserves_linkage_witness :
    Ring (ringHeap 3 10 tagStr) 10 [1, 2, 3] ∧
      ∃ h' ys, q_sort 6 (ringHeap 3 10 tagStr) 10 = some h' ∧ ys.Perm [1, 2, 3] ∧
        (∀ n, n ∈ 10 :: ys → LinkOK h' n) ∧
        Path h'.next (h'.next 10) ys 10 ∧ Path h'.prev (h'.prev 10) ys.reverse 10 :=
  ⟨by decide, q_sort_preserves_linkage 6 (ringHeap 3 10 tagStr) 10 [1, 2, 3] (by decide)
    (by decide)⟩

/-- C9, the code at the empty queue: with any fuel `q_delete_mid` returns `true`, not
`false`, and hands the element computed from the sentinel to `q_release_element`; on the
absent queue it returns `false`. -/
theorem q_delete_mid_empty_returns_true (fuel : Nat) :
    Ring (ringHeap 0 10 digitStr) 10 [] ∧
      (∃ h', q_delete_mid (fuel + 1) (ringHeap 0 10 digitStr) 10 = some (h', true) ∧
        h'.released = [10]) ∧
      q_delete_mid fuel (ringHeap 0 10 digitStr) 0 = some (ringHeap 0 10 digitStr, false) :=
  ⟨by decide, ⟨_, rfl, rfl⟩, by simp [q_delete_mid]⟩

/-- C10, the code at the empty queue: `q_delete_dup` returns `false` on the empty queue,
which is not absent, and changes nothing. -/
theorem q_delete_dup_empty_returns_false :
    Ring (ringHeap 0 10 digitStr) 10 [] ∧
      q_delete_dup 1 (ringHeap 0 10 digitStr) 10 = some (ringHeap 0 10 digitStr, false) :=
  ⟨by decide, rfl⟩

/-- The value returned by `q_delete_dup`: `false` on the absent queue and on the empty
queue, which are left as they are, and `true` on every non-empty well-formed queue. -/
theorem q_delete_dup_return_value (fuel : Nat) (h : Heap) (head : Nat) (xs : List Nat)
    (hr : Ring h head xs) (hf : xs.length < fuel) :
    q_delete_dup fuel h 0 = some (h, false) ∧
      (xs = [] → q_delete_dup fuel h head = some (h, false)) ∧
      (xs ≠ [] → ∃ h', q_delete_dup fuel h head = some (h', true)) := by
  refine ⟨by simp [q_delete_dup], ?_, ?_⟩
  · intro he
    have := hr.list_empty_iff.2 he
    simp [q_delete_dup, this]
  · intro hne
    obtain ⟨h', hrun, _, _⟩ := q_delete_dup_spec hr hne hf
    exact ⟨h', hrun⟩

/-- C11, the code on a string of `2^32 + 5` bytes "a": from a new queue `q_insert_tail`
(resp. `q_insert_head`) of the string returns `true`, the next two calls of
`q_remove_head` return the element and `NULL`, and the string of the element returned is
"aaaaa", the first 5 bytes, not the string inserted: `int str_size` is `5`. -/
theorem insert_drain_long_string :
    strlen (List.replicate 4294967301 97) = 4294967301 ∧
      ((q_insert_tail (q_new blankHeap 10).1 10 (List.replicate 4294967301 97) 1 1).2 = true ∧
        drain 10 0 0 2
          (q_insert_tail (q_new blankHeap 10).1 10 (List.replicate 4294967301 97) 1 1).1
          noBytes = [1, 0] ∧
        (drainHeap 10 0 0 2
          (q_insert_tail (q_new blankHeap 10).1 10 (List.replicate 4294967301 97) 1 1).1
          noBytes).value 1 = [97, 97, 97, 97, 97]) ∧
      ((q_insert_head (q_new blankHeap 10).1 10 (List.replicate 4294967301 97) 1 1).2 = true ∧
        drain 10 0 0 2
          (q_insert_head (q_new blankHeap 10).1 10 (List.replicate 4294967301 97) 1 1).1
          noBytes = [1, 0] ∧
        (drainHeap 10 0 0 2
          (q_insert_head (q_new blankHeap 10).1 10 (List.replicate 4294967301 97) 1 1).1
          noBytes).value 1 = [97, 97, 97, 97, 97]) := by
  have hr0 : Ring (q_new blankHeap 10).1 10 [] := q_new_ring blankHeap 10 (by decide)
  have hc : toSize (toInt32 ((4294967301 : Nat) : Int)) = 5 := by decide
  have hst := stored_replicate 4294967301 97 5 (by decide) (by decide) hc
  obtain ⟨hb1, hr1, hv1, _⟩ := q_insert_tail_ok hr0 (List.replicate 4294967301 97) 1 1
    (by decide) (by decide) (by decide)
  obtain ⟨hb2, hr2, hv2, _⟩ := q_insert_head_ok hr0 (List.replicate 4294967301 97) 1 1
    (by decide) (by decide) (by decide)
  refine ⟨strlen_replicate 4294967301 97 (by decide), ⟨hb1, ?_, ?_⟩, hb2, ?_, ?_⟩
  · exact drain_spec 0 0 1 [1] _ noBytes hr1
  · rw [drainHeap_value, hv1, upd_same, hst]; rfl
  · exact drain_spec 0 0 1 [1] _ noBytes hr2
  · rw [drainHeap_value, hv2, upd_same, hst]; rfl

/-- Insertion and drain for strings shorter than `2^31` bytes.  From an empty queue, with
every allocation succeeding at addresses not in use, after `q_insert_tail` of the strings
`ss` in order the successive calls of `q_remove_head` return the elements in insertion
order and then `NULL`, and after `q_insert_head` of `ss` in order they return the
elements in reverse insertion order and then `NULL`; after the drain the string of the
`i`-th element inserted is the `i`-th string of `ss` (up to its first NUL). -/
theorem insert_then_drain_order (h : Heap) (mem : Nat → Nat) (head sp bufsize : Nat)
    (ss : List (List Nat)) (ps : List Nat) (hr : Ring h head [])
    (hl : ss.length = ps.length) (hnd : (head :: ps).Nodup) (h0 : 0 ∉ ps)
    (hss : ∀ s, s ∈ ss → strlen s < 2147483648) :
    (drain head sp bufsize (ps.length + 1) (insert_tail_all head h ss ps) mem = ps ++ [0] ∧
      ps.map (drainHeap head sp bufsize (ps.length + 1)
          (insert_tail_all head h ss ps) mem).value =
        ss.map (fun s => s.takeWhile (fun b => b != 0))) ∧
    (drain head sp bufsize (ps.length + 1) (insert_head_all head h ss ps) mem =
        ps.reverse ++ [0] ∧
      ps.map (drainHeap head sp bufsize (ps.length + 1)
          (insert_head_all head h ss ps) mem).value =
        ss.map (fun s => s.takeWhile (fun b => b != 0))) := by
  obtain ⟨hr1, hm1, _, _⟩ := insert_tail_all_spec ss ps h [] hr hl (by simpa using hnd) h0
  obtain ⟨hr2, hm2, _, _⟩ := insert_head_all_spec ss ps h [] hr hl (by simpa using hnd) h0
  rw [List.nil_append] at hr1
  rw [List.append_nil] at hr2
  have hstored : ss.map (fun s => strncpy s (toSize (toInt32 (strlen s)))) =
      ss.map (fun s => s.takeWhile (fun b => b != 0)) :=
    List.map_congr_left (fun s hs => stored_string s (hss s hs))
  refine ⟨⟨?_, ?_⟩, ?_, ?_⟩
  · exact drain_spec sp bufsize 1 ps _ mem hr1
  · rw [drainHeap_value, hm1, hstored]
  · have := drain_spec sp bufsize 1 ps.reverse _ mem hr2
    rwa [List.length_reverse] at this
  · rw [drainHeap_value, hm2, hstored]

/-- Insertion and drain of the strings "a", "b", "c" on a new queue. -/
theorem insert_then_drain_order_witness :
    Ring (q_new blankHeap 10).1 10 [] ∧
      (drain 10 0 0 4 (insert_tail_all 10 (q_new blankHeap 10).1 [[97], [98], [99]] [1, 2, 3])
          noBytes = [1, 2, 3, 0] ∧
        [1, 2, 3].map (drainHeap 10 0 0 4 (insert_tail_all 10 (q_new blankHeap 10).1
          [[97], [98], [99]] [1, 2, 3]) noBytes).value = [[97], [98], [99]]) ∧
      (drain 10 0 0 4 (insert_head_all 10 (q_new blankHeap 10).1 [[97], [98], [99]] [1, 2, 3])
          noBytes = [3, 2, 1, 0] ∧
        [1, 2, 3].map (drainHeap 10 0 0 4 (insert_head_all 10 (q_new blankHeap 10).1
          [[97], [98], [99]] [1, 2, 3]) noBytes).value = [[97], [98], [99]]) :=
  ⟨by decide, insert_then_drain_order (q_new blankHeap 10).1 noBytes 10 0 0
    [[97], [98], [99]] [1, 2, 3] (by decide) (by decide) (by decide) (by decide)
    (by decide)⟩

/-- The size of queues of fewer than `2^31` elements.  After every sequence of calls of
`q_insert_head`, `q_insert_tail`, `q_remove_head` and `q_remove_tail` on an initially
empty queue, with `malloc` returning addresses that are not in use by the queue, `q_size`
returns `k - j`, for `k` the number of insertions that returned `true` and `j` the number
of removals that returned an element, when `k - j < 2^31`; `q_size` of the absent queue
is 0. -/
theorem q_size_counts (fuel : Nat) (h : Heap) (mem : Nat → Nat) (head : Nat)
    (cs : List Call) (hr : Ring h head []) (hfr : freshCalls head [] cs = true)
    (hb : (runCalls head ⟨h, mem, 0, 0⟩ cs).inserted -
      (runCalls head ⟨h, mem, 0, 0⟩ cs).removed < 2147483648)
    (hf : (runCalls head ⟨h, mem, 0, 0⟩ cs).inserted -
      (runCalls head ⟨h, mem, 0, 0⟩ cs).removed < fuel) :
    (runCalls head ⟨h, mem, 0, 0⟩ cs).removed ≤ (runCalls head ⟨h, mem, 0, 0⟩ cs).inserted ∧
      q_size fuel (runCalls head ⟨h, mem, 0, 0⟩ cs).heap head =
        some (((runCalls head ⟨h, mem, 0, 0⟩ cs).inserted : Int) -
          (runCalls head ⟨h, mem, 0, 0⟩ cs).removed) ∧
      q_size fuel (runCalls head ⟨h, mem, 0, 0⟩ cs).heap 0 = some 0 := by
  obtain ⟨ys, hring, hlen⟩ := runCalls_spec cs ⟨h, mem, 0, 0⟩ [] hr rfl hfr
  refine ⟨by omega, ?_, by simp [q_size]⟩
  rw [q_size_spec hring (by omega) (by omega)]
  congr 1
  omega

/-- The size after a run of nine calls in which four insertions and two removals succeed
and the address of a removed element is allocated again. -/
theorem q_size_counts_witness :
    Ring (q_new blankHeap 10).1 10 [] ∧
      ((runCalls 10 ⟨(q_new blankHeap 10).1, noBytes, 0, 0⟩ exampleCalls).inserted = 4 ∧
        (runCalls 10 ⟨(q_new blankHeap 10).1, noBytes, 0, 0⟩ exampleCalls).removed = 2) ∧
      ((runCalls 10 ⟨(q_new blankHeap 10).1, noBytes, 0, 0⟩ exampleCalls).removed ≤
          (runCalls 10 ⟨(q_new blankHeap 10).1, noBytes, 0, 0⟩ exampleCalls).inserted ∧
        q_size 4 (runCalls 10 ⟨(q_new blankHeap 10).1, noBytes, 0, 0⟩ exampleCalls).heap 10 =
          some (((runCalls 10 ⟨(q_new blankHeap 10).1, noBytes, 0, 0⟩
              exampleCalls).inserted : Int) -
            (runCalls 10 ⟨(q_new blankHeap 10).1, noBytes, 0, 0⟩ exampleCalls).removed) ∧
        q_size 4 (runCalls 10 ⟨(q_new blankHeap 10).1, noBytes, 0, 0⟩ exampleCalls).heap 0 =
          some 0) :=
  ⟨by decide, by decide, q_size_counts 4 (q_new blankHeap 10).1 noBytes 10 exampleCalls
    (by decide) (by decide) (by decide) (by decide)⟩

/-- C13: on every non-empty well-formed queue, for every buffer `sp` and every `bufsize`,
`q_remove_head` (resp. `q_remove_tail`) unlinks and returns the first (resp. last)
element, whose string is unchanged; when `bufsize > 0` the buffer then holds the first
`min (strlen (value), bufsize - 1)` bytes of that string followed by a NUL and no byte at
or beyond index `bufsize` is changed, and when `bufsize = 0` nothing is written. -/
theorem q_remove_copies_string (h : Heap) (mem : Nat → Nat) (head sp bufsize : Nat)
    (zs : List Nat) (hr : Ring h head zs) (hne : zs ≠ []) :
    ((q_remove_head h mem head sp bufsize).2.2 = firstD zs head ∧
      Ring (q_remove_head h mem head sp bufsize).1 head zs.tail ∧
      (q_remove_head h mem head sp bufsize).1.value = h.value ∧
      Copied mem (q_remove_head h mem head sp bufsize).2.1 sp bufsize
        (h.value (firstD zs head))) ∧
    ((q_remove_tail h mem head sp bufsize).2.2 = lastD zs head ∧
      Ring (q_remove_tail h mem head sp bufsize).1 head zs.dropLast ∧
      (q_remove_tail h mem head sp bufsize).1.value = h.value ∧
      Copied mem (q_remove_tail h mem head sp bufsize).2.1 sp bufsize
        (h.value (lastD zs head))) := by
  have hcopy : ∀ v : List Nat, Copied mem
      (if bufsize > 0 then
        upd (storeBytes mem sp (strncpy v (bufsize - 1))) (sp + bufsize - 1) 0
      else mem) sp bufsize v := by
    intro v
    constructor
    · intro hb
      rw [if_neg (by omega)]
    · intro hb
      rw [if_pos hb]
      exact copy_out mem v sp bufsize hb
  constructor
  · cases zs with
    | nil => exact absurd rfl hne
    | cons x xs =>
      rw [q_remove_head_eq hr mem sp bufsize]
      exact ⟨rfl, ring_del_head hr, rfl, hcopy _⟩
  · rcases nil_or_snoc zs with e | ⟨xs, x, e⟩
    · exact absurd e hne
    · subst e
      rw [q_remove_tail_eq hr mem sp bufsize, lastD_snoc, List.dropLast_concat]
      exact ⟨rfl, ring_del_last hr, rfl, hcopy _⟩

/-- C13, on the queue "1", "2", "3" with a buffer of 2 bytes at the address 100. -/
theorem q_remove_copies_string_witness :
    Ring (ringHeap 3 10 digitStr) 10 [1, 2, 3] ∧
      ((q_remove_head (ringHeap 3 10 digitStr) noBytes 10 100 2).2.2 = 1 ∧
        Ring (q_remove_head (ringHeap 3 10 digitStr) noBytes 10 100 2).1 10 [2, 3] ∧
        (q_remove_head (ringHeap 3 10 digitStr) noBytes 10 100 2).1.value = digitStr ∧
        Copied noBytes (q_remove_head (ringHeap 3 10 digitStr) noBytes 10 100 2).2.1 100 2
          [49]) ∧
      ((q_remove_tail (ringHeap 3 10 digitStr) noBytes 10 100 2).2.2 = 3 ∧
        Ring (q_remove_tail (ringHeap 3 10 digitStr) noBytes 10 100 2).1 10 [1, 2] ∧
        (q_remove_tail (ringHeap 3 10 digitStr) noBytes 10 100 2).1.value = digitStr ∧
        Copied noBytes (q_remove_tail (ringHeap 3 10 digitStr) noBytes 10 100 2).2.1 100 2
          [51]) :=
  ⟨by decide, q_remove_copies_string (ringHeap 3 10 digitStr) noBytes 10 100 2 [1, 2, 3]
    (by decide) (by decide)⟩

/-- C14, the code with the buffer absent: on the queue "1", "2", "3", with `sp = NULL` and
`bufsize = 2`, `q_remove_head` and `q_remove_tail` return the head and the tail element
and write through `sp`: the byte at the address 0, which held 255, receives the first
byte of the string and the byte at the address 1 receives NUL. -/
theorem q_remove_null_buffer_writes :
    Ring (ringHeap 3 10 digitStr) 10 [1, 2, 3] ∧ noBytes 0 = 255 ∧ noBytes 1 = 255 ∧
      ((q_remove_head (ringHeap 3 10 digitStr) noBytes 10 0 2).2.2 = 1 ∧
        (q_remove_head (ringHeap 3 10 digitStr) noBytes 10 0 2).2.1 0 = 49 ∧
        (q_remove_head (ringHeap 3 10 digitStr) noBytes 10 0 2).2.1 1 = 0) ∧
      ((q_remove_tail (ringHeap 3 10 digitStr) noBytes 10 0 2).2.2 = 3 ∧
        (q_remove_tail (ringHeap 3 10 digitStr) noBytes 10 0 2).2.1 0 = 51 ∧
        (q_remove_tail (ringHeap 3 10 digitStr) noBytes 10 0 2).2.1 1 = 0) := by
  decide

/-- C15: on an empty queue, and on the absent queue, `q_remove_head` and `q_remove_tail`
return `NULL` and leave the list memory and the byte memory, hence the queue and the
buffer, as they are, for every buffer and `bufsize`. -/
theorem q_remove_empty_no_mutation (h : Heap) (mem : Nat → Nat) (head sp bufsize : Nat)
    (hr : Ring h head []) :
    q_remove_head h mem head sp bufsize = (h, mem, 0) ∧
      q_remove_tail h mem head sp bufsize = (h, mem, 0) ∧
      q_remove_head h mem 0 sp bufsize = (h, mem, 0) ∧
      q_remove_tail h mem 0 sp bufsize = (h, mem, 0) :=
  ⟨q_remove_head_none h mem head sp bufsize (Or.inr (hr.list_empty_iff.2 rfl)),
    q_remove_tail_none h mem head sp bufsize (Or.inr (hr.list_empty_iff.2 rfl)),
    q_remove_head_none h mem 0 sp bufsize (Or.inl rfl),
    q_remove_tail_none h mem 0 sp bufsize (Or.inl rfl)⟩

/-- C15, on a new queue with a buffer of 8 bytes at the address 100. -/
theorem q_remove_empty_no_mutation_witness :
    Ring (q_new blankHeap 10).1 10 [] ∧
      (q_remove_head (q_new blankHeap 10).1 noBytes 10 100 8 =
          ((q_new blankHeap 10).1, noBytes, 0) ∧
        q_remove_tail (q_new blankHeap 10).1 noBytes 10 100 8 =
          ((q_new blankHeap 10).1, noBytes, 0) ∧
        q_remove_head (q_new blankHeap 10).1 noBytes 0 100 8 =
          ((q_new blankHeap 10).1, noBytes, 0) ∧
        q_remove_tail (q_new blankHeap 10).1 noBytes 0 100 8 =
          ((q_new blankHeap 10).1, noBytes, 0)) :=
  ⟨by decide, q_remove_empty_no_mutation (q_new blankHeap 10).1 noBytes 10 100 8
    (by decide)⟩

/-- C16: `q_reverse` is an involution: on every well-formed queue two successive calls of
`q_reverse` return and leave the queue with its original forward order and with every
`next` and `prev` link, every string and the release log as they were. -/
theorem q_reverse_involution (fuel : Nat) (h : Heap) (head : Nat) (xs : List Nat)
    (hr : Ring h head xs) (hf : xs.length + 1 < fuel) :
    ∃ h1 h2, q_reverse fuel h head = some h1 ∧ q_reverse fuel h1 head = some h2 ∧
      Ring h1 head xs.reverse ∧ Ring h2 head xs ∧
      h2.next = h.next ∧ h2.prev = h.prev ∧ h2.value = h.value ∧
      h2.released = h.released := by
  obtain ⟨h1, hrun1, hring1, hv1, hrel1⟩ := q_reverse_spec hr hf
  have hf2 : xs.reverse.length + 1 < fuel := by rw [List.length_reverse]; exact hf
  obtain ⟨h2, hrun2, hring2, hv2, hrel2⟩ := q_reverse_spec hring1 hf2
  rw [List.reverse_reverse] at hring2
  have hfr1 := q_reverse_frame hr hf hrun1
  have hfr2 := q_reverse_frame hring1 hf2 hrun2
  have hlinks : ∀ a, h2.next a = h.next a ∧ h2.prev a = h.prev a := by
    intro a
    by_cases ha : a ∈ head :: xs
    · exact ring_links_unique hr hring2 a ha
    · have ha' : a ∉ head :: xs.reverse := by
        intro hm
        apply ha
        simpa using hm
      exact ⟨((hfr2 a ha').1).trans (hfr1 a ha).1, ((hfr2 a ha').2).trans (hfr1 a ha).2⟩
  exact ⟨h1, h2, hrun1, hrun2, hring1, hring2, funext fun a => (hlinks a).1,
    funext fun a => (hlinks a).2, hv2.trans hv1, hrel2.trans hrel1⟩

/-- C16, on the queue "1", .., "5". -/
theorem q_reverse_involution_witness :
    Ring (ringHeap 5 10 digitStr) 10 [1, 2, 3, 4, 5] ∧
      ∃ h1 h2, q_reverse 7 (ringHeap 5 10 digitStr) 10 = some h1 ∧
        q_reverse 7 h1 10 = some h2 ∧
        Ring h1 10 [5, 4, 3, 2, 1] ∧ Ring h2 10 [1, 2, 3, 4, 5] ∧
        h2.next = (ringHeap 5 10 digitStr).next ∧ h2.prev = (ringHeap 5 10 digitStr).prev ∧
        h2.value = digitStr ∧ h2.released = [] :=
  ⟨by decide, q_reverse_involution 7 (ringHeap 5 10 digitStr) 10 [1, 2, 3, 4, 5]
    (by decide) (by decide)⟩

/-- C17: `q_sort` is idempotent: on every well-formed queue two successive calls of
`q_sort` return, and the second leaves the sequence of elements `ys` of the first, with
the same strings. -/
theorem q_sort_idempotent (fuel : Nat) (h : Heap) (head : Nat) (xs : List Nat)
    (hr : Ring h head xs) (hf : xs.length + 2 < fuel) :
    ∃ h1 h2 ys, q_sort fuel h head = some h1 ∧ q_sort fuel h1 head = some h2 ∧
      Ring h1 head ys ∧ Ring h2 head ys ∧ h2.value = h1.value ∧
      ys.map h2.value = ys.map h1.value := by
  obtain ⟨h1, hrun1, hring1, hv1, _⟩ := q_sort_spec hr hf
  obtain ⟨h2, hrun2, hring2, hv2, _⟩ := q_sort_spec hring1
    (by rw [List.length_mergeSort]; exact hf)
  have hsorted : (xs.mergeSort (strLE h.value)).Pairwise
      (fun a b => strLE h.value a b = true) :=
    List.sorted_mergeSort (strLE_trans h.value) (strLE_total h.value) xs
  rw [hv1, List.mergeSort_of_sorted hsorted] at hring2
  exact ⟨h1, h2, _, hrun1, hrun2, hring1, hring2, hv2, by rw [hv2]⟩

/-- C17, on the queue "b", "a", "a". -/
theorem q_sort_idempotent_witness :
    Ring (ringHeap 3 10 tagStr) 10 [1, 2, 3] ∧
      ∃ h1 h2 ys, q_sort 6 (ringHeap 3 10 tagStr) 10 = some h1 ∧ q_sort 6 h1 10 = some h2 ∧
        Ring h1 10 ys ∧ Ring h2 10 ys ∧ h2.value = h1.value ∧
        ys.map h2.value = ys.map h1.value :=
  ⟨by decide, q_sort_idempotent 6 (ringHeap 3 10 tagStr) 10 [1, 2, 3] (by decide)
    (by decide)⟩

/-- C18, the code on a string of `2^32 + 5` bytes "a": on the queue "1", "2", "3", with
both allocations succeeding, `q_insert_head` and `q_insert_tail` return `true` and link
the new element, but its string is "aaaaa", the first 5 bytes, not the string `s`:
`int str_size` is `5`. -/
theorem q_insert_long_string :
    strlen (List.replicate 4294967301 97) = 4294967301 ∧
      ((q_insert_head (ringHeap 3 10 digitStr) 10 (List.replicate 4294967301 97) 7 1).2 =
          true ∧
        Ring (q_insert_head (ringHeap 3 10 digitStr) 10 (List.replicate 4294967301 97) 7 1).1
          10 [7, 1, 2, 3] ∧
        (q_insert_head (ringHeap 3 10 digitStr) 10 (List.replicate 4294967301 97) 7 1).1.value
          7 = [97, 97, 97, 97, 97]) ∧
      ((q_insert_tail (ringHeap 3 10 digitStr) 10 (List.replicate 4294967301 97) 7 1).2 =
          true ∧
        Ring (q_insert_tail (ringHeap 3 10 digitStr) 10 (List.replicate 4294967301 97) 7 1).1
          10 [1, 2, 3, 7] ∧
        (q_insert_tail (ringHeap 3 10 digitStr) 10 (List.replicate 4294967301 97) 7 1).1.value
          7 = [97, 97, 97, 97, 97]) := by
  have hr0 : Ring (ringHeap 3 10 digitStr) 10 [1, 2, 3] := by decide
  have hc : toSize (toInt32 ((4294967301 : Nat) : Int)) = 5 := by decide
  have hst := stored_replicate 4294967301 97 5 (by decide) (by decide) hc
  obtain ⟨hb1, hr1, hv1, _⟩ := q_insert_head_ok hr0 (List.replicate 4294967301 97) 7 1
    (by decide) (by decide) (by decide)
  obtain ⟨hb2, hr2, hv2, _⟩ := q_insert_tail_ok hr0 (List.replicate 4294967301 97) 7 1
    (by decide) (by decide) (by decide)
  refine ⟨strlen_replicate 4294967301 97 (by decide), ⟨hb1, hr1, ?_⟩, hb2, hr2, ?_⟩
  · rw [hv1, upd_same, hst]; rfl
  · rw [hv2, upd_same, hst]; rfl

/-- Insertion of a string shorter than `2^31` bytes is atomic.  On a well-formed queue,
with `malloc` returning `NULL` or an address not in use, `q_insert_head` and
`q_insert_tail` return `false` exactly when the allocation of the element or of its string
fails, and then the memory is unchanged; when they return `true` the queue is the old one
with the new element first (resp. last), the string of the new element is `s` (up to its
first NUL) and no other string is changed.  On the absent queue they return `false` and
change nothing. -/
theorem q_insert_atomic (h : Heap) (head : Nat) (s : List Nat) (p pv : Nat)
    (xs : List Nat) (hr : Ring h head xs) (hp : p = 0 ∨ p ∉ head :: xs)
    (hs : strlen s < 2147483648) :
    (((q_insert_head h head s p pv).2 = false ↔ (p = 0 ∨ pv = 0)) ∧
      ((q_insert_head h head s p pv).2 = false → (q_insert_head h head s p pv).1 = h) ∧
      ((q_insert_head h head s p pv).2 = true →
        Ring (q_insert_head h head s p pv).1 head (p :: xs) ∧
        (q_insert_head h head s p pv).1.value p = s.takeWhile (fun b => b != 0) ∧
        (0 ∉ s → (q_insert_head h head s p pv).1.value p = s) ∧
        ∀ a, a ≠ p → (q_insert_head h head s p pv).1.value a = h.value a)) ∧
    (((q_insert_tail h head s p pv).2 = false ↔ (p = 0 ∨ pv = 0)) ∧
      ((q_insert_tail h head s p pv).2 = false → (q_insert_tail h head s p pv).1 = h) ∧
      ((q_insert_tail h head s p pv).2 = true →
        Ring (q_insert_tail h head s p pv).1 head (xs ++ [p]) ∧
        (q_insert_tail h head s p pv).1.value p = s.takeWhile (fun b => b != 0) ∧
        (0 ∉ s → (q_insert_tail h head s p pv).1.value p = s) ∧
        ∀ a, a ≠ p → (q_insert_tail h head s p pv).1.value a = h.value a)) ∧
    q_insert_head h 0 s p pv = (h, false) ∧ q_insert_tail h 0 s p pv = (h, false) := by
  refine ⟨?_, ?_, q_insert_head_fail h 0 s p pv (Or.inl rfl),
    q_insert_tail_fail h 0 s p pv (Or.inl rfl)⟩
  · by_cases hfail : p = 0 ∨ pv = 0
    · have e := q_insert_head_fail h head s p pv (Or.inr hfail)
      rw [e]
      exact ⟨⟨fun _ => hfail, fun _ => rfl⟩, fun _ => rfl, fun hc => by simp at hc⟩
    · rw [not_or] at hfail
      have hfresh : p ∉ head :: xs := hp.resolve_left hfail.1
      obtain ⟨hb, hring, hv, _⟩ := q_insert_head_ok hr s p pv hfresh hfail.1 hfail.2
      refine ⟨⟨fun hc => ?_, fun hc => ?_⟩, fun hc => ?_, fun _ => ⟨hring, ?_, ?_, ?_⟩⟩
      · rw [hb] at hc; simp at hc
      · exact absurd hc (not_or.2 hfail)
      · rw [hb] at hc; simp at hc
      · rw [hv, upd_same, stored_string s hs]
      · intro h0; rw [hv, upd_same, stored_string s hs, takeWhile_nonzero s h0]
      · intro a ha; rw [hv]; exact upd_other _ _ _ _ ha
  · by_cases hfail : p = 0 ∨ pv = 0
    · have e := q_insert_tail_fail h head s p pv (Or.inr hfail)
      rw [e]
      exact ⟨⟨fun _ => hfail, fun _ => rfl⟩, fun _ => rfl, fun hc => by simp at hc⟩
    · rw [not_or] at hfail
      have hfresh : p ∉ head :: xs := hp.resolve_left hfail.1
      obtain ⟨hb, hring, hv, _⟩ := q_insert_tail_ok hr s p pv hfresh hfail.1 hfail.2
      refine ⟨⟨fun hc => ?_, fun hc => ?_⟩, fun hc => ?_, fun _ => ⟨hring, ?_, ?_, ?_⟩⟩
      · rw [hb] at hc; simp at hc
      · exact absurd hc (not_or.2 hfail)
      · rw [hb] at hc; simp at hc
      · rw [hv, upd_same, stored_string s hs]
      · intro h0; rw [hv, upd_same, stored_string s hs, takeWhile_nonzero s h0]
      · intro a ha; rw [hv]; exact upd_other _ _ _ _ ha

/-- Insertion of the string "a", allocated at the address 7, into the queue "1", "2",
"3". -/
theorem q_insert_atomic_witness :
    Ring (ringHeap 3 10 digitStr) 10 [1, 2, 3] ∧
      (Ring (q_insert_head (ringHeap 3 10 digitStr) 10 [97] 7 1).1 10 [7, 1, 2, 3] ∧
        Ring (q_insert_tail (ringHeap 3 10 digitStr) 10 [97] 7 1).1 10 [1, 2, 3, 7] ∧
        (q_insert_head (ringHeap 3 10 digitStr) 10 [97] 7 1).1.value 7 = [97]) ∧
      q_insert_head (ringHeap 3 10 digitStr) 10 [97] 7 0 = (ringHeap 3 10 digitStr, false) ∧
      q_insert_head (ringHeap 3 10 digitStr) 0 [97] 7 1 = (ringHeap 3 10 digitStr, false) :=
  ⟨by decide, ⟨by decide, by decide, by decide⟩, by
    have hw := q_insert_atomic (ringHeap 3 10 digitStr) 10 [97] 7 0 [1, 2, 3] (by decide)
      (Or.inr (by decide)) (by decide)
    exact Prod.ext (hw.1.2.1 (hw.1.1.2 (Or.inr rfl))) (hw.1.1.2 (Or.inr rfl)),
    (q_insert_atomic (ringHeap 3 10 digitStr) 10 [97] 7 1 [1, 2, 3] (by decide)
      (Or.inr (by decide)) (by decide)).2.2.1⟩

/-- C19: `q_sort` terminates.  On every NULL-terminated chain `xs` of `n >= 2` distinct
nodes whose `prev` links are in order, the fast/slow loop of `mergesort` returns `slow`
and the cut at `slow` leaves two NULL-terminated chains with `prev` links in order, the
first `(n + 1) / 2` nodes of `xs` from the old start and the last `n / 2` nodes from
`slow`; both are non-empty and shorter than `n`, and `mergesort` returns on `xs` with
fuel above `n + 1`, whatever the strings.  `q_sort` returns on every well-formed queue of
fewer than `fuel - 2` elements. -/
theorem mergesort_split_terminates (fuel : Nat) (h : Heap) (p : Nat) (xs : List Nat)
    (hp : Path h.next p xs 0) (hnd : xs.Nodup) (h0 : 0 ∉ xs) (hpv : PrevOK h.prev xs)
    (hn : 2 ≤ xs.length) (hf : xs.length + 1 < fuel) :
    (∃ slow, mergesort_split fuel h (h.next p) (h.next p) = some slow ∧
      Path (h.setNext (h.prev slow) 0).next p (xs.take ((xs.length + 1) / 2)) 0 ∧
      Path (h.setNext (h.prev slow) 0).next slow (xs.drop ((xs.length + 1) / 2)) 0 ∧
      PrevOK (h.setNext (h.prev slow) 0).prev (xs.take ((xs.length + 1) / 2)) ∧
      PrevOK (h.setNext (h.prev slow) 0).prev (xs.drop ((xs.length + 1) / 2))) ∧
    ((xs.take ((xs.length + 1) / 2)).length = (xs.length + 1) / 2 ∧
      (xs.drop ((xs.length + 1) / 2)).length = xs.length / 2 ∧
      1 ≤ xs.length / 2 ∧ xs.length / 2 ≤ (xs.length + 1) / 2 ∧
      (xs.length + 1) / 2 < xs.length) ∧
    (∃ r, mergesort fuel h p = some r) ∧
    (∀ g head ys, Ring g head ys → ys.length + 2 < fuel →
      ∃ g', q_sort fuel g head = some g') := by
  refine ⟨?_, ⟨?_, ?_, by omega, by omega, by omega⟩, ?_, ?_⟩
  · have hs := mergesort_split_spec hp h0 fuel 0 (by omega) (by omega)
    have e : (xs ++ [0]).getD 1 0 = h.next p := by
      rw [← path_getD_succ hp 0 (by omega), path_getD_zero hp]
    rw [show 2 * 0 + 1 = 1 from rfl, e] at hs
    obtain ⟨A, al, slow, B, hA, hB, hslow⟩ := split_shape xs ((xs.length + 1) / 2)
      (by omega) (by omega)
    rw [hslow] at hs
    have hxs : xs = (A ++ [al]) ++ slow :: B := by
      rw [← hA, ← hB, List.take_append_drop]
    have hp' := hp
    have hnd' := hnd
    have hpv' := hpv
    rw [hxs] at hp' hnd' hpv'
    obtain ⟨hc1, hc2⟩ := mergesort_cut hp' hnd' hpv'
    refine ⟨slow, hs, ?_, ?_, ?_, ?_⟩
    · rw [hA]; exact hc1
    · rw [hB]; exact hc2
    · rw [hA]; exact prevOK_left hpv'
    · rw [hB]; exact prevOK_right hpv'
  · rw [List.length_take]; omega
  · rw [List.length_drop]; omega
  · obtain ⟨h', p', hrun, _⟩ := mergesort_spec fuel h p xs hp hnd h0 hpv hf
    exact ⟨(h', p'), hrun⟩
  · intro g head ys hr hfy
    obtain ⟨g', hrun, _⟩ := q_sort_spec hr hfy
    exact ⟨g', hrun⟩

/-- C19, on the chain of the queue "b", "a", "a" broken at the sentinel. -/
theorem mergesort_split_terminates_witness :
    (Path ((ringHeap 3 10 tagStr).setNext 3 0).next 1 [1, 2, 3] 0 ∧
      PrevOK ((ringHeap 3 10 tagStr).setNext 3 0).prev [1, 2, 3]) ∧
      (∃ slow, mergesort_split 5 ((ringHeap 3 10 tagStr).setNext 3 0) 2 2 = some slow ∧
        Path (((ringHeap 3 10 tagStr).setNext 3 0).setNext 2 0).next 1 [1, 2] 0 ∧
        Path (((ringHeap 3 10 tagStr).setNext 3 0).setNext 2 0).next slow [3] 0) ∧
      ∃ r, mergesort 5 ((ringHeap 3 10 tagStr).setNext 3 0) 1 = some r :=
  ⟨⟨by decide, @Ring.prevOK (ringHeap 3 10 tagStr) 10 [1, 2, 3] (by decide)⟩,
    ⟨3, rfl, by decide, by decide⟩,
    (mergesort_split_terminates 5 ((ringHeap 3 10 tagStr).setNext 3 0) 1 [1, 2, 3]
      (by decide) (by decide) (by decide)
      (@Ring.prevOK (ringHeap 3 10 tagStr) 10 [1, 2, 3] (by decide)) (by decide)
      (by decide)).2.2.1⟩

/-- C20: on every non-empty well-formed queue, sorted or not, `q_delete_dup` returns
`true` and leaves a subsequence `ys` of the elements, in their original order, made of
exactly the elements whose string equals neither the string of the element before nor
the string of the element after, that is, of the elements outside every run of two or
more adjacent elements with equal strings. -/
theorem q_delete_dup_removes_runs (fuel : Nat) (h : Heap) (head : Nat) (xs : List Nat)
    (hr : Ring h head xs) (hne : xs ≠ []) (hf : xs.length < fuel) :
    ∃ h' ys, q_delete_dup fuel h head = some (h', true) ∧ Ring h' head ys ∧
      h'.value = h.value ∧ List.Sublist ys xs ∧
      ∀ pre x post, xs = pre ++ x :: post →
        (x ∈ ys ↔ pre.getLast?.any (fun q => sameStr h.value q x) = false ∧
          post.head?.any (fun y => sameStr h.value x y) = false) := by
  obtain ⟨h', hrun, hring, hv⟩ := q_delete_dup_spec hr hne hf
  refine ⟨h', _, hrun, hring, hv, dropRuns_sublist h.value xs none, ?_⟩
  intro pre x post hxs
  have hnd : (pre ++ x :: post).Nodup := by
    rw [← hxs]; exact (List.nodup_cons.1 hr.1).2
  have := dropRuns_mem_iff h.value pre none x post hnd
  rw [Option.or_none] at this
  rw [hxs]
  exact this

/-- C20, on the unsorted queue "a", "b", "b", "a", of which the two "a" are left,
adjacent. -/
theorem q_delete_dup_removes_runs_witness :
    Ring (ringHeap 4 10 abbaStr) 10 [1, 2, 3, 4] ∧
      (∃ h' ys, q_delete_dup 5 (ringHeap 4 10 abbaStr) 10 = some (h', true) ∧
        Ring h' 10 ys ∧ h'.value = abbaStr ∧ List.Sublist ys [1, 2, 3, 4] ∧
        ∀ pre x post, [1, 2, 3, 4] = pre ++ x :: post →
          (x ∈ ys ↔ pre.getLast?.any (fun q => sameStr abbaStr q x) = false ∧
            post.head?.any (fun y => sameStr abbaStr x y) = false)) ∧
      ∃ h', q_delete_dup 5 (ringHeap 4 10 abbaStr) 10 = some (h', true) ∧
        Ring h' 10 [1, 4] ∧ [1, 4].map h'.value = [[97], [97]] :=
  ⟨by decide, q_delete_dup_removes_runs 5 (ringHeap 4 10 abbaStr) 10 [1, 2, 3, 4]
    (by decide) (by decide) (by decide), _, rfl, by decide, by decide⟩

end Queue
